import Mathlib

/-!
# Verification of the code-analysis toolkit (analyzer + graph builder)

Shallow embedding of the parts of the repository that the claims are
about:

* `backend/domain/analyzer.py`
  - `JavaAnalyzer._extract_block_content` (brace-balanced block scanner)
  - the per-body call-name extraction step (`(\w+)\s*\(` matches) used by
    the Java / Go / C++ / C / JavaScript heuristic analyzers, with the
    keyword exclusion lists of the C and JavaScript analyzers
  - the Python AST visitor (`PythonASTVisitor`) over a Lean model of the
    relevant fragment of the Python AST
  - the error-record shape of `PythonAnalyzer.analyze` and
    `JavaAnalyzer.analyze`
* `backend/services/analysis_service.py`
  - `AnalysisService.normalize_path`
  - `AnalysisService._prepare_visualization_data` (graph builder:
    pass 1 node / tentative-link creation, pass 2 call resolution,
    module-hierarchy pass)

Python dicts are modelled as association lists with insert-or-update
semantics (`dictSet` keeps the position of an existing key, appends new
keys), which matches CPython's insertion-ordered dicts; `alookup` is
ordinary first-match lookup, which agrees with dict lookup because
`dictSet` keeps keys unique.
-/

namespace CodeAn

/-- Association-list lookup (first match; keys built by `dictSet` are
unique, so this agrees with Python dict lookup). -/
def alookup {V : Type} : List (String × V) → String → Option V
  | [], _ => none
  | (k, v) :: rest, key => if k = key then some v else alookup rest key

/-- Python dict assignment `d[k] = v`: replace the value in place if the
key exists (keeping its position), otherwise append the new binding. -/
def dictSet {V : Type} (d : List (String × V)) (k : String) (v : V) :
    List (String × V) :=
  if (d.map Prod.fst).contains k then
    d.map (fun p => if p.1 = k then (k, v) else p)
  else
    d ++ [(k, v)]

/-- The keys of an association list, in order. -/
def dictKeys {V : Type} (d : List (String × V)) : List String :=
  d.map Prod.fst

theorem alookup_isSome_iff {V : Type} (d : List (String × V)) (key : String) :
    (alookup d key).isSome ↔ key ∈ dictKeys d := by
  induction d with
  | nil => simp [alookup, dictKeys]
  | cons p rest ih =>
    obtain ⟨a, b⟩ := p
    by_cases hak : a = key
    · subst hak
      simp [alookup, dictKeys]
    · simp [alookup, dictKeys, hak, ih, Ne.symm hak]

theorem alookup_replace_ne {V : Type} (d : List (String × V)) (k : String)
    (v : V) (key : String) (hne : key ≠ k) :
    alookup (d.map (fun p => if p.1 = k then (k, v) else p)) key =
      alookup d key := by
  induction d with
  | nil => rfl
  | cons p rest ih =>
    obtain ⟨a, b⟩ := p
    by_cases hak : a = k
    · subst hak
      simp only [List.map_cons, if_pos rfl]
      show (if a = key then some v else _) = (if a = key then some b else _)
      rw [if_neg (fun h => hne h.symm), if_neg (fun h => hne h.symm)]
      exact ih
    · simp only [List.map_cons, if_neg hak]
      show (if a = key then some b else _) = (if a = key then some b else _)
      by_cases hakey : a = key
      · rw [if_pos hakey, if_pos hakey]
      · rw [if_neg hakey, if_neg hakey]
        exact ih

theorem alookup_replace_eq {V : Type} (d : List (String × V)) (k : String)
    (v : V) (hk : k ∈ dictKeys d) :
    alookup (d.map (fun p => if p.1 = k then (k, v) else p)) k = some v := by
  induction d with
  | nil => simp [dictKeys] at hk
  | cons p rest ih =>
    obtain ⟨a, b⟩ := p
    by_cases hak : a = k
    · subst hak
      simp only [List.map_cons, if_pos rfl]
      show (if a = a then some v else _) = some v
      rw [if_pos rfl]
    · simp only [List.map_cons, if_neg hak]
      show (if a = k then some b else _) = some v
      rw [if_neg hak]
      apply ih
      simp [dictKeys] at hk
      rcases hk with h | h
      · exact absurd h.symm hak
      · simpa [dictKeys] using h

theorem alookup_append {V : Type} (d1 d2 : List (String × V)) (key : String) :
    alookup (d1 ++ d2) key =
      match alookup d1 key with
      | some v => some v
      | none => alookup d2 key := by
  induction d1 with
  | nil => rfl
  | cons p rest ih =>
    obtain ⟨a, b⟩ := p
    by_cases hak : a = key
    · simp [alookup, hak]
    · simp [alookup, hak, ih]

/-- The characteristic equation of Python dict assignment: looking up
`k` afterwards gives `v`, every other key is unchanged. -/
theorem alookup_dictSet {V : Type} (d : List (String × V)) (k : String)
    (v : V) (key : String) :
    alookup (dictSet d k v) key = if key = k then some v else alookup d key := by
  unfold dictSet
  by_cases hc : (d.map Prod.fst).contains k
  · rw [if_pos hc]
    by_cases hkey : key = k
    · subst hkey
      rw [if_pos rfl]
      exact alookup_replace_eq d key v (by simpa [dictKeys] using hc)
    · rw [if_neg hkey]
      exact alookup_replace_ne d k v key hkey
  · rw [if_neg hc]
    rw [alookup_append]
    by_cases hkey : key = k
    · subst hkey
      have : alookup d key = none := by
        match h : alookup d key with
        | none => rfl
        | some w =>
          exfalso
          have hs : (alookup d key).isSome := by rw [h]; rfl
          rw [alookup_isSome_iff] at hs
          have hmem : key ∉ d.map Prod.fst := by simpa using hc
          exact hmem (by simpa [dictKeys] using hs)
      rw [this, if_pos rfl]
      show alookup [(key, v)] key = some v
      simp [alookup]
    · rw [if_neg hkey]
      match h : alookup d key with
      | some w => rfl
      | none =>
        show alookup [(k, v)] key = none
        simp only [alookup]
        rw [if_neg (fun h2 => hkey h2.symm)]

theorem dictKeys_dictSet {V : Type} (d : List (String × V)) (k : String)
    (v : V) :
    dictKeys (dictSet d k v) =
      if k ∈ dictKeys d then dictKeys d else dictKeys d ++ [k] := by
  unfold dictSet
  by_cases hc : (d.map Prod.fst).contains k
  · rw [if_pos hc, if_pos (by simpa [dictKeys] using hc)]
    unfold dictKeys
    rw [List.map_map]
    apply List.map_congr_left
    intro p _
    by_cases h : p.1 = k
    · simp [h]
    · simp [h]
  · rw [if_neg hc, if_neg (by simpa [dictKeys] using hc)]
    simp [dictKeys]

theorem dictKeys_dictSet_nodup {V : Type} (d : List (String × V))
    (k : String) (v : V) (hd : (dictKeys d).Nodup) :
    (dictKeys (dictSet d k v)).Nodup := by
  rw [dictKeys_dictSet]
  by_cases h : k ∈ dictKeys d
  · rw [if_pos h]; exact hd
  · rw [if_neg h]
    simpa using List.Nodup.append hd (List.nodup_singleton k)
      (by simpa using h)

theorem mem_dictKeys_dictSet {V : Type} (d : List (String × V))
    (k : String) (v : V) (key : String) :
    key ∈ dictKeys (dictSet d k v) ↔ key = k ∨ key ∈ dictKeys d := by
  rw [dictKeys_dictSet]
  by_cases h : k ∈ dictKeys d
  · rw [if_pos h]
    constructor
    · intro hm; exact Or.inr hm
    · rintro (rfl | hm)
      · exact h
      · exact hm
  · rw [if_neg h]
    simp [or_comm]

/-!
## Block scanner: `JavaAnalyzer._extract_block_content`

```python
def _extract_block_content(self, content, start_pos):
    if not content or start_pos >= len(content):
        return None
    depth = 0
    start_idx = None
    for i in range(start_pos, len(content)):
        if content[i] == '{':
            if depth == 0:
                start_idx = i + 1
            depth += 1
        elif content[i] == '}':
            depth -= 1
            if depth == 0 and start_idx is not None:
                return content[start_idx:i]
    return None
```

The loop is modelled structurally on the remaining character list (the
suffix `content.drop i`), carrying the absolute index `i`, the running
`depth` (an `Int`: it can go negative on a stray `'}'`) and the optional
`start_idx`.
-/

/-- One step of the scan loop of `_extract_block_content`.  `content` is
the whole character list (needed for the final slice), `rem` is
`content.drop i`. -/
def extractLoop (content : List Char) :
    (rem : List Char) → (i : Nat) → (depth : Int) → (startIdx : Option Nat) →
    Option (List Char)
  | [], _, _, _ => none
  | c :: rest, i, depth, si =>
    if c = '{' then
      extractLoop content rest (i + 1) (depth + 1)
        (if depth = 0 then some (i + 1) else si)
    else if c = '}' then
      if depth - 1 = 0 then
        match si with
        | some s => some ((content.drop s).take (i - s))
        | none => extractLoop content rest (i + 1) (depth - 1) none
      else
        extractLoop content rest (i + 1) (depth - 1) si
    else
      extractLoop content rest (i + 1) depth si

/-- `JavaAnalyzer._extract_block_content`. -/
def extract_block_content (content : String) (startPos : Nat) :
    Option String :=
  if content.data.length = 0 ∨ startPos ≥ content.data.length then none
  else
    (extractLoop content.data (content.data.drop startPos) startPos 0
        none).map
      (fun l => String.mk l)

/-- If no `'{'` at or after `startPos` is followed by a later `'}'`, the
scan loop never returns a slice. -/
theorem extractLoop_eq_none (content : List Char) (startPos : Nat)
    (noPair : ∀ a b, startPos ≤ a → a < b →
      content[a]? = some '{' → content[b]? = some '}' → False) :
    ∀ rem i depth si, content.drop i = rem → startPos ≤ i →
      (∀ s, si = some s →
        startPos + 1 ≤ s ∧ s ≤ i ∧ content[s - 1]? = some '{') →
      extractLoop content rem i depth si = none := by
  intro rem
  induction rem with
  | nil => intro i depth si _ _ _; rfl
  | cons c rest ih =>
    intro i depth si hdrop hi hsi
    have hci : content[i]? = some c := by
      have h0 := List.getElem?_drop content i 0
      rw [hdrop] at h0
      simpa using h0.symm
    have hrest : content.drop (i + 1) = rest := by
      have h1 := List.drop_drop 1 i content
      rw [hdrop] at h1
      simpa [Nat.add_comm] using h1.symm
    show extractLoop content (c :: rest) i depth si = none
    simp only [extractLoop]
    by_cases hbrace : c = '{'
    · simp only [hbrace, if_true, if_pos rfl]
      apply ih (i + 1) (depth + 1) _ hrest (Nat.le_succ_of_le hi)
      intro s hs
      by_cases hd : depth = 0
      · simp only [hd, if_pos rfl] at hs
        have : s = i + 1 := (Option.some_inj.mp hs).symm
        subst this
        refine ⟨Nat.succ_le_succ hi, Nat.le_refl _, ?_⟩
        simpa using hbrace ▸ hci
      · simp only [if_neg hd] at hs
        obtain ⟨h1, h2, h3⟩ := hsi s hs
        exact ⟨h1, Nat.le_succ_of_le h2, h3⟩
    · rw [if_neg hbrace]
      by_cases hclose : c = '}'
      · rw [if_pos hclose]
        by_cases hd : depth - 1 = 0
        · rw [if_pos hd]
          match hsieq : si with
          | some s =>
            exfalso
            obtain ⟨h1, h2, h3⟩ := hsi s rfl
            exact noPair (s - 1) i (by omega) (by omega) h3
              (hclose ▸ hci)
          | none =>
            exact ih (i + 1) (depth - 1) none hrest (Nat.le_succ_of_le hi)
              (fun s hs => by cases hs)
        · rw [if_neg hd]
          apply ih (i + 1) (depth - 1) si hrest (Nat.le_succ_of_le hi)
          intro s hs
          obtain ⟨h1, h2, h3⟩ := hsi s hs
          exact ⟨h1, Nat.le_succ_of_le h2, h3⟩
      · rw [if_neg hclose]
        apply ih (i + 1) depth si hrest (Nat.le_succ_of_le hi)
        intro s hs
        obtain ⟨h1, h2, h3⟩ := hsi s hs
        exact ⟨h1, Nat.le_succ_of_le h2, h3⟩

/-- C4: the block scanner returns the text strictly between the first
opening brace seen at depth 0 and the matching closing brace on the
nested example, and returns `none` whenever no opening brace at or after
the start offset is followed by a later closing brace (in particular on
the truncated example `"a { b"`). -/
theorem extract_block_content_spec :
    extract_block_content "a { b { c } d } e" 2 = some " b { c } d " ∧
    extract_block_content "a \x7b b" 0 = none ∧
    ∀ (content : String) (startPos : Nat),
      (∀ a b, startPos ≤ a → a < b →
        content.data[a]? = some '{' → content.data[b]? = some '}' →
        False) →
      extract_block_content content startPos = none := by
  refine ⟨by decide, by decide, ?_⟩
  intro content startPos noPair
  unfold extract_block_content
  by_cases hguard : content.data.length = 0 ∨ startPos ≥ content.data.length
  · rw [if_pos hguard]
  · rw [if_neg hguard]
    rw [extractLoop_eq_none content.data startPos noPair
      (content.data.drop startPos) startPos 0 none rfl (Nat.le_refl _)
      (fun s hs => by cases hs)]
    rfl

/-- Witness for the universal part of C4: the empty string has no brace
pair, so the scanner returns `none` on it. -/
theorem extract_block_content_spec_witness :
    extract_block_content "" 0 = none :=
  extract_block_content_spec.2.2 "" 0
    (fun a b _ _ ha _ => by simp at ha)

/-!
## Per-body call-name extraction of the heuristic analyzers

All five heuristic analyzers scan a detected function body with
`re.finditer(r'(\w+)\s*\(', func_content)` and record the captured group.
A match of that pattern is a maximal run of word characters followed by
optional whitespace and a literal `'('`; `finditer` scans left to right
and resumes after each match (i.e. after the `'('`).  The scan is
modelled with an explicit fuel argument (one unit per examined character
suffix, so `length` fuel always suffices) to keep the recursion
structural.

The analyzers differ only in post-filtering:
* Java (`analyzer.py` line 218), Go (lines 403/435/606 via `CppAnalyzer`)
  and C++ record every match (`calls.add(...)` unconditionally);
* C (line 768) drops `['if', 'for', 'while', 'switch', 'sizeof']`;
* JavaScript (lines 977/1010/1044) drops
  `['if', 'for', 'while', 'switch', 'console']`.

`calls` is a Python `set`; it is modelled as the deduplicated match list
(membership-faithful; the claims are membership statements).
-/

/-- Python's `\w` on ASCII input: letters, digits, underscore. -/
def isWordChar (c : Char) : Bool := c.isAlphanum || c = '_'

/-- Python's `\s` on ASCII input. -/
def isSpaceChar (c : Char) : Bool :=
  c = ' ' || c = '\t' || c = '\n' || c = '\r' || c = '\x0b' || c = '\x0c'

/-- `re.finditer(r'(\w+)\s*\(', s)` captured groups, in match order. -/
def findCallsAux : Nat → List Char → List String
  | 0, _ => []
  | _, [] => []
  | fuel + 1, c :: cs =>
    if isWordChar c then
      let run := (c :: cs).takeWhile isWordChar
      let rest := (c :: cs).dropWhile isWordChar
      match rest.dropWhile isSpaceChar with
      | '(' :: rest3 => String.mk run :: findCallsAux fuel rest3
      | _ => findCallsAux fuel rest
    else
      findCallsAux fuel cs

/-- All `identifier(` call-name candidates of a function body. -/
def findCalls (s : String) : List String :=
  findCallsAux s.data.length s.data

/-- `JavaAnalyzer.analyze` call set for one function body (no keyword
filter). -/
def javaFunctionCalls (body : String) : List String :=
  (findCalls body).dedup

/-- `GoAnalyzer.analyze` call set for one function body (no keyword
filter). -/
def goFunctionCalls (body : String) : List String :=
  (findCalls body).dedup

/-- `CppAnalyzer.analyze` call set for one function body (no keyword
filter). -/
def cppFunctionCalls (body : String) : List String :=
  (findCalls body).dedup

/-- Keywords excluded by `CAnalyzer.analyze` (line 768). -/
def cKeywords : List String := ["if", "for", "while", "switch", "sizeof"]

/-- `CAnalyzer.analyze` call set for one function body. -/
def cFunctionCalls (body : String) : List String :=
  ((findCalls body).filter (fun n => !(cKeywords.contains n))).dedup

/-- Keywords excluded by `JavaScriptAnalyzer.analyze` (lines 977, 1010,
1044). -/
def jsKeywords : List String := ["if", "for", "while", "switch", "console"]

/-- `JavaScriptAnalyzer.analyze` call set for one function body. -/
def jsFunctionCalls (body : String) : List String :=
  ((findCalls body).filter (fun n => !(jsKeywords.contains n))).dedup

/-- C3 counterexample: the Java analyzer records the control-flow keyword
`if` as a call-name candidate — its call extraction has no keyword
exclusion, contradicting the claim that every heuristic extractor
excludes `if`/`for`/`while`/`switch`. -/
theorem javaFunctionCalls_records_if :
    "if" ∈ javaFunctionCalls "if (x > 0) { foo(x); }" ∧
    "for" ∈ goFunctionCalls "for (i := 0; i < n; i++) { foo(i) }" ∧
    "while" ∈ cppFunctionCalls "while (x) { foo(x); }" := by
  decide

/-- C3 (amended): only the C and JavaScript analyzers exclude their
fixed keyword lists from the recorded call-name candidates; for those
two, no entry of a body's call list equals an excluded keyword. -/
theorem keyword_exclusion_c_js (body : String) (kw : String) :
    (kw ∈ cKeywords → kw ∉ cFunctionCalls body) ∧
    (kw ∈ jsKeywords → kw ∉ jsFunctionCalls body) := by
  constructor
  · intro hkw hmem
    rw [cFunctionCalls, List.mem_dedup, List.mem_filter] at hmem
    have h2 : cKeywords.contains kw = false := by
      simpa using hmem.2
    have : kw ∉ cKeywords := by simpa using h2
    exact this hkw
  · intro hkw hmem
    rw [jsFunctionCalls, List.mem_dedup, List.mem_filter] at hmem
    have h2 : jsKeywords.contains kw = false := by
      simpa using hmem.2
    have : kw ∉ jsKeywords := by simpa using h2
    exact this hkw

/-- Witness for C3 (amended): `if` is excluded on a concrete C body and
a concrete JavaScript body. -/
theorem keyword_exclusion_c_js_witness :
    "if" ∉ cFunctionCalls "if (x) { foo(x); }" ∧
    "if" ∉ jsFunctionCalls "if (x) { foo(x); }" :=
  ⟨(keyword_exclusion_c_js "if (x) { foo(x); }" "if").1 (by decide),
   (keyword_exclusion_c_js "if (x) { foo(x); }" "if").2 (by decide)⟩

/-!
## Python AST fragment and `PythonASTVisitor`

A Lean model of the fragment of the Python AST that
`PythonASTVisitor` inspects: function definitions, class definitions,
`import ... as ...`, `if` statements, `return`, expression statements and
`pass`; expressions are names, attribute accesses, calls and opaque
constants.  (Function entries in the source also carry an unparsed
`'body'` string list, which no claim touches and which is omitted here;
default-argument expressions and lambdas are outside the modelled
fragment.)
-/

mutual
inductive PyExpr : Type where
  | pyName (id : String)
  | pyAttribute (value : PyExpr) (attrName : String)
  | pyCall (func : PyExpr) (args : List PyExpr)
  | pyConstant
  deriving Repr
end

inductive PyStmt : Type where
  | functionDef (fname : String) (fargs : List String) (body : List PyStmt)
  | classDef (cname : String) (bases : List PyExpr) (body : List PyStmt)
  | importStmt (modName : String) (asname : Option String)
  | ifStmt (test : PyExpr) (body : List PyStmt) (orelse : List PyStmt)
  | ret (value : Option PyExpr)
  | exprStmt (e : PyExpr)
  | passStmt
  deriving Repr

/-- The name the visitor records for one `ast.Call` node: `func.id` for a
direct-name call, `func.attr` for an attribute-style call, nothing
otherwise. -/
def calleeName : PyExpr → List String
  | .pyName id => [id]
  | .pyAttribute _ a => [a]
  | _ => []

mutual
/-- Call names of every `ast.Call` node in an expression subtree
(`ast.walk` enumerates in BFS order; only membership matters to the
claims, so the collection is structural). -/
def walkCallsE : PyExpr → List String
  | .pyName _ => []
  | .pyAttribute v _ => walkCallsE v
  | .pyCall f args => calleeName f ++ walkCallsE f ++ walkCallsEL args
  | .pyConstant => []

def walkCallsEL : List PyExpr → List String
  | [] => []
  | e :: es => walkCallsE e ++ walkCallsEL es
end

mutual
/-- Call names of every `ast.Call` node in a statement subtree
(including nested function and class definitions, mirroring
`ast.walk(node)` in `visit_FunctionDef`). -/
def walkCallsS : PyStmt → List String
  | .functionDef _ _ body => walkCallsSL body
  | .classDef _ bases body => walkCallsEL bases ++ walkCallsSL body
  | .importStmt _ _ => []
  | .ifStmt t body orelse =>
      walkCallsE t ++ walkCallsSL body ++ walkCallsSL orelse
  | .ret (some e) => walkCallsE e
  | .ret none => []
  | .exprStmt e => walkCallsE e
  | .passStmt => []

def walkCallsSL : List PyStmt → List String
  | [] => []
  | s :: rest => walkCallsS s ++ walkCallsSL rest
end

mutual
/-- Every `FunctionDef` node in a statement subtree, as
`(name, args, body)`, in visit order. -/
def defsS : PyStmt → List (String × List String × List PyStmt)
  | .functionDef n a body => (n, a, body) :: defsSL body
  | .classDef _ _ body => defsSL body
  | .ifStmt _ body orelse => defsSL body ++ defsSL orelse
  | _ => []

def defsSL : List PyStmt → List (String × List String × List PyStmt)
  | [] => []
  | s :: rest => defsS s ++ defsSL rest
end

/-- The names of all `FunctionDef` nodes in a module. -/
def defNamesL (m : List PyStmt) : List String :=
  (defsSL m).map (·.1)

/-- The per-function record built by `visit_FunctionDef`. -/
structure PyFnEntry : Type where
  args : List String
  calls : List String
  deriving Repr, DecidableEq

/-- The per-class record built by `visit_ClassDef`. -/
structure PyClassEntry : Type where
  bases : List String
  methods : List String
  deriving Repr, DecidableEq

/-- The mutable state of `PythonASTVisitor`. -/
structure VisitorState : Type where
  imports : List (String × String)
  functions : List (String × PyFnEntry)
  classes : List (String × PyClassEntry)
  calls : List String
  deriving Repr

mutual
/-- `PythonASTVisitor.visit` on one statement.  `visit_FunctionDef`
records the entry (args plus the call names of the whole body via
`ast.walk`) and then `generic_visit` descends into the body; similarly
for `visit_ClassDef`; `generic_visit` descends through `if` bodies. -/
def visitStmt (st : VisitorState) : PyStmt → VisitorState
  | .functionDef fname fargs body =>
      let callNames := walkCallsSL body
      let st1 : VisitorState :=
        { st with
          functions := dictSet st.functions fname ⟨fargs, callNames⟩,
          calls := st.calls ++ callNames }
      visitStmtList st1 body
  | .classDef cname bases body =>
      let methods := body.filterMap (fun s =>
        match s with
        | .functionDef n _ _ => some n
        | _ => none)
      let baseNames := bases.filterMap (fun b =>
        match b with
        | .pyName id => some id
        | _ => none)
      let st1 : VisitorState :=
        { st with classes := dictSet st.classes cname ⟨baseNames, methods⟩ }
      visitStmtList st1 body
  | .importStmt modName asname =>
      { st with imports := dictSet st.imports (asname.getD modName) modName }
  | .ifStmt _ body orelse => visitStmtList (visitStmtList st body) orelse
  | .ret _ => st
  | .exprStmt _ => st
  | .passStmt => st

def visitStmtList : VisitorState → List PyStmt → VisitorState
  | st, [] => st
  | st, s :: rest => visitStmtList (visitStmt st s) rest
end

/-- Running `PythonASTVisitor` on a whole module. -/
def pyVisit (m : List PyStmt) : VisitorState :=
  visitStmtList ⟨[], [], [], []⟩ m

/-- "`c` is the recorded callee name of some call expression inside this
expression": direct-name calls `f(...)` record `f`, attribute calls
`obj.m(...)` record `m`, and calls may occur anywhere in the subtree. -/
inductive CallInE : String → PyExpr → Prop where
  | direct (id : String) (args : List PyExpr) :
      CallInE id (.pyCall (.pyName id) args)
  | attrCall (v : PyExpr) (a : String) (args : List PyExpr) :
      CallInE a (.pyCall (.pyAttribute v a) args)
  | inAttrValue {c : String} {v : PyExpr} (a : String) :
      CallInE c v → CallInE c (.pyAttribute v a)
  | inCallFunc {c : String} {f : PyExpr} (args : List PyExpr) :
      CallInE c f → CallInE c (.pyCall f args)
  | inCallArg {c : String} {e : PyExpr} {args : List PyExpr}
      (f : PyExpr) : e ∈ args → CallInE c e → CallInE c (.pyCall f args)

/-- "`c` is the recorded callee name of some call expression anywhere
inside this statement" (nested definitions included, as with
`ast.walk`). -/
inductive CallInS : String → PyStmt → Prop where
  | inFnBody {c : String} {s : PyStmt} {body : List PyStmt}
      (n : String) (a : List String) :
      s ∈ body → CallInS c s → CallInS c (.functionDef n a body)
  | inClassBody {c : String} {s : PyStmt} {body : List PyStmt}
      (n : String) (bs : List PyExpr) :
      s ∈ body → CallInS c s → CallInS c (.classDef n bs body)
  | inClassBase {c : String} {b : PyExpr} {bs : List PyExpr}
      (n : String) (body : List PyStmt) :
      b ∈ bs → CallInE c b → CallInS c (.classDef n bs body)
  | inIfTest {c : String} {t : PyExpr} (body orelse : List PyStmt) :
      CallInE c t → CallInS c (.ifStmt t body orelse)
  | inIfBody {c : String} {s : PyStmt} {body : List PyStmt}
      (t : PyExpr) (orelse : List PyStmt) :
      s ∈ body → CallInS c s → CallInS c (.ifStmt t body orelse)
  | inIfElse {c : String} {s : PyStmt} {orelse : List PyStmt}
      (t : PyExpr) (body : List PyStmt) :
      s ∈ orelse → CallInS c s → CallInS c (.ifStmt t body orelse)
  | inRet {c : String} {e : PyExpr} :
      CallInE c e → CallInS c (.ret (some e))
  | inExprStmt {c : String} {e : PyExpr} :
      CallInE c e → CallInS c (.exprStmt e)

theorem walkCallsSL_of_mem {c : String} {s : PyStmt} {ss : List PyStmt}
    (hs : s ∈ ss) (hc : c ∈ walkCallsS s) : c ∈ walkCallsSL ss := by
  induction ss with
  | nil => cases hs
  | cons t rest ih =>
    simp only [walkCallsSL]
    rcases List.mem_cons.mp hs with rfl | h
    · exact List.mem_append_left _ hc
    · exact List.mem_append_right _ (ih h)

theorem walkCallsEL_of_mem {c : String} {e : PyExpr} {es : List PyExpr}
    (hs : e ∈ es) (hc : c ∈ walkCallsE e) : c ∈ walkCallsEL es := by
  induction es with
  | nil => cases hs
  | cons t rest ih =>
    simp only [walkCallsEL]
    rcases List.mem_cons.mp hs with rfl | h
    · exact List.mem_append_left _ hc
    · exact List.mem_append_right _ (ih h)

/-- Every callee name of a call expression inside `e` is collected by
`walkCallsE`. -/
theorem CallInE_mem_walkCalls {c : String} {e : PyExpr}
    (h : CallInE c e) : c ∈ walkCallsE e := by
  induction h with
  | direct id args =>
    simp [walkCallsE, calleeName]
  | attrCall v a args =>
    simp [walkCallsE, calleeName]
  | inAttrValue a _ ih =>
    simpa [walkCallsE] using ih
  | inCallFunc args _ ih =>
    simp only [walkCallsE]
    exact List.mem_append_left _ (List.mem_append_right _ ih)
  | inCallArg f hmem _ ih =>
    simp only [walkCallsE]
    exact List.mem_append_right _ (walkCallsEL_of_mem hmem ih)

/-- Every callee name of a call expression inside `s` is collected by
`walkCallsS`. -/
theorem CallInS_mem_walkCalls {c : String} {s : PyStmt}
    (h : CallInS c s) : c ∈ walkCallsS s := by
  induction h with
  | inFnBody n a hmem _ ih =>
    simpa [walkCallsS] using walkCallsSL_of_mem hmem ih
  | inClassBody n bs hmem _ ih =>
    simp only [walkCallsS]
    exact List.mem_append_right _ (walkCallsSL_of_mem hmem ih)
  | inClassBase n body hmem hin =>
    simp only [walkCallsS]
    exact List.mem_append_left _
      (walkCallsEL_of_mem hmem (CallInE_mem_walkCalls hin))
  | inIfTest body orelse hin =>
    simp only [walkCallsS]
    exact List.mem_append_left _
      (List.mem_append_left _ (CallInE_mem_walkCalls hin))
  | inIfBody t orelse hmem _ ih =>
    simp only [walkCallsS]
    exact List.mem_append_left _
      (List.mem_append_right _ (walkCallsSL_of_mem hmem ih))
  | inIfElse t body hmem _ ih =>
    simp only [walkCallsS]
    exact List.mem_append_right _ (walkCallsSL_of_mem hmem ih)
  | inRet hin => simpa [walkCallsS] using CallInE_mem_walkCalls hin
  | inExprStmt hin => simpa [walkCallsS] using CallInE_mem_walkCalls hin

mutual
/-- Visiting a statement that defines no function named `n` leaves the
entry for `n` unchanged. -/
theorem visitStmt_fn_untouched (st : VisitorState) (s : PyStmt) (n : String)
    (hn : n ∉ (defsS s).map (·.1)) :
    alookup (visitStmt st s).functions n = alookup st.functions n := by
  match s with
  | .functionDef fname fargs body =>
    simp only [defsS, List.map_cons, List.mem_cons] at hn
    push_neg at hn
    simp only [visitStmt]
    rw [visitStmtList_fn_untouched _ body n hn.2]
    show alookup (dictSet st.functions fname _) n = alookup st.functions n
    rw [alookup_dictSet, if_neg hn.1]
  | .classDef cname bases body =>
    simp only [defsS] at hn
    simp only [visitStmt]
    rw [visitStmtList_fn_untouched _ body n hn]
  | .importStmt modName asname => rfl
  | .ifStmt t body orelse =>
    simp only [defsS, List.map_append, List.mem_append] at hn
    push_neg at hn
    simp only [visitStmt]
    rw [visitStmtList_fn_untouched _ orelse n hn.2,
      visitStmtList_fn_untouched _ body n hn.1]
  | .ret v => rfl
  | .exprStmt e => rfl
  | .passStmt => rfl

theorem visitStmtList_fn_untouched (st : VisitorState) (ss : List PyStmt)
    (n : String) (hn : n ∉ (defsSL ss).map (·.1)) :
    alookup (visitStmtList st ss).functions n = alookup st.functions n := by
  match ss with
  | [] => rfl
  | s :: rest =>
    simp only [defsSL, List.map_append, List.mem_append] at hn
    push_neg at hn
    simp only [visitStmtList]
    rw [visitStmtList_fn_untouched _ rest n hn.2,
      visitStmt_fn_untouched st s n hn.1]
end

mutual
/-- A recorded function entry survives later visiting (its value may be
overwritten, but the key stays present). -/
theorem visitStmt_fn_isSome (st : VisitorState) (s : PyStmt) (n : String)
    (h : (alookup st.functions n).isSome) :
    (alookup (visitStmt st s).functions n).isSome := by
  match s with
  | .functionDef fname fargs body =>
    simp only [visitStmt]
    apply visitStmtList_fn_isSome
    show (alookup (dictSet st.functions fname _) n).isSome
    rw [alookup_dictSet]
    by_cases hk : n = fname
    · rw [if_pos hk]; rfl
    · rw [if_neg hk]; exact h
  | .classDef cname bases body =>
    simp only [visitStmt]
    exact visitStmtList_fn_isSome _ body n h
  | .importStmt modName asname => exact h
  | .ifStmt t body orelse =>
    simp only [visitStmt]
    exact visitStmtList_fn_isSome _ orelse n
      (visitStmtList_fn_isSome _ body n h)
  | .ret v => exact h
  | .exprStmt e => exact h
  | .passStmt => exact h

theorem visitStmtList_fn_isSome (st : VisitorState) (ss : List PyStmt)
    (n : String) (h : (alookup st.functions n).isSome) :
    (alookup (visitStmtList st ss).functions n).isSome := by
  match ss with
  | [] => exact h
  | s :: rest =>
    simp only [visitStmtList]
    exact visitStmtList_fn_isSome _ rest n (visitStmt_fn_isSome st s n h)
end

mutual
/-- Every function name defined anywhere in `s` has an entry after
visiting `s`. -/
theorem visitStmt_fn_covered (st : VisitorState) (s : PyStmt) (n : String)
    (hn : n ∈ (defsS s).map (·.1)) :
    (alookup (visitStmt st s).functions n).isSome := by
  match s with
  | .functionDef fname fargs body =>
    simp only [defsS, List.map_cons, List.mem_cons] at hn
    simp only [visitStmt]
    rcases hn with rfl | hbody
    · apply visitStmtList_fn_isSome
      show (alookup (dictSet st.functions n _) n).isSome
      rw [alookup_dictSet, if_pos rfl]
      rfl
    · exact visitStmtList_fn_covered _ body n hbody
  | .classDef cname bases body =>
    simp only [defsS] at hn
    simp only [visitStmt]
    exact visitStmtList_fn_covered _ body n hn
  | .ifStmt t body orelse =>
    simp only [defsS, List.map_append, List.mem_append] at hn
    simp only [visitStmt]
    rcases hn with hb | ho
    · exact visitStmtList_fn_isSome _ orelse n
        (visitStmtList_fn_covered _ body n hb)
    · exact visitStmtList_fn_covered _ orelse n ho

theorem visitStmtList_fn_covered (st : VisitorState) (ss : List PyStmt)
    (n : String) (hn : n ∈ (defsSL ss).map (·.1)) :
    (alookup (visitStmtList st ss).functions n).isSome := by
  match ss with
  | [] => simp [defsSL] at hn
  | s :: rest =>
    simp only [defsSL, List.map_append, List.mem_append] at hn
    simp only [visitStmtList]
    rcases hn with hs | hr
    · exact visitStmtList_fn_isSome _ rest n (visitStmt_fn_covered st s n hs)
    · exact visitStmtList_fn_covered _ rest n hr
end

mutual
/-- Provenance: any entry present after visiting `s` was either present
before or comes from a `FunctionDef` node inside `s`, with the entry
recording that definition's arguments and the call names collected from
its whole body. -/
theorem visitStmt_fn_provenance (st : VisitorState) (s : PyStmt)
    (n : String) (e : PyFnEntry)
    (h : alookup (visitStmt st s).functions n = some e) :
    alookup st.functions n = some e ∨
      ∃ a b, (n, a, b) ∈ defsS s ∧ e = ⟨a, walkCallsSL b⟩ := by
  match s with
  | .functionDef fname fargs body =>
    simp only [visitStmt] at h
    rcases visitStmtList_fn_provenance _ body n e h with h1 | h1
    · rw [alookup_dictSet] at h1
      by_cases hk : n = fname
      · right
        refine ⟨fargs, body, ?_, ?_⟩
        · subst hk; simp [defsS]
        · rw [if_pos hk] at h1
          exact (Option.some_inj.mp h1).symm
      · rw [if_neg hk] at h1
        exact Or.inl h1
    · obtain ⟨a, b, hmem, he⟩ := h1
      exact Or.inr ⟨a, b, by simp [defsS]; right; exact hmem, he⟩
  | .classDef cname bases body =>
    simp only [visitStmt] at h
    rcases visitStmtList_fn_provenance _ body n e h with h1 | h1
    · exact Or.inl h1
    · obtain ⟨a, b, hmem, he⟩ := h1
      exact Or.inr ⟨a, b, by simpa [defsS] using hmem, he⟩
  | .importStmt modName asname => exact Or.inl h
  | .ifStmt t body orelse =>
    simp only [visitStmt] at h
    rcases visitStmtList_fn_provenance _ orelse n e h with h1 | h1
    · rcases visitStmtList_fn_provenance _ body n e h1 with h2 | h2
      · exact Or.inl h2
      · obtain ⟨a, b, hmem, he⟩ := h2
        exact Or.inr ⟨a, b, by simp [defsS]; left; exact hmem, he⟩
    · obtain ⟨a, b, hmem, he⟩ := h1
      exact Or.inr ⟨a, b, by simp [defsS]; right; exact hmem, he⟩
  | .ret v => exact Or.inl h
  | .exprStmt e2 => exact Or.inl h
  | .passStmt => exact Or.inl h

theorem visitStmtList_fn_provenance (st : VisitorState) (ss : List PyStmt)
    (n : String) (e : PyFnEntry)
    (h : alookup (visitStmtList st ss).functions n = some e) :
    alookup st.functions n = some e ∨
      ∃ a b, (n, a, b) ∈ defsSL ss ∧ e = ⟨a, walkCallsSL b⟩ := by
  match ss with
  | [] => exact Or.inl h
  | s :: rest =>
    simp only [visitStmtList] at h
    rcases visitStmtList_fn_provenance _ rest n e h with h1 | h1
    · rcases visitStmt_fn_provenance st s n e h1 with h2 | h2
      · exact Or.inl h2
      · obtain ⟨a, b, hmem, he⟩ := h2
        exact Or.inr ⟨a, b, by simp [defsSL]; left; exact hmem, he⟩
    · obtain ⟨a, b, hmem, he⟩ := h1
      exact Or.inr ⟨a, b, by simp [defsSL]; right; exact hmem, he⟩
end

mutual
/-- Visiting preserves uniqueness of the keys of the function table. -/
theorem visitStmt_fn_nodup (st : VisitorState) (s : PyStmt)
    (h : (dictKeys st.functions).Nodup) :
    (dictKeys (visitStmt st s).functions).Nodup := by
  match s with
  | .functionDef fname fargs body =>
    simp only [visitStmt]
    exact visitStmtList_fn_nodup _ body (dictKeys_dictSet_nodup _ _ _ h)
  | .classDef cname bases body =>
    simp only [visitStmt]
    exact visitStmtList_fn_nodup _ body h
  | .importStmt modName asname => exact h
  | .ifStmt t body orelse =>
    simp only [visitStmt]
    exact visitStmtList_fn_nodup _ orelse (visitStmtList_fn_nodup _ body h)
  | .ret v => exact h
  | .exprStmt e => exact h
  | .passStmt => exact h

theorem visitStmtList_fn_nodup (st : VisitorState) (ss : List PyStmt)
    (h : (dictKeys st.functions).Nodup) :
    (dictKeys (visitStmtList st ss).functions).Nodup := by
  match ss with
  | [] => exact h
  | s :: rest =>
    simp only [visitStmtList]
    exact visitStmtList_fn_nodup _ rest (visitStmt_fn_nodup st s h)
end

mutual
/-- If function names are not duplicated inside `s`, the entry recorded
for a definition `(n, a, b)` inside `s` is exactly
`⟨a, walkCallsSL b⟩`. -/
theorem visitStmt_fn_exact (st : VisitorState) (s : PyStmt) (n : String)
    (a : List String) (b : List PyStmt)
    (hmem : (n, a, b) ∈ defsS s)
    (hnodup : ((defsS s).map (·.1)).Nodup) :
    alookup (visitStmt st s).functions n = some ⟨a, walkCallsSL b⟩ := by
  match s with
  | .functionDef fname fargs body =>
    simp only [defsS, List.mem_cons] at hmem
    simp only [defsS, List.map_cons, List.nodup_cons] at hnodup
    obtain ⟨hnotin, hnodupb⟩ := hnodup
    simp only [visitStmt]
    rcases hmem with heq | hbody
    · cases heq
      rw [visitStmtList_fn_untouched _ b n (by exact hnotin)]
      show alookup (dictSet st.functions n ⟨a, walkCallsSL b⟩) n = _
      rw [alookup_dictSet, if_pos rfl]
    · exact visitStmtList_fn_exact _ body n a b hbody hnodupb
  | .classDef cname bases body =>
    simp only [defsS] at hmem hnodup
    simp only [visitStmt]
    exact visitStmtList_fn_exact _ body n a b hmem hnodup
  | .ifStmt t body orelse =>
    simp only [defsS, List.mem_append] at hmem
    simp only [defsS, List.map_append, List.nodup_append] at hnodup
    obtain ⟨hn1, hn2, hdisj⟩ := hnodup
    simp only [visitStmt]
    rcases hmem with hb | ho
    · have hnot : n ∉ (defsSL orelse).map (·.1) := by
        apply hdisj
        exact List.mem_map_of_mem _ hb
      rw [visitStmtList_fn_untouched _ orelse n hnot]
      exact visitStmtList_fn_exact _ body n a b hb hn1
    · exact visitStmtList_fn_exact _ orelse n a b ho hn2

theorem visitStmtList_fn_exact (st : VisitorState) (ss : List PyStmt)
    (n : String) (a : List String) (b : List PyStmt)
    (hmem : (n, a, b) ∈ defsSL ss)
    (hnodup : ((defsSL ss).map (·.1)).Nodup) :
    alookup (visitStmtList st ss).functions n = some ⟨a, walkCallsSL b⟩ := by
  match ss with
  | [] => simp [defsSL] at hmem
  | s :: rest =>
    simp only [defsSL, List.mem_append] at hmem
    simp only [defsSL, List.map_append, List.nodup_append] at hnodup
    obtain ⟨hn1, hn2, hdisj⟩ := hnodup
    simp only [visitStmtList]
    rcases hmem with hs | hr
    · have hnot : n ∉ (defsSL rest).map (·.1) := by
        apply hdisj
        exact List.mem_map_of_mem _ hs
      rw [visitStmtList_fn_untouched _ rest n hnot]
      exact visitStmt_fn_exact st s n a b hs hn1
    · exact visitStmtList_fn_exact _ rest n a b hr hn2
end

mutual
/-- Calls collected from the body of a nested definition are also
collected from the enclosing subtree (`ast.walk` walks the entire
body). -/
theorem defs_walkCalls_sub_S (s : PyStmt) (n : String) (a : List String)
    (b : List PyStmt) (hmem : (n, a, b) ∈ defsS s) (c : String)
    (hc : c ∈ walkCallsSL b) : c ∈ walkCallsS s := by
  match s with
  | .functionDef fname fargs body =>
    simp only [defsS, List.mem_cons] at hmem
    simp only [walkCallsS]
    rcases hmem with heq | hbody
    · cases heq; exact hc
    · exact defs_walkCalls_sub_SL body n a b hbody c hc
  | .classDef cname bases body =>
    simp only [defsS] at hmem
    simp only [walkCallsS]
    exact List.mem_append_right _ (defs_walkCalls_sub_SL body n a b hmem c hc)
  | .ifStmt t body orelse =>
    simp only [defsS, List.mem_append] at hmem
    simp only [walkCallsS]
    rcases hmem with hb | ho
    · exact List.mem_append_left _ (List.mem_append_right _
        (defs_walkCalls_sub_SL body n a b hb c hc))
    · exact List.mem_append_right _
        (defs_walkCalls_sub_SL orelse n a b ho c hc)

theorem defs_walkCalls_sub_SL (ss : List PyStmt) (n : String)
    (a : List String) (b : List PyStmt) (hmem : (n, a, b) ∈ defsSL ss)
    (c : String) (hc : c ∈ walkCallsSL b) : c ∈ walkCallsSL ss := by
  match ss with
  | [] => simp [defsSL] at hmem
  | s :: rest =>
    simp only [defsSL, List.mem_append] at hmem
    simp only [walkCallsSL]
    rcases hmem with hs | hr
    · exact List.mem_append_left _ (defs_walkCalls_sub_S s n a b hs c hc)
    · exact List.mem_append_right _ (defs_walkCalls_sub_SL rest n a b hr c hc)
end

mutual
/-- Definitions nested inside a recorded definition's body are also
definitions of the enclosing subtree. -/
theorem defs_nested_sub_S (s : PyStmt) (n : String) (a : List String)
    (b : List PyStmt) (hmem : (n, a, b) ∈ defsS s)
    (d : String × List String × List PyStmt) (hd : d ∈ defsSL b) :
    d ∈ defsS s := by
  match s with
  | .functionDef fname fargs body =>
    simp only [defsS, List.mem_cons] at hmem ⊢
    rcases hmem with heq | hbody
    · cases heq; exact Or.inr hd
    · exact Or.inr (defs_nested_sub_SL body n a b hbody d hd)
  | .classDef cname bases body =>
    simp only [defsS] at hmem ⊢
    exact defs_nested_sub_SL body n a b hmem d hd
  | .ifStmt t body orelse =>
    simp only [defsS, List.mem_append] at hmem ⊢
    rcases hmem with hb | ho
    · exact Or.inl (defs_nested_sub_SL body n a b hb d hd)
    · exact Or.inr (defs_nested_sub_SL orelse n a b ho d hd)

theorem defs_nested_sub_SL (ss : List PyStmt) (n : String)
    (a : List String) (b : List PyStmt) (hmem : (n, a, b) ∈ defsSL ss)
    (d : String × List String × List PyStmt) (hd : d ∈ defsSL b) :
    d ∈ defsSL ss := by
  match ss with
  | [] => simp [defsSL] at hmem
  | s :: rest =>
    simp only [defsSL, List.mem_append] at hmem ⊢
    rcases hmem with hs | hr
    · exact Or.inl (defs_nested_sub_S s n a b hs d hd)
    · exact Or.inr (defs_nested_sub_SL rest n a b hr d hd)
end

/-- C5: on any module of the modelled Python fragment, the extractor's
function table has exactly one entry per function name defined anywhere
in the source (the table's keys are exactly the defined names, without
duplicates), and each entry records the arguments and the full
body-walk call list of one definition of that name, so the entry's call
list contains the callee name of every call expression anywhere inside
that body — direct-name calls contributing the identifier and
attribute-style calls contributing the attribute name. -/
theorem python_extractor_correct (m : List PyStmt) :
    (dictKeys (pyVisit m).functions).Nodup ∧
    (∀ n, n ∈ defNamesL m ↔ (alookup (pyVisit m).functions n).isSome) ∧
    (∀ n e, alookup (pyVisit m).functions n = some e →
      ∃ a b, (n, a, b) ∈ defsSL m ∧ e.args = a ∧ e.calls = walkCallsSL b ∧
        ∀ c s2, s2 ∈ b → CallInS c s2 → c ∈ e.calls) := by
  refine ⟨?_, ?_, ?_⟩
  · exact visitStmtList_fn_nodup _ m List.nodup_nil
  · intro n
    constructor
    · intro h
      exact visitStmtList_fn_covered _ m n h
    · intro h
      match he : alookup (pyVisit m).functions n with
      | none => rw [he] at h; cases h
      | some e =>
        rcases visitStmtList_fn_provenance _ m n e he with h1 | h1
        · cases h1
        · obtain ⟨a, b, hmem, _⟩ := h1
          exact List.mem_map_of_mem _ hmem
  · intro n e he
    rcases visitStmtList_fn_provenance _ m n e he with h1 | h1
    · cases h1
    · obtain ⟨a, b, hmem, hentry⟩ := h1
      refine ⟨a, b, hmem, by rw [hentry], by rw [hentry], ?_⟩
      intro c s2 hs2 hcall
      rw [hentry]
      exact walkCallsSL_of_mem hs2 (CallInS_mem_walkCalls hcall)

/-- Witness for C5 at a concrete module `def f(x): g(); obj.m()`. -/
theorem python_extractor_correct_witness :
    (alookup (pyVisit [.functionDef "f" ["x"]
      [.exprStmt (.pyCall (.pyName "g") []),
       .exprStmt (.pyCall (.pyAttribute (.pyName "obj") "m") [])]]).functions
      "f").isSome :=
  ((python_extractor_correct [.functionDef "f" ["x"]
      [.exprStmt (.pyCall (.pyName "g") []),
       .exprStmt (.pyCall (.pyAttribute (.pyName "obj") "m") [])]]).2.1
    "f").mp (by decide)

/-- C10: a nested function definition gets its own top-level entry, and
(when no function name is defined twice) every call name collected from
the nested body appears in both the enclosing function's entry and the
nested function's own entry. -/
theorem nested_function_attribution (m : List PyStmt)
    (hnodup : (defNamesL m).Nodup)
    (n1 : String) (a1 : List String) (b1 : List PyStmt)
    (h1 : (n1, a1, b1) ∈ defsSL m)
    (n2 : String) (a2 : List String) (b2 : List PyStmt)
    (h2 : (n2, a2, b2) ∈ defsSL b1) :
    ∃ e1 e2,
      alookup (pyVisit m).functions n1 = some e1 ∧
      alookup (pyVisit m).functions n2 = some e2 ∧
      ∀ c, c ∈ walkCallsSL b2 → c ∈ e1.calls ∧ c ∈ e2.calls := by
  have h2m : (n2, a2, b2) ∈ defsSL m :=
    defs_nested_sub_SL m n1 a1 b1 h1 _ h2
  refine ⟨⟨a1, walkCallsSL b1⟩, ⟨a2, walkCallsSL b2⟩, ?_, ?_, ?_⟩
  · exact visitStmtList_fn_exact _ m n1 a1 b1 h1 hnodup
  · exact visitStmtList_fn_exact _ m n2 a2 b2 h2m hnodup
  · intro c hc
    exact ⟨defs_walkCalls_sub_SL b1 n2 a2 b2 h2 c hc, hc⟩

/-- Witness for C10: on the module `def f(): (def g(): h())`, both `f`
and `g` get entries and `h` is attributed to both. -/
theorem nested_function_attribution_witness :
    (defNamesL [.functionDef "f" []
      [.functionDef "g" [] [.exprStmt (.pyCall (.pyName "h") [])]]]).Nodup ∧
    ∃ e1 e2,
      alookup (pyVisit [.functionDef "f" []
        [.functionDef "g" [] [.exprStmt (.pyCall (.pyName "h") [])]]]
        ).functions "f" = some e1 ∧
      alookup (pyVisit [.functionDef "f" []
        [.functionDef "g" [] [.exprStmt (.pyCall (.pyName "h") [])]]]
        ).functions "g" = some e2 ∧
      ∀ c, c ∈ walkCallsSL [.exprStmt (.pyCall (.pyName "h") [])] →
        c ∈ e1.calls ∧ c ∈ e2.calls :=
  ⟨by decide,
   nested_function_attribution
     [.functionDef "f" []
       [.functionDef "g" [] [.exprStmt (.pyCall (.pyName "h") [])]]]
     (by decide)
     "f" [] [.functionDef "g" [] [.exprStmt (.pyCall (.pyName "h") [])]]
     (by simp [defsSL, defsS])
     "g" [] [.exprStmt (.pyCall (.pyName "h") [])]
     (by simp [defsSL, defsS])⟩

/-!
## `PythonAnalyzer.analyze` / `JavaAnalyzer.analyze`: error records

Both methods wrap their work in `try/except` and return a dict in every
branch.  Fallible library calls are modelled as `Except`-valued inputs:
the file-read/decode step (`open(...).read()` with its encoding
fallbacks) as `readResult`, `ast.parse` as `parse`, and the whole Java
regex body (whose exceptions the outer `except` turns into an error
record) as `analysisBody`.  A dict containing only an `"error"` key is a
`FileRecord` with `error` set and all tables empty.
-/

/-- The per-file analysis record; `error = some _` with empty tables
models Python's `{"error": ...}` dict (absent table keys read as empty
downstream). -/
structure FileRecord : Type where
  error : Option String
  imports : List (String × String)
  functions : List (String × PyFnEntry)
  classes : List (String × PyClassEntry)
  callNames : List String
  deriving Repr

/-- `{"error": str(e)}`. -/
def errorRecord (e : String) : FileRecord := ⟨some e, [], [], [], []⟩

/-- `PythonAnalyzer.analyze`. -/
def pythonAnalyze (readResult : Except String String)
    (parse : String → Except String (List PyStmt)) : FileRecord :=
  match readResult with
  | .error e => errorRecord e
  | .ok content =>
    match parse content with
    | .error msg => errorRecord ("Syntax error: " ++ msg)
    | .ok tree =>
      let v := pyVisit tree
      ⟨none, v.imports, v.functions, v.classes, v.calls⟩

/-- The tables computed by the body of `JavaAnalyzer.analyze`. -/
structure JavaTables : Type where
  imports : List (String × String)
  functions : List (String × PyFnEntry)
  classes : List (String × PyClassEntry)
  callNames : List String
  deriving Repr

/-- `JavaAnalyzer.analyze`: decode failure → error record; empty content
→ empty tables with no error; body exception → error record; otherwise
the computed tables. -/
def javaAnalyze (readResult : Except String String)
    (analysisBody : String → Except String JavaTables) : FileRecord :=
  match readResult with
  | .error e => errorRecord e
  | .ok content =>
    if content = "" then ⟨none, [], [], [], []⟩
    else
      match analysisBody content with
      | .error msg => errorRecord ("Java analysis error: " ++ msg)
      | .ok t => ⟨none, t.imports, t.functions, t.classes, t.callNames⟩

/-- All four tables of a record are empty. -/
def tablesEmpty (r : FileRecord) : Prop :=
  r.imports = [] ∧ r.functions = [] ∧ r.classes = [] ∧ r.callNames = []

/-- C6: both analyzers always return a record; whenever the error field
is set the tables are empty; a read/decode failure and a syntax error
(resp. a body exception) produce an error record rather than a raise. -/
theorem analyze_error_shape (readResult : Except String String)
    (parse : String → Except String (List PyStmt))
    (analysisBody : String → Except String JavaTables) :
    ((pythonAnalyze readResult parse).error.isSome →
      tablesEmpty (pythonAnalyze readResult parse)) ∧
    ((javaAnalyze readResult analysisBody).error.isSome →
      tablesEmpty (javaAnalyze readResult analysisBody)) ∧
    (∀ e, readResult = .error e →
      (pythonAnalyze readResult parse).error.isSome ∧
      (javaAnalyze readResult analysisBody).error.isSome) ∧
    (∀ content msg, readResult = .ok content → parse content = .error msg →
      (pythonAnalyze readResult parse).error =
        some ("Syntax error: " ++ msg)) ∧
    (∀ content msg, readResult = .ok content → content ≠ "" →
      analysisBody content = .error msg →
      (javaAnalyze readResult analysisBody).error =
        some ("Java analysis error: " ++ msg)) := by
  refine ⟨?_, ?_, ?_, ?_, ?_⟩
  · intro h
    match readResult with
    | .error e => exact ⟨rfl, rfl, rfl, rfl⟩
    | .ok content =>
      match hp : parse content with
      | .error msg =>
        show tablesEmpty (pythonAnalyze (.ok content) parse)
        simp [pythonAnalyze, hp, errorRecord, tablesEmpty]
      | .ok tree =>
        exfalso
        simp [pythonAnalyze, hp] at h
  · intro h
    match readResult with
    | .error e => exact ⟨rfl, rfl, rfl, rfl⟩
    | .ok content =>
      by_cases hc : content = ""
      · exfalso
        simp [javaAnalyze, hc] at h
      · match hb : analysisBody content with
        | .error msg =>
          show tablesEmpty (javaAnalyze (.ok content) analysisBody)
          simp [javaAnalyze, hc, hb, errorRecord, tablesEmpty]
        | .ok t =>
          exfalso
          simp [javaAnalyze, hc, hb] at h
  · rintro e rfl
    exact ⟨rfl, rfl⟩
  · rintro content msg rfl hp
    simp [pythonAnalyze, hp, errorRecord]
  · rintro content msg rfl hc hb
    simp [javaAnalyze, hc, hb, errorRecord]

/-- Witness for C6: a concrete read failure yields an error record with
empty tables. -/
theorem analyze_error_shape_witness :
    (pythonAnalyze (.error "boom") (fun _ => .ok [])).error.isSome ∧
    tablesEmpty (pythonAnalyze (.error "boom") (fun _ => .ok [])) ∧
    (javaAnalyze (.error "boom") (fun _ => .ok ⟨[], [], [], []⟩)).error.isSome :=
  have h := analyze_error_shape (.error "boom") (fun _ => .ok [])
    (fun _ => .ok ⟨[], [], [], []⟩)
  have he := h.2.2.1 "boom" rfl
  ⟨he.1, h.1 he.1, he.2⟩

/-!
## Graph builder: `AnalysisService._prepare_visualization_data`

The builder consumes the ordered per-file analysis records (a Python
dict keyed by raw file path — modelled as an ordered list of pairs; the
dict's keys are distinct, stated as a hypothesis where needed) and
produces nodes, links and modules.

* Pass 1 walks the files in order, appending a file node, then one node
  plus a file→node `contains` link per function (with one *tentative*
  `calls` link per recorded call name) and per class, numbering nodes
  with a single running counter and recording ids in `node_map`.
* Pass 2 maps every link: a tentative link is resolved against the first
  function node (in node order) with the matching display name, else
  becomes an `unknown:<name>` target with the raw name kept in
  `targetName`.
* The module pass walks each file's normalized path prefixes, creating a
  module node per new prefix string, linking parent prefix → child
  prefix on creation, and linking the current prefix's module to the
  file node on *every* loop iteration.
-/

/-- `str.lstrip('/')`. -/
def lstripSlash (s : String) : String :=
  String.mk (s.data.dropWhile (· = '/'))

/-- `str.split(sep)` for a one-character separator (structural, so that
concrete builds reduce inside the kernel; agrees with Python's
`split`). -/
def splitOnCharAux (c : Char) : List Char → List Char → List (List Char)
  | [], acc => [acc.reverse]
  | x :: xs, acc =>
    if x = c then acc.reverse :: splitOnCharAux c xs []
    else splitOnCharAux c xs (x :: acc)

/-- `path.split('/')`. -/
def splitSlash (s : String) : List String :=
  (splitOnCharAux '/' s.data []).map String.mk

/-- `name.split('.')`. -/
def splitDot (s : String) : List String :=
  (splitOnCharAux '.' s.data []).map String.mk

/-- `'/'.join(parts)`. -/
def joinSlash : List String → String
  | [] => ""
  | [x] => x
  | x :: xs => x ++ "/" ++ joinSlash xs

/-- `str.lower()` on ASCII input. -/
def charToLower (c : Char) : Char :=
  if 'A' ≤ c ∧ c ≤ 'Z' then Char.ofNat (c.toNat + 32) else c

/-- `str.lower()` on ASCII input. -/
def strToLower (s : String) : String :=
  String.mk (s.data.map charToLower)

/-- Python's substring test `need in hay`. -/
def strContains (hay need : String) : Bool :=
  (List.range (hay.data.length + 1)).any
    (fun i => need.data.isPrefixOf (hay.data.drop i))

/-- `AnalysisService.normalize_path`. -/
def normalize_path (file_path : String) : String :=
  let fp :=
    if file_path.data.contains '\\' then
      String.mk (file_path.data.map (fun c => if c = '\\' then '/' else c))
    else file_path
  let parts := splitSlash fp
  if parts.length > 3 ∧
      (parts.contains "tmp" ∨ parts.contains "temp" ∨
        parts.contains "code_analyzer") then
    let startIdx :=
      match parts.findIdx?
        (fun p => strContains p "github_clone_" || strContains p "clone_") with
      | some i => i + 1
      | none => 0
    if startIdx > 0 then joinSlash (parts.drop startIdx)
    else fp
  else fp

/-- `os.path.basename` on a forward-slash path. -/
def basename (p : String) : String :=
  (splitSlash p).getLastD ""

/-- `file_name.split('.')[-1].lower() if '.' in file_name else ''`. -/
def extOf (fileName : String) : String :=
  if fileName.data.contains '.' then
    strToLower ((splitDot fileName).getLastD "")
  else ""

/-- The extension table of `_get_file_type`. -/
def code_extensions : List (String × String) :=
  [("py", "python"), ("js", "javascript"), ("ts", "typescript"),
   ("jsx", "react"), ("tsx", "react"), ("java", "java"), ("c", "c"),
   ("cpp", "cpp"), ("h", "header"), ("hpp", "header"), ("cs", "csharp"),
   ("go", "go"), ("rb", "ruby"), ("php", "php"), ("rs", "rust"),
   ("swift", "swift"), ("kt", "kotlin"), ("scala", "scala")]

/-- `AnalysisService._get_file_type`. -/
def get_file_type (filename extension : String) : String :=
  if (["db.", "database", ".sql", "mydb", ".sqlite"].any
      (fun d => strContains (strToLower filename) d)) then "database"
  else if ["cnf", "conf", "config", "ini", "yml", "yaml", "toml",
      "env"].contains extension then "config"
  else
    match alookup code_extensions extension with
    | some t => t
    | none =>
      if ["html", "htm", "css", "scss", "less", "svg", "json",
          "xml"].contains extension then "web"
      else if ["md", "txt", "rst", "pdf", "doc", "docx"].contains extension
        then "document"
      else if ["sh", "bash", "bat", "cmd", "ps1"].contains extension
        then "script"
      else if strContains (strToLower filename) "dockerfile" ||
          strToLower filename = "docker-compose.yml" then "docker"
      else if ".git".data.isPrefixOf filename.data ∨
          filename = ".gitignore" then "git"
      else "other"

/-- Node kinds of the visualization graph. -/
inductive NodeType : Type where
  | file
  | function
  | cls
  | module
  deriving Repr, DecidableEq

/-- A graph node (absent dict keys modelled by the defaults). -/
structure Node : Type where
  id : Nat
  name : String
  path : String
  ntype : NodeType
  file_type : String := ""
  summary : String := ""
  args : List String := []
  methods : List String := []
  bases : List String := []
  deriving Repr, DecidableEq

/-- A link target: a node id, or a raw / `unknown:` textual target. -/
inductive RawTarget : Type where
  | id (n : Nat)
  | name (s : String)
  deriving Repr, DecidableEq

/-- A pass-1 link (`temp` marks tentative calls-links). -/
structure RawLink : Type where
  source : Nat
  target : RawTarget
  ltype : String
  temp : Bool := false
  deriving Repr, DecidableEq

/-- A final link (`targetName` is only set on unresolved calls-links). -/
structure Link : Type where
  source : Nat
  target : RawTarget
  ltype : String
  targetName : Option String := none
  deriving Repr, DecidableEq

/-- Function details of one per-file record. -/
structure FnDetails : Type where
  args : List String := []
  calls : List String := []
  deriving Repr, DecidableEq

/-- Class details of one per-file record. -/
structure ClsDetails : Type where
  methods : List String := []
  bases : List String := []
  deriving Repr, DecidableEq

/-- One per-file analysis record as consumed by the builder
(`functions` / `classes` are absent on error records, modelled by
`none`; `analysis.get('summary', '')` is the `summary` field). -/
structure FileAnalysis : Type where
  summary : String := ""
  functions : Option (List (String × FnDetails)) := none
  classes : Option (List (String × ClsDetails)) := none
  deriving Repr

/-- Pass-1 inner loop over one file's functions: node, `contains` link,
tentative calls-links, `node_map` entry, counter increment. -/
def addFunctions (fileNodeId : Nat) (normPath filePath : String) :
    List (String × FnDetails) → Nat → List (String × Nat) →
    List Node × List RawLink × List (String × Nat) × Nat
  | [], nodeId, nodeMap => ([], [], nodeMap, nodeId)
  | (fname, details) :: rest, nodeId, nodeMap =>
    let node : Node :=
      { id := nodeId, name := fname, path := normPath, ntype := .function,
        args := details.args }
    let nodeMap1 := dictSet nodeMap (filePath ++ ":" ++ fname) nodeId
    let containsLink : RawLink :=
      { source := fileNodeId, target := RawTarget.id nodeId, ltype := "contains" }
    let callLinks := details.calls.map (fun c =>
      ({ source := nodeId, target := RawTarget.name c, ltype := "calls",
         temp := true } : RawLink))
    let r := addFunctions fileNodeId normPath filePath rest (nodeId + 1) nodeMap1
    (node :: r.1, containsLink :: callLinks ++ r.2.1, r.2.2.1, r.2.2.2)

/-- Pass-1 inner loop over one file's classes. -/
def addClasses (fileNodeId : Nat) (normPath filePath : String) :
    List (String × ClsDetails) → Nat → List (String × Nat) →
    List Node × List RawLink × List (String × Nat) × Nat
  | [], nodeId, nodeMap => ([], [], nodeMap, nodeId)
  | (cname, details) :: rest, nodeId, nodeMap =>
    let node : Node :=
      { id := nodeId, name := cname, path := normPath, ntype := .cls,
        methods := details.methods, bases := details.bases }
    let nodeMap1 := dictSet nodeMap (filePath ++ ":" ++ cname) nodeId
    let containsLink : RawLink :=
      { source := fileNodeId, target := RawTarget.id nodeId, ltype := "contains" }
    let r := addClasses fileNodeId normPath filePath rest (nodeId + 1) nodeMap1
    (node :: r.1, containsLink :: r.2.1, r.2.2.1, r.2.2.2)

/-- Pass 1 for one file: file node, then function and class nodes. -/
def processFile (filePath : String) (a : FileAnalysis) (nodeId : Nat)
    (nodeMap : List (String × Nat)) :
    List Node × List RawLink × List (String × Nat) × Nat :=
  let normPath := normalize_path filePath
  let fileName := basename normPath
  let ftype := get_file_type fileName (extOf fileName)
  let fileNode : Node :=
    { id := nodeId, name := fileName, path := normPath, ntype := .file,
      file_type := ftype, summary := a.summary }
  let nodeMap1 := dictSet nodeMap filePath nodeId
  let fres :=
    match a.functions with
    | some fs => addFunctions nodeId normPath filePath fs (nodeId + 1) nodeMap1
    | none => ([], [], nodeMap1, nodeId + 1)
  let cres :=
    match a.classes with
    | some cs => addClasses nodeId normPath filePath cs fres.2.2.2 fres.2.2.1
    | none => ([], [], fres.2.2.1, fres.2.2.2)
  (fileNode :: fres.1 ++ cres.1, fres.2.1 ++ cres.2.1, cres.2.2.1,
    cres.2.2.2)

/-- Pass 1 over the whole ordered record list. -/
def pass1 : List (String × FileAnalysis) → Nat → List (String × Nat) →
    List Node × List RawLink × List (String × Nat) × Nat
  | [], nodeId, nodeMap => ([], [], nodeMap, nodeId)
  | (fp, a) :: rest, nodeId, nodeMap =>
    let r1 := processFile fp a nodeId nodeMap
    let r2 := pass1 rest r1.2.2.2 r1.2.2.1
    (r1.1 ++ r2.1, r1.2.1 ++ r2.2.1, r2.2.2.1, r2.2.2.2)

/-- Pass 2 on one link: resolve a tentative calls-link against the first
matching function node in node order, else mark it `unknown:<name>`
(keeping the raw name); copy other links unchanged.  (Pass 1 only
creates tentative links with textual targets; on the vacuous numeric
case Python would compare every node name with an int and fall through
to the unknown branch, mirrored here via `toString`.) -/
def resolveOne (nodes : List Node) (l : RawLink) : Link :=
  if l.temp then
    match l.target with
    | .name tn =>
      match nodes.find? (fun nd => nd.ntype = NodeType.function ∧ nd.name = tn) with
      | some nd => { source := l.source, target := RawTarget.id nd.id, ltype := "calls" }
      | none =>
        { source := l.source, target := RawTarget.name ("unknown:" ++ tn),
          ltype := "calls", targetName := some tn }
    | .id k =>
      { source := l.source, target := RawTarget.name ("unknown:" ++ toString k),
        ltype := "calls", targetName := some (toString k) }
  else
    { source := l.source, target := l.target, ltype := l.ltype }

/-- Pass 2 over all links. -/
def pass2 (nodes : List Node) (links : List RawLink) : List Link :=
  links.map (resolveOne nodes)

/-- The evolving state of the module-hierarchy pass:
`(nodes, links, module_map, node_id)`. -/
abbrev ModState : Type :=
  List Node × List Link × List (String × Nat) × Nat

/-- One iteration of the module-pass inner loop
(`for i, part in enumerate(parts[:-1])`): create the module node for an
unseen prefix (linking parent prefix → new prefix), then link the
current prefix's module to the file node (every iteration). -/
def moduleStep (nodeMap : List (String × Nat)) (filePath part cur : String)
    (st : ModState) : ModState :=
  let nodes := st.1
  let links := st.2.1
  let mmap := st.2.2.1
  let nid := st.2.2.2
  let parentPath := cur
  let curPath := lstripSlash (cur ++ "/" ++ part)
  let st1 : ModState :=
    if (alookup mmap curPath).isNone then
      let mnode : Node :=
        { id := nid, name := part, path := curPath, ntype := .module }
      let mmap1 := dictSet mmap curPath nid
      let links1 :=
        if parentPath ≠ "" then
          match alookup mmap1 parentPath with
          | some pid =>
            let lnk : Link :=
              { source := pid, target := RawTarget.id nid,
                ltype := "contains" }
            links ++ [lnk]
          | none => links
        else links
      (nodes ++ [mnode], links1, mmap1, nid + 1)
    else (nodes, links, mmap, nid)
  match alookup nodeMap filePath with
  | some fid =>
    match alookup st1.2.2.1 curPath with
    | some mid =>
      let lnk : Link :=
        { source := mid, target := RawTarget.id fid,
          ltype := "contains" }
      (st1.1, st1.2.1 ++ [lnk], st1.2.2.1, st1.2.2.2)
    | none => st1
  | none => st1

/-- Module-pass inner loop over one file's directory parts. -/
def moduleInner (nodeMap : List (String × Nat)) (filePath : String) :
    List String → String → ModState → ModState
  | [], _, st => st
  | part :: restParts, cur, st =>
    moduleInner nodeMap filePath restParts (lstripSlash (cur ++ "/" ++ part))
      (moduleStep nodeMap filePath part cur st)

/-- Module pass over all files (in record order). -/
def modulePass (nodeMap : List (String × Nat)) :
    List String → ModState → ModState
  | [], st => st
  | fp :: rest, st =>
    let parts := splitSlash (normalize_path fp)
    modulePass nodeMap rest (moduleInner nodeMap fp parts.dropLast "" st)

/-- The builder's output. -/
structure Graph : Type where
  nodes : List Node
  links : List Link
  modules : List String
  deriving Repr

/-- `AnalysisService._prepare_visualization_data`. -/
def buildGraph (analysisResults : List (String × FileAnalysis)) : Graph :=
  let p1 := pass1 analysisResults 0 []
  let actualLinks := pass2 p1.1 p1.2.1
  let final := modulePass p1.2.2.1 (analysisResults.map Prod.fst)
    (p1.1, actualLinks, [], p1.2.2.2)
  { nodes := final.1, links := final.2.1, modules := dictKeys final.2.2.1 }

/-- C7: the graph builder is a pure function of the ordered record
list — two runs on the same input give the same nodes, links and
modules. -/
theorem buildGraph_deterministic (rs1 rs2 : List (String × FileAnalysis))
    (h : rs1 = rs2) :
    (buildGraph rs1).nodes = (buildGraph rs2).nodes ∧
    (buildGraph rs1).links = (buildGraph rs2).links ∧
    (buildGraph rs1).modules = (buildGraph rs2).modules := by
  subst h
  exact ⟨rfl, rfl, rfl⟩

/-- Witness for C7 at a concrete record list. -/
theorem buildGraph_deterministic_witness :
    (buildGraph [("a/b.py", {})]).nodes = (buildGraph [("a/b.py", {})]).nodes ∧
    (buildGraph [("a/b.py", {})]).links = (buildGraph [("a/b.py", {})]).links ∧
    (buildGraph [("a/b.py", {})]).modules =
      (buildGraph [("a/b.py", {})]).modules :=
  buildGraph_deterministic [("a/b.py", {})] [("a/b.py", {})] rfl

theorem range'_append_one (s m n : Nat) :
    List.range' s m ++ List.range' (s + m) n = List.range' s (m + n) := by
  have h := List.range'_append s m n 1
  simpa [Nat.one_mul, Nat.add_comm] using h

theorem addFunctions_ids (fid : Nat) (np fp : String)
    (fs : List (String × FnDetails)) :
    ∀ nid m,
      (addFunctions fid np fp fs nid m).1.map (·.id) =
        List.range' nid fs.length ∧
      (addFunctions fid np fp fs nid m).2.2.2 = nid + fs.length := by
  induction fs with
  | nil => intro nid m; simp [addFunctions]
  | cons p rest ih =>
    intro nid m
    obtain ⟨fname, details⟩ := p
    have ihh := ih (nid + 1) (dictSet m (fp ++ ":" ++ fname) nid)
    simp only [addFunctions, List.map_cons, List.length_cons]
    refine ⟨?_, ?_⟩
    · rw [ihh.1]
      rw [List.range'_succ]
    · rw [ihh.2]
      omega

theorem addClasses_ids (fid : Nat) (np fp : String)
    (cs : List (String × ClsDetails)) :
    ∀ nid m,
      (addClasses fid np fp cs nid m).1.map (·.id) =
        List.range' nid cs.length ∧
      (addClasses fid np fp cs nid m).2.2.2 = nid + cs.length := by
  induction cs with
  | nil => intro nid m; simp [addClasses]
  | cons p rest ih =>
    intro nid m
    obtain ⟨cname, details⟩ := p
    have ihh := ih (nid + 1) (dictSet m (fp ++ ":" ++ cname) nid)
    simp only [addClasses, List.map_cons, List.length_cons]
    refine ⟨?_, ?_⟩
    · rw [ihh.1]
      rw [List.range'_succ]
    · rw [ihh.2]
      omega

theorem processFile_ids (fp : String) (a : FileAnalysis) (nid : Nat)
    (m : List (String × Nat)) :
    (processFile fp a nid m).1.map (·.id) =
      List.range' nid (processFile fp a nid m).1.length ∧
    (processFile fp a nid m).2.2.2 = nid + (processFile fp a nid m).1.length := by
  obtain ⟨summ, fnsOpt, clsOpt⟩ := a
  match fnsOpt, clsOpt with
  | some fs, some cs =>
    have hf := addFunctions_ids nid (normalize_path fp) fp fs (nid + 1)
      (dictSet m fp nid)
    set fres := addFunctions nid (normalize_path fp) fp fs (nid + 1)
      (dictSet m fp nid) with hfres
    have hc := addClasses_ids nid (normalize_path fp) fp cs fres.2.2.2
      fres.2.2.1
    set cres := addClasses nid (normalize_path fp) fp cs fres.2.2.2
      fres.2.2.1 with hcres
    simp only [processFile, List.map_cons, List.map_append,
      List.length_cons, List.length_append, ← hfres, ← hcres]
    have hlenf : fres.1.length = fs.length := by
      have := congrArg List.length hf.1
      simpa using this
    have hlenc : cres.1.length = cs.length := by
      have := congrArg List.length hc.1
      simpa using this
    refine ⟨?_, ?_⟩
    · rw [hf.1, hc.1, hf.2, hlenf, hlenc, ← List.range'_succ,
        show nid + 1 + fs.length = nid + (fs.length + 1) from by omega,
        range'_append_one]
    · rw [hc.2, hf.2, hlenf, hlenc]
      omega
  | some fs, none =>
    have hf := addFunctions_ids nid (normalize_path fp) fp fs (nid + 1)
      (dictSet m fp nid)
    set fres := addFunctions nid (normalize_path fp) fp fs (nid + 1)
      (dictSet m fp nid) with hfres
    simp only [processFile, List.map_cons, List.map_append,
      List.length_cons, List.length_append, ← hfres]
    have hlenf : fres.1.length = fs.length := by
      have := congrArg List.length hf.1
      simpa using this
    refine ⟨?_, ?_⟩
    · simp only [List.map_nil, List.append_nil, List.length_nil]
      rw [hf.1, hlenf, ← List.range'_succ]
    · simp only [List.length_nil]
      rw [hf.2, hlenf]
      omega
  | none, some cs =>
    have hc := addClasses_ids nid (normalize_path fp) fp cs (nid + 1)
      (dictSet m fp nid)
    set cres := addClasses nid (normalize_path fp) fp cs (nid + 1)
      (dictSet m fp nid) with hcres
    simp only [processFile, List.map_cons, List.map_append,
      List.length_cons, List.length_append, ← hcres]
    have hlenc : cres.1.length = cs.length := by
      have := congrArg List.length hc.1
      simpa using this
    refine ⟨?_, ?_⟩
    · simp only [List.map_nil, List.nil_append, List.length_nil]
      rw [List.singleton_append, hc.1, hlenc, ← List.range'_succ]
      congr 1
      omega
    · simp only [List.length_nil]
      rw [hc.2, hlenc]
      omega
  | none, none =>
    simp [processFile, List.range'_succ]

theorem pass1_ids (rs : List (String × FileAnalysis)) :
    ∀ nid m,
      (pass1 rs nid m).1.map (·.id) =
        List.range' nid (pass1 rs nid m).1.length ∧
      (pass1 rs nid m).2.2.2 = nid + (pass1 rs nid m).1.length := by
  induction rs with
  | nil => intro nid m; simp [pass1]
  | cons p rest ih =>
    intro nid m
    obtain ⟨fp, a⟩ := p
    have h1 := processFile_ids fp a nid m
    set r1 := processFile fp a nid m with hr1
    have h2 := ih r1.2.2.2 r1.2.2.1
    set r2 := pass1 rest r1.2.2.2 r1.2.2.1 with hr2
    simp only [pass1, List.map_append, List.length_append, ← hr1, ← hr2]
    refine ⟨?_, ?_⟩
    · rw [h1.1, h2.1, h1.2, range'_append_one]
    · rw [h2.2, h1.2]
      omega

/-- Exact effect of one module-pass iteration: some fresh module nodes
(zero or one) with consecutive ids, some appended `contains` links
targeting either the fresh module id or a file id from the node map,
and the module-map update for the current prefix. -/
theorem moduleStep_spec (nodeMap : List (String × Nat))
    (fp part cur : String) (st : ModState) :
    ∃ newNodes newLinks,
      (moduleStep nodeMap fp part cur st).1 = st.1 ++ newNodes ∧
      (moduleStep nodeMap fp part cur st).2.1 = st.2.1 ++ newLinks ∧
      (moduleStep nodeMap fp part cur st).2.2.1 =
        (if (alookup st.2.2.1 (lstripSlash (cur ++ "/" ++ part))).isNone
         then dictSet st.2.2.1 (lstripSlash (cur ++ "/" ++ part)) st.2.2.2
         else st.2.2.1) ∧
      (moduleStep nodeMap fp part cur st).2.2.2 =
        st.2.2.2 + newNodes.length ∧
      newNodes.map (·.id) = List.range' st.2.2.2 newNodes.length ∧
      (∀ nd ∈ newNodes, nd.ntype = NodeType.module ∧
        nd.path = lstripSlash (cur ++ "/" ++ part) ∧ nd.name = part) ∧
      (∀ l ∈ newLinks, l.ltype = "contains" ∧ l.targetName = none ∧
        ∃ ti, l.target = RawTarget.id ti ∧
          (ti = st.2.2.2 ∨ alookup nodeMap fp = some ti)) := by
  obtain ⟨nodes, links, mmap, nid⟩ := st
  simp only [moduleStep]
  set curPath := lstripSlash (cur ++ "/" ++ part) with hcp
  by_cases hnew : (alookup mmap curPath).isNone
  · rw [if_pos hnew]
    have hcc : alookup (dictSet mmap curPath nid) curPath = some nid := by
      rw [alookup_dictSet, if_pos rfl]
    set mnode : Node :=
      { id := nid, name := part, path := curPath, ntype := .module }
      with hmn
    have hid : [mnode].map (·.id) = List.range' nid 1 := by
      rw [List.range'_one]
      simp [hmn]
    have hnd : ∀ nd ∈ [mnode], nd.ntype = NodeType.module ∧
        nd.path = curPath ∧ nd.name = part := by
      intro nd hnd
      simp only [List.mem_singleton] at hnd
      subst hnd
      exact ⟨rfl, rfl, rfl⟩
    have hmm : dictSet mmap curPath nid =
        if (alookup mmap curPath).isNone
        then dictSet mmap curPath nid else mmap := by rw [if_pos hnew]
    rcases hfl : alookup nodeMap fp with _ | fid
    · -- no module→file link
      by_cases hpar : cur ≠ ""
      · rw [if_pos hpar]
        rcases hpp : alookup (dictSet mmap curPath nid) cur with _ | pid
        · exact ⟨[mnode], [], rfl, by simp, hmm, rfl, hid, hnd, by simp⟩
        · refine ⟨[mnode], [{ source := pid, target := RawTarget.id nid, ltype := "contains" }], rfl, rfl, hmm, rfl, hid, hnd, ?_⟩
          intro l hl
          rcases List.mem_cons.mp hl with rfl | h0
          · exact ⟨rfl, rfl, nid, rfl, Or.inl rfl⟩
          · exact absurd h0 (List.not_mem_nil l)
      · rw [if_neg hpar]
        exact ⟨[mnode], [], rfl, by simp, hmm, rfl, hid, hnd, by simp⟩
    · -- module→file link to fid; current module id is nid
      rw [hcc]
      by_cases hpar : cur ≠ ""
      · rw [if_pos hpar]
        rcases hpp : alookup (dictSet mmap curPath nid) cur with _ | pid
        · refine ⟨[mnode], [{ source := nid, target := RawTarget.id fid, ltype := "contains" }], rfl, rfl, hmm, rfl, hid, hnd, ?_⟩
          intro l hl
          rcases List.mem_cons.mp hl with rfl | h0
          · exact ⟨rfl, rfl, fid, rfl, Or.inr rfl⟩
          · exact absurd h0 (List.not_mem_nil l)
        · refine ⟨[mnode], [{ source := pid, target := RawTarget.id nid, ltype := "contains" }, { source := nid, target := RawTarget.id fid, ltype := "contains" }], rfl, by simp, hmm, rfl, hid, hnd, ?_⟩
          intro l hl
          simp only [List.mem_cons] at hl
          rcases hl with rfl | rfl | h0
          · exact ⟨rfl, rfl, nid, rfl, Or.inl rfl⟩
          · exact ⟨rfl, rfl, fid, rfl, Or.inr rfl⟩
          · exact absurd h0 (List.not_mem_nil l)
      · rw [if_neg hpar]
        refine ⟨[mnode], [{ source := nid, target := RawTarget.id fid, ltype := "contains" }], rfl, rfl, hmm, rfl, hid, hnd, ?_⟩
        intro l hl
        rcases List.mem_cons.mp hl with rfl | h0
        · exact ⟨rfl, rfl, fid, rfl, Or.inr rfl⟩
        · exact absurd h0 (List.not_mem_nil l)
  · rw [if_neg hnew]
    have hmm : mmap = if (alookup mmap curPath).isNone
        then dictSet mmap curPath nid else mmap := by rw [if_neg hnew]
    rcases hfl : alookup nodeMap fp with _ | fid
    · exact ⟨[], [], by simp, by simp, hmm, by simp, by simp, by simp,
        by simp⟩
    · rcases hcc : alookup mmap curPath with _ | mid
      · rw [hcc] at hnew
        simp at hnew
      · refine ⟨[], [{ source := mid, target := RawTarget.id fid, ltype := "contains" }], by simp, by simp, by simpa using hmm, by simp, by simp, by simp, ?_⟩
        intro l hl
        rcases List.mem_cons.mp hl with rfl | h0
        · exact ⟨rfl, rfl, fid, rfl, Or.inr rfl⟩
        · exact absurd h0 (List.not_mem_nil l)

theorem moduleInner_ids (nodeMap : List (String × Nat)) (fp : String)
    (parts : List String) :
    ∀ cur st, st.1.map (·.id) = List.range' 0 st.1.length →
      st.2.2.2 = st.1.length →
      (moduleInner nodeMap fp parts cur st).1.map (·.id) =
        List.range' 0 (moduleInner nodeMap fp parts cur st).1.length ∧
      (moduleInner nodeMap fp parts cur st).2.2.2 =
        (moduleInner nodeMap fp parts cur st).1.length := by
  induction parts with
  | nil => intro cur st h1 h2; exact ⟨h1, h2⟩
  | cons part rest ih =>
    intro cur st h1 h2
    obtain ⟨newNodes, newLinks, hn, hl, hm, hc, hni, hnt, hlt⟩ :=
      moduleStep_spec nodeMap fp part cur st
    show (moduleInner nodeMap fp rest (lstripSlash (cur ++ "/" ++ part))
        (moduleStep nodeMap fp part cur st)).1.map (·.id) = _ ∧ _
    apply ih
    · rw [hn, List.map_append, h1, List.length_append]
      rw [hni, h2]
      have hr := range'_append_one 0 st.1.length newNodes.length
      simpa using hr
    · rw [hc, hn, List.length_append, h2]

theorem modulePass_ids (nodeMap : List (String × Nat))
    (fps : List String) :
    ∀ st, st.1.map (·.id) = List.range' 0 st.1.length →
      st.2.2.2 = st.1.length →
      (modulePass nodeMap fps st).1.map (·.id) =
        List.range' 0 (modulePass nodeMap fps st).1.length ∧
      (modulePass nodeMap fps st).2.2.2 =
        (modulePass nodeMap fps st).1.length := by
  induction fps with
  | nil => intro st h1 h2; exact ⟨h1, h2⟩
  | cons fp rest ih =>
    intro st h1 h2
    simp only [modulePass]
    have h := moduleInner_ids nodeMap fp
      (splitSlash (normalize_path fp)).dropLast "" st h1 h2
    exact ih _ h.1 h.2

/-- C8: in every built graph the node ids are the sequence `0, 1, 2, …`
in list order — assigned by a single running counter, monotonically
increasing, never reused, and satisfying `index = id`. -/
theorem node_ids_sequential (rs : List (String × FileAnalysis)) :
    (buildGraph rs).nodes.map (·.id) =
      List.range' 0 (buildGraph rs).nodes.length ∧
    ((buildGraph rs).nodes.map (·.id)).Nodup ∧
    ∀ i (h : i < (buildGraph rs).nodes.length),
      ((buildGraph rs).nodes.get ⟨i, h⟩).id = i := by
  have hp1 := pass1_ids rs 0 []
  have hmod := modulePass_ids (pass1 rs 0 []).2.2.1 (rs.map Prod.fst)
    ((pass1 rs 0 []).1, pass2 (pass1 rs 0 []).1 (pass1 rs 0 []).2.1, [],
      (pass1 rs 0 []).2.2.2)
    (by simpa using hp1.1) (by simpa using hp1.2)
  have hnodes : (buildGraph rs).nodes.map (·.id) =
      List.range' 0 (buildGraph rs).nodes.length := by
    exact hmod.1
  refine ⟨hnodes, ?_, ?_⟩
  · rw [hnodes]
    exact List.nodup_range' 0 _ 1 Nat.one_pos
  · intro i h
    have hm : i < ((buildGraph rs).nodes.map (·.id)).length := by
      simpa using h
    have e1 : ((buildGraph rs).nodes.map (·.id))[i] =
        ((buildGraph rs).nodes.get ⟨i, h⟩).id := by
      simp
    have e2 := List.getElem_of_eq hnodes hm
    rw [e2] at e1
    rw [← e1]
    simp [List.getElem_range']

/-- Witness for C8: the third node of a concrete build has id 2. -/
theorem node_ids_sequential_witness :
    2 < (buildGraph [("a.py",
      { functions := some [("f", {}), ("g", {})] })]).nodes.length ∧
    ((buildGraph [("a.py",
      { functions := some [("f", {}), ("g", {})] })]).nodes.get
        ⟨2, by decide⟩).id = 2 :=
  ⟨by decide,
   (node_ids_sequential [("a.py",
      { functions := some [("f", {}), ("g", {})] })]).2.2 2 (by decide)⟩

theorem find?_first {α : Type} (p : α → Bool) (l : List α)
    (hx : ∃ x ∈ l, p x) :
    ∃ i, ∃ (hi : i < l.length), p (l.get ⟨i, hi⟩) ∧
      (∀ j (hj : j < l.length), j < i → ¬ p (l.get ⟨j, hj⟩)) ∧
      l.find? p = some (l.get ⟨i, hi⟩) := by
  induction l with
  | nil => obtain ⟨x, hx, _⟩ := hx; cases hx
  | cons a rest ih =>
    by_cases ha : p a
    · refine ⟨0, Nat.succ_pos _, ha, ?_, ?_⟩
      · intro j hj hj0; omega
      · simp [List.find?, ha]
    · have hrest : ∃ x ∈ rest, p x := by
        obtain ⟨x, hmem, hpx⟩ := hx
        rcases List.mem_cons.mp hmem with rfl | hmem2
        · exact absurd hpx (by simpa using ha)
        · exact ⟨x, hmem2, hpx⟩
      obtain ⟨i, hi, hpi, hfirst, hfind⟩ := ih hrest
      refine ⟨i + 1, Nat.succ_lt_succ hi, ?_, ?_, ?_⟩
      · simpa using hpi
      · intro j hj hji
        match j with
        | 0 => simpa using ha
        | j' + 1 =>
          have := hfirst j' (Nat.lt_of_succ_lt_succ hj)
            (Nat.lt_of_succ_lt_succ hji)
          simpa using this
      · simp only [List.find?]
        have hpa : p a = false := by simpa using ha
        rw [hpa]
        simpa using hfind

/-- Unfolding of `resolveOne` on a tentative calls-link with a textual
target. -/
theorem resolveOne_temp_name (nodes : List Node) (src : Nat) (tn : String) :
    resolveOne nodes
      { source := src, target := RawTarget.name tn, ltype := "calls",
        temp := true } =
      (match nodes.find?
          (fun nd => decide (nd.ntype = NodeType.function ∧ nd.name = tn)) with
      | some nd =>
        { source := src, target := RawTarget.id nd.id, ltype := "calls" }
      | none =>
        { source := src, target := RawTarget.name ("unknown:" ++ tn),
          ltype := "calls", targetName := some tn }) := rfl

/-- C2: in the builder's second pass, a tentative calls-link whose raw
target name matches at least one function node is rewritten to point at
the id of the first matching function node in node-creation order (so
with two same-named functions the one created first wins); if no
function node anywhere has that display name, the link is kept with
target `unknown:<name>` and the original name retained in
`targetName`. -/
theorem call_resolution (nodes : List Node) (src : Nat) (tn : String) :
    (∀ links, pass2 nodes links = links.map (resolveOne nodes)) ∧
    ((∃ nd ∈ nodes, nd.ntype = NodeType.function ∧ nd.name = tn) →
      ∃ i, ∃ (hi : i < nodes.length),
        (nodes.get ⟨i, hi⟩).ntype = NodeType.function ∧
        (nodes.get ⟨i, hi⟩).name = tn ∧
        (∀ j (hj : j < nodes.length), j < i →
          ¬((nodes.get ⟨j, hj⟩).ntype = NodeType.function ∧
            (nodes.get ⟨j, hj⟩).name = tn)) ∧
        resolveOne nodes
          { source := src, target := RawTarget.name tn, ltype := "calls",
            temp := true } =
          { source := src, target := RawTarget.id ((nodes.get ⟨i, hi⟩).id),
            ltype := "calls" }) ∧
    ((∀ nd ∈ nodes, ¬(nd.ntype = NodeType.function ∧ nd.name = tn)) →
      resolveOne nodes
        { source := src, target := RawTarget.name tn, ltype := "calls",
          temp := true } =
        { source := src, target := RawTarget.name ("unknown:" ++ tn),
          ltype := "calls", targetName := some tn }) := by
  refine ⟨fun links => rfl, ?_, ?_⟩
  · intro hex
    have hx : ∃ x ∈ nodes,
        (fun nd => decide (nd.ntype = NodeType.function ∧ nd.name = tn)) x := by
      obtain ⟨nd, hmem, h1, h2⟩ := hex
      exact ⟨nd, hmem, by simp [h1, h2]⟩
    obtain ⟨i, hi, hpi, hfirst, hfind⟩ := find?_first _ nodes hx
    refine ⟨i, hi, ?_, ?_, ?_, ?_⟩
    · exact (of_decide_eq_true hpi).1
    · exact (of_decide_eq_true hpi).2
    · intro j hj hji hcontra
      exact (hfirst j hj hji) (by simpa using hcontra)
    · rw [resolveOne_temp_name, hfind]
  · intro hall
    have hnone : nodes.find?
        (fun nd => decide (nd.ntype = NodeType.function ∧ nd.name = tn)) =
        none := by
      rw [List.find?_eq_none]
      intro x hx
      simpa using hall x hx
    rw [resolveOne_temp_name, hnone]

/-- Concrete node list for the C2 witness: two files, each defining a
function `helper`, in processing order. -/
def demoNodes : List Node :=
  [{ id := 0, name := "f1.py", path := "f1.py", ntype := NodeType.file },
   { id := 1, name := "helper", path := "f1.py", ntype := NodeType.function },
   { id := 2, name := "f2.py", path := "f2.py", ntype := NodeType.file },
   { id := 3, name := "helper", path := "f2.py", ntype := NodeType.function }]

/-- Witness for C2: with two function nodes both named `helper` (the
first from the file processed first) and one further name with no node,
resolution picks the first `helper` node and the missing name becomes an
`unknown:` target. -/
theorem call_resolution_witness :
    (∃ nd ∈ demoNodes, nd.ntype = NodeType.function ∧ nd.name = "helper") ∧
    (∃ i, ∃ (hi : i < demoNodes.length),
      (demoNodes.get ⟨i, hi⟩).ntype = NodeType.function ∧
      (demoNodes.get ⟨i, hi⟩).name = "helper" ∧
      (∀ j (hj : j < demoNodes.length), j < i →
        ¬((demoNodes.get ⟨j, hj⟩).ntype = NodeType.function ∧
          (demoNodes.get ⟨j, hj⟩).name = "helper")) ∧
      resolveOne demoNodes
        { source := 5, target := RawTarget.name "helper", ltype := "calls",
          temp := true } =
        { source := 5, target := RawTarget.id ((demoNodes.get ⟨i, hi⟩).id),
          ltype := "calls" }) ∧
    resolveOne demoNodes
      { source := 5, target := RawTarget.name "missing", ltype := "calls",
        temp := true } =
      { source := 5, target := RawTarget.name ("unknown:" ++ "missing"),
        ltype := "calls", targetName := some "missing" } :=
  ⟨by decide,
   (call_resolution demoNodes 5 "helper").2.1 (by decide),
   (call_resolution demoNodes 5 "missing").2.2 (by decide)⟩

/-!
### C9: incoming `contains` links of function and class nodes

Counting machinery over raw (pass-1) and final links.
-/

/-- The link is a `contains` link whose target is node id `t`. -/
def isContainsTo (t : Nat) (l : RawLink) : Bool :=
  decide (l.ltype = "contains" ∧ l.target = RawTarget.id t)

/-- Final-link version of `isContainsTo`. -/
def isContainsToL (t : Nat) (l : Link) : Bool :=
  decide (l.ltype = "contains" ∧ l.target = RawTarget.id t)

theorem addFunctions_links (fid : Nat) (np fp : String)
    (fs : List (String × FnDetails)) :
    ∀ nid m,
      (∀ t, ((addFunctions fid np fp fs nid m).2.1.countP (isContainsTo t)) =
        if nid ≤ t ∧ t < nid + fs.length then 1 else 0) ∧
      (∀ l ∈ (addFunctions fid np fp fs nid m).2.1,
        (l.ltype = "contains" ∧ l.temp = false ∧ l.source = fid ∧
          ∃ t, l.target = RawTarget.id t ∧ nid ≤ t ∧ t < nid + fs.length) ∨
        (l.ltype = "calls" ∧ l.temp = true ∧
          ∃ nm, l.target = RawTarget.name nm)) := by
  induction fs with
  | nil =>
    intro nid m
    constructor
    · intro t
      simp only [addFunctions, List.countP_nil, List.length_nil]
      rw [if_neg (by omega)]
    · intro l hl
      simp [addFunctions] at hl
  | cons p rest ih =>
    intro nid m
    obtain ⟨fname, details⟩ := p
    have ihh := ih (nid + 1) (dictSet m (fp ++ ":" ++ fname) nid)
    constructor
    · intro t
      simp only [addFunctions, List.countP_cons, List.countP_append,
        List.length_cons]
      have hcall : (details.calls.map (fun c =>
          ({ source := nid, target := RawTarget.name c, ltype := "calls",
             temp := true } : RawLink))).countP (isContainsTo t) = 0 := by
        rw [List.countP_eq_zero]
        intro l hl
        simp only [List.mem_map] at hl
        obtain ⟨c, _, rfl⟩ := hl
        simp [isContainsTo]
      rw [hcall, ihh.1 t]
      by_cases ht : t = nid
      · have hhead : isContainsTo t
            ({ source := fid, target := RawTarget.id nid,
               ltype := "contains" } : RawLink) = true := by
          simp [isContainsTo, ht]
        rw [hhead,
          if_neg (show ¬(nid + 1 ≤ t ∧ t < nid + 1 + rest.length)
            from by omega),
          if_pos (show nid ≤ t ∧ t < nid + (rest.length + 1)
            from by omega)]
        simp
      · have hhead : isContainsTo t
            ({ source := fid, target := RawTarget.id nid,
               ltype := "contains" } : RawLink) = false := by
          simp only [isContainsTo, decide_eq_false_iff_not]
          rintro ⟨-, h2⟩
          exact ht (by injection h2 with h; omega)
        rw [hhead]
        by_cases hin : nid + 1 ≤ t ∧ t < nid + 1 + rest.length
        · rw [if_pos hin, if_pos (show nid ≤ t ∧ t < nid + (rest.length + 1)
            from by omega)]
          simp
        · rw [if_neg hin, if_neg (show ¬(nid ≤ t ∧ t < nid + (rest.length + 1))
            from by omega)]
          simp
    · intro l hl
      simp only [addFunctions, List.mem_cons, List.mem_append] at hl
      rcases hl with (rfl | hl2) | hl3
      · left
        exact ⟨rfl, rfl, rfl, nid, rfl, by omega, by simp only [List.length_cons]; omega⟩
      · right
        simp only [List.mem_map] at hl2
        obtain ⟨c, _, rfl⟩ := hl2
        exact ⟨rfl, rfl, c, rfl⟩
      · rcases ihh.2 l hl3 with ⟨h1, h2, h3, t, h4, h5, h6⟩ | hr
        · left
          refine ⟨h1, h2, h3, t, h4, by omega, by simp only [List.length_cons] at h6 ⊢; omega⟩
        · right
          exact hr

theorem addClasses_links (fid : Nat) (np fp : String)
    (cs : List (String × ClsDetails)) :
    ∀ nid m,
      (∀ t, ((addClasses fid np fp cs nid m).2.1.countP (isContainsTo t)) =
        if nid ≤ t ∧ t < nid + cs.length then 1 else 0) ∧
      (∀ l ∈ (addClasses fid np fp cs nid m).2.1,
        l.ltype = "contains" ∧ l.temp = false ∧ l.source = fid ∧
          ∃ t, l.target = RawTarget.id t ∧ nid ≤ t ∧ t < nid + cs.length) := by
  induction cs with
  | nil =>
    intro nid m
    constructor
    · intro t
      simp only [addClasses, List.countP_nil, List.length_nil]
      rw [if_neg (by omega)]
    · intro l hl
      simp [addClasses] at hl
  | cons p rest ih =>
    intro nid m
    obtain ⟨cname, details⟩ := p
    have ihh := ih (nid + 1) (dictSet m (fp ++ ":" ++ cname) nid)
    constructor
    · intro t
      simp only [addClasses, List.countP_cons, List.length_cons]
      rw [ihh.1 t]
      by_cases ht : t = nid
      · have hhead : isContainsTo t
            ({ source := fid, target := RawTarget.id nid,
               ltype := "contains" } : RawLink) = true := by
          simp [isContainsTo, ht]
        rw [hhead,
          if_neg (show ¬(nid + 1 ≤ t ∧ t < nid + 1 + rest.length)
            from by omega),
          if_pos (show nid ≤ t ∧ t < nid + (rest.length + 1)
            from by omega)]
        simp
      · have hhead : isContainsTo t
            ({ source := fid, target := RawTarget.id nid,
               ltype := "contains" } : RawLink) = false := by
          simp only [isContainsTo, decide_eq_false_iff_not]
          rintro ⟨-, h2⟩
          exact ht (by injection h2 with h; omega)
        rw [hhead]
        by_cases hin : nid + 1 ≤ t ∧ t < nid + 1 + rest.length
        · rw [if_pos hin, if_pos (show nid ≤ t ∧ t < nid + (rest.length + 1)
            from by omega)]
          simp
        · rw [if_neg hin, if_neg (show ¬(nid ≤ t ∧ t < nid + (rest.length + 1))
            from by omega)]
          simp
    · intro l hl
      simp only [addClasses, List.mem_cons] at hl
      rcases hl with rfl | hl2
      · exact ⟨rfl, rfl, rfl, nid, rfl, by omega, by simp only [List.length_cons]; omega⟩
      · obtain ⟨h1, h2, h3, t, h4, h5, h6⟩ := ihh.2 l hl2
        refine ⟨h1, h2, h3, t, h4, by omega, by simp only [List.length_cons] at h6 ⊢; omega⟩

theorem addFunctions_nodes (fid : Nat) (np fp : String)
    (fs : List (String × FnDetails)) :
    ∀ nid m, ∀ nd ∈ (addFunctions fid np fp fs nid m).1,
      nd.ntype = NodeType.function ∧ nd.path = np := by
  induction fs with
  | nil => intro nid m nd hnd; simp [addFunctions] at hnd
  | cons p rest ih =>
    intro nid m nd hnd
    obtain ⟨fname, details⟩ := p
    simp only [addFunctions, List.mem_cons] at hnd
    rcases hnd with rfl | h2
    · exact ⟨rfl, rfl⟩
    · exact ih (nid + 1) _ nd h2

theorem addClasses_nodes (fid : Nat) (np fp : String)
    (cs : List (String × ClsDetails)) :
    ∀ nid m, ∀ nd ∈ (addClasses fid np fp cs nid m).1,
      nd.ntype = NodeType.cls ∧ nd.path = np := by
  induction cs with
  | nil => intro nid m nd hnd; simp [addClasses] at hnd
  | cons p rest ih =>
    intro nid m nd hnd
    obtain ⟨cname, details⟩ := p
    simp only [addClasses, List.mem_cons] at hnd
    rcases hnd with rfl | h2
    · exact ⟨rfl, rfl⟩
    · exact ih (nid + 1) _ nd h2

theorem processFile_nodes (fp : String) (a : FileAnalysis) (nid : Nat)
    (m : List (String × Nat)) :
    ∀ j (hj : j < (processFile fp a nid m).1.length),
      (j = 0 →
        ((processFile fp a nid m).1.get ⟨j, hj⟩).ntype = NodeType.file) ∧
      (j ≠ 0 →
        ((processFile fp a nid m).1.get ⟨j, hj⟩).ntype = NodeType.function ∨
        ((processFile fp a nid m).1.get ⟨j, hj⟩).ntype = NodeType.cls) ∧
      ((processFile fp a nid m).1.get ⟨j, hj⟩).path = normalize_path fp := by
  have hshape : ∃ rest, (processFile fp a nid m).1 =
      ({ id := nid, name := basename (normalize_path fp),
         path := normalize_path fp, ntype := NodeType.file,
         file_type := get_file_type (basename (normalize_path fp))
           (extOf (basename (normalize_path fp))),
         summary := a.summary } : Node) :: rest ∧
      ∀ nd ∈ rest, (nd.ntype = NodeType.function ∨ nd.ntype = NodeType.cls) ∧
        nd.path = normalize_path fp := by
    obtain ⟨summ, fnsOpt, clsOpt⟩ := a
    match fnsOpt, clsOpt with
    | some fs, some cs =>
      refine ⟨_, rfl, ?_⟩
      intro nd hnd
      rcases List.mem_append.mp hnd with h | h
      · have := addFunctions_nodes nid (normalize_path fp) fp fs (nid + 1)
          (dictSet m fp nid) nd h
        exact ⟨Or.inl this.1, this.2⟩
      · have := addClasses_nodes nid (normalize_path fp) fp cs _ _ nd h
        exact ⟨Or.inr this.1, this.2⟩
    | some fs, none =>
      refine ⟨_, rfl, ?_⟩
      intro nd hnd
      rcases List.mem_append.mp hnd with h | h
      · have := addFunctions_nodes nid (normalize_path fp) fp fs (nid + 1)
          (dictSet m fp nid) nd h
        exact ⟨Or.inl this.1, this.2⟩
      · simp at h
    | none, some cs =>
      refine ⟨_, rfl, ?_⟩
      intro nd hnd
      rcases List.mem_append.mp hnd with h | h
      · simp at h
      · have := addClasses_nodes nid (normalize_path fp) fp cs _ _ nd h
        exact ⟨Or.inr this.1, this.2⟩
    | none, none =>
      refine ⟨_, rfl, ?_⟩
      intro nd hnd
      simp at hnd
  obtain ⟨rest, heq, hrest⟩ := hshape
  intro j hj
  match j with
  | 0 =>
    have hget : (processFile fp a nid m).1.get ⟨0, hj⟩ =
        ({ id := nid, name := basename (normalize_path fp),
           path := normalize_path fp, ntype := NodeType.file,
           file_type := get_file_type (basename (normalize_path fp))
             (extOf (basename (normalize_path fp))),
           summary := a.summary } : Node) := by
      have h := List.get_of_eq heq ⟨0, hj⟩
      simpa using h
    exact ⟨fun _ => by rw [hget], fun h0 => absurd rfl h0, by rw [hget]⟩
  | j' + 1 =>
    have hj2 : j' < rest.length := by
      have := hj
      rw [heq] at this
      simpa using this
    have hget : (processFile fp a nid m).1.get ⟨j' + 1, hj⟩ =
        rest.get ⟨j', hj2⟩ := by
      have h := List.get_of_eq heq ⟨j' + 1, hj⟩
      simpa using h
    have hmem : rest.get ⟨j', hj2⟩ ∈ rest := List.get_mem rest j' hj2
    refine ⟨fun h0 => absurd h0 (by omega), fun _ => ?_, ?_⟩
    · rw [hget]
      exact (hrest _ hmem).1
    · rw [hget]
      exact (hrest _ hmem).2

theorem processFile_links (fp : String) (a : FileAnalysis) (nid : Nat)
    (m : List (String × Nat)) :
    (∀ t, (processFile fp a nid m).2.1.countP (isContainsTo t) =
      if nid + 1 ≤ t ∧ t < nid + (processFile fp a nid m).1.length
      then 1 else 0) ∧
    (∀ l ∈ (processFile fp a nid m).2.1,
      (l.ltype = "contains" ∧ l.temp = false ∧ l.source = nid ∧
        ∃ t, l.target = RawTarget.id t ∧ nid + 1 ≤ t ∧
          t < nid + (processFile fp a nid m).1.length) ∨
      (l.ltype = "calls" ∧ l.temp = true ∧
        ∃ nm, l.target = RawTarget.name nm)) := by
  obtain ⟨summ, fnsOpt, clsOpt⟩ := a
  match fnsOpt, clsOpt with
  | some fs, some cs =>
    have hf := addFunctions_links nid (normalize_path fp) fp fs (nid + 1)
      (dictSet m fp nid)
    have hfid := addFunctions_ids nid (normalize_path fp) fp fs (nid + 1)
      (dictSet m fp nid)
    have hc := addClasses_links nid (normalize_path fp) fp cs
      (addFunctions nid (normalize_path fp) fp fs (nid + 1)
        (dictSet m fp nid)).2.2.2
      (addFunctions nid (normalize_path fp) fp fs (nid + 1)
        (dictSet m fp nid)).2.2.1
    have hcid := addClasses_ids nid (normalize_path fp) fp cs
      (addFunctions nid (normalize_path fp) fp fs (nid + 1)
        (dictSet m fp nid)).2.2.2
      (addFunctions nid (normalize_path fp) fp fs (nid + 1)
        (dictSet m fp nid)).2.2.1
    have hpid := processFile_ids fp ⟨summ, some fs, some cs⟩ nid m
    have hlen : (processFile fp ⟨summ, some fs, some cs⟩ nid m).1.length =
        1 + fs.length + cs.length := by
      have h2 := hpid.2
      have h3 : (processFile fp ⟨summ, some fs, some cs⟩ nid m).2.2.2 =
          (addClasses nid (normalize_path fp) fp cs
            (addFunctions nid (normalize_path fp) fp fs (nid + 1)
              (dictSet m fp nid)).2.2.2
            (addFunctions nid (normalize_path fp) fp fs (nid + 1)
              (dictSet m fp nid)).2.2.1).2.2.2 := rfl
      rw [h3, hcid.2, hfid.2] at h2
      omega
    constructor
    · intro t
      have hlinks : (processFile fp ⟨summ, some fs, some cs⟩ nid m).2.1 =
          (addFunctions nid (normalize_path fp) fp fs (nid + 1)
            (dictSet m fp nid)).2.1 ++
          (addClasses nid (normalize_path fp) fp cs
            (addFunctions nid (normalize_path fp) fp fs (nid + 1)
              (dictSet m fp nid)).2.2.2
            (addFunctions nid (normalize_path fp) fp fs (nid + 1)
              (dictSet m fp nid)).2.2.1).2.1 := rfl
      rw [hlinks, List.countP_append, hf.1 t, hc.1 t, hfid.2, hlen]
      split_ifs <;> omega
    · intro l hl
      have hlinks : (processFile fp ⟨summ, some fs, some cs⟩ nid m).2.1 =
          (addFunctions nid (normalize_path fp) fp fs (nid + 1)
            (dictSet m fp nid)).2.1 ++
          (addClasses nid (normalize_path fp) fp cs
            (addFunctions nid (normalize_path fp) fp fs (nid + 1)
              (dictSet m fp nid)).2.2.2
            (addFunctions nid (normalize_path fp) fp fs (nid + 1)
              (dictSet m fp nid)).2.2.1).2.1 := rfl
      rw [hlinks] at hl
      rw [hlen]
      rcases List.mem_append.mp hl with h | h
      · rcases hf.2 l h with ⟨h1, h2, h3, t, h4, h5, h6⟩ | hr
        · exact Or.inl ⟨h1, h2, h3, t, h4, by omega, by omega⟩
        · exact Or.inr hr
      · obtain ⟨h1, h2, h3, t, h4, h5, h6⟩ := hc.2 l h
        rw [hfid.2] at h5 h6
        exact Or.inl ⟨h1, h2, h3, t, h4, by omega, by omega⟩
  | some fs, none =>
    have hf := addFunctions_links nid (normalize_path fp) fp fs (nid + 1)
      (dictSet m fp nid)
    have hfid := addFunctions_ids nid (normalize_path fp) fp fs (nid + 1)
      (dictSet m fp nid)
    have hpid := processFile_ids fp ⟨summ, some fs, none⟩ nid m
    have hlen : (processFile fp ⟨summ, some fs, none⟩ nid m).1.length =
        1 + fs.length := by
      have h2 := hpid.2
      have h3 : (processFile fp ⟨summ, some fs, none⟩ nid m).2.2.2 =
          (addFunctions nid (normalize_path fp) fp fs (nid + 1)
            (dictSet m fp nid)).2.2.2 := rfl
      rw [h3, hfid.2] at h2
      omega
    constructor
    · intro t
      have hlinks : (processFile fp ⟨summ, some fs, none⟩ nid m).2.1 =
          (addFunctions nid (normalize_path fp) fp fs (nid + 1)
            (dictSet m fp nid)).2.1 ++ [] := rfl
      rw [hlinks, List.countP_append, hf.1 t, hlen]
      simp only [List.countP_nil]
      split_ifs <;> omega
    · intro l hl
      have hlinks : (processFile fp ⟨summ, some fs, none⟩ nid m).2.1 =
          (addFunctions nid (normalize_path fp) fp fs (nid + 1)
            (dictSet m fp nid)).2.1 ++ [] := rfl
      rw [hlinks] at hl
      rw [hlen]
      rcases List.mem_append.mp hl with h | h
      · rcases hf.2 l h with ⟨h1, h2, h3, t, h4, h5, h6⟩ | hr
        · exact Or.inl ⟨h1, h2, h3, t, h4, by omega, by omega⟩
        · exact Or.inr hr
      · simp at h
  | none, some cs =>
    have hc := addClasses_links nid (normalize_path fp) fp cs (nid + 1)
      (dictSet m fp nid)
    have hcid := addClasses_ids nid (normalize_path fp) fp cs (nid + 1)
      (dictSet m fp nid)
    have hpid := processFile_ids fp ⟨summ, none, some cs⟩ nid m
    have hlen : (processFile fp ⟨summ, none, some cs⟩ nid m).1.length =
        1 + cs.length := by
      have h2 := hpid.2
      have h3 : (processFile fp ⟨summ, none, some cs⟩ nid m).2.2.2 =
          (addClasses nid (normalize_path fp) fp cs (nid + 1)
            (dictSet m fp nid)).2.2.2 := rfl
      rw [h3, hcid.2] at h2
      omega
    constructor
    · intro t
      have hlinks : (processFile fp ⟨summ, none, some cs⟩ nid m).2.1 =
          [] ++ (addClasses nid (normalize_path fp) fp cs (nid + 1)
            (dictSet m fp nid)).2.1 := rfl
      rw [hlinks, List.countP_append, hc.1 t, hlen]
      simp only [List.countP_nil]
      split_ifs <;> omega
    · intro l hl
      have hlinks : (processFile fp ⟨summ, none, some cs⟩ nid m).2.1 =
          [] ++ (addClasses nid (normalize_path fp) fp cs (nid + 1)
            (dictSet m fp nid)).2.1 := rfl
      rw [hlinks] at hl
      rw [hlen]
      rcases List.mem_append.mp hl with h | h
      · simp at h
      · obtain ⟨h1, h2, h3, t, h4, h5, h6⟩ := hc.2 l h
        exact Or.inl ⟨h1, h2, h3, t, h4, by omega, by omega⟩
  | none, none =>
    constructor
    · intro t
      have hlinks : (processFile fp ⟨summ, none, none⟩ nid m).2.1 =
          ([] : List RawLink) := rfl
      have hlen : (processFile fp ⟨summ, none, none⟩ nid m).1.length = 1 :=
        rfl
      rw [hlinks, hlen]
      simp only [List.countP_nil]
      rw [if_neg (by omega)]
    · intro l hl
      have hlinks : (processFile fp ⟨summ, none, none⟩ nid m).2.1 =
          ([] : List RawLink) := rfl
      rw [hlinks] at hl
      simp at hl

/-- Pass-1 invariants for C9: (a) no `contains` link targets an id
outside the produced range; (b) every function/class node has exactly
one incoming `contains` link; (c) every link is either a tentative
calls-link with a textual target, or a `contains` link from the file
node that starts the target's segment (the closest preceding file
node, sharing the target's path). -/
theorem pass1_c9 (rs : List (String × FileAnalysis)) :
    ∀ nid m,
      (∀ t, (t < nid ∨ nid + (pass1 rs nid m).1.length ≤ t) →
        (pass1 rs nid m).2.1.countP (isContainsTo t) = 0) ∧
      (∀ j (hj : j < (pass1 rs nid m).1.length),
        (((pass1 rs nid m).1.get ⟨j, hj⟩).ntype = NodeType.function ∨
         ((pass1 rs nid m).1.get ⟨j, hj⟩).ntype = NodeType.cls) →
        (pass1 rs nid m).2.1.countP (isContainsTo (nid + j)) = 1) ∧
      (∀ l ∈ (pass1 rs nid m).2.1,
        (l.ltype = "calls" ∧ l.temp = true ∧
          ∃ nm, l.target = RawTarget.name nm) ∨
        (l.ltype = "contains" ∧ l.temp = false ∧
          ∃ s t, ∃ (hs : s - nid < (pass1 rs nid m).1.length)
            (ht : t - nid < (pass1 rs nid m).1.length),
            l.source = s ∧ l.target = RawTarget.id t ∧ nid ≤ s ∧ s < t ∧
            ((pass1 rs nid m).1.get ⟨s - nid, hs⟩).ntype = NodeType.file ∧
            ((pass1 rs nid m).1.get ⟨s - nid, hs⟩).path =
              ((pass1 rs nid m).1.get ⟨t - nid, ht⟩).path ∧
            ∀ u (hu : u - nid < (pass1 rs nid m).1.length), s < u → u < t →
              ((pass1 rs nid m).1.get ⟨u - nid, hu⟩).ntype ≠
                NodeType.file)) := by
  induction rs with
  | nil =>
    intro nid m
    refine ⟨fun t _ => rfl, fun j hj => absurd hj (by simp [pass1]), ?_⟩
    intro l hl
    simp [pass1] at hl
  | cons p rest ih =>
    intro nid m
    obtain ⟨fp, a⟩ := p
    have hpl := processFile_links fp a nid m
    have hpn := processFile_nodes fp a nid m
    have hpi := processFile_ids fp a nid m
    have ihh := ih (processFile fp a nid m).2.2.2
      (processFile fp a nid m).2.2.1
    have hnid1 : (processFile fp a nid m).2.2.2 =
        nid + (processFile fp a nid m).1.length := hpi.2
    have hnodes : (pass1 ((fp, a) :: rest) nid m).1 =
        (processFile fp a nid m).1 ++
        (pass1 rest (processFile fp a nid m).2.2.2
          (processFile fp a nid m).2.2.1).1 := rfl
    have hlinks : (pass1 ((fp, a) :: rest) nid m).2.1 =
        (processFile fp a nid m).2.1 ++
        (pass1 rest (processFile fp a nid m).2.2.2
          (processFile fp a nid m).2.2.1).2.1 := rfl
    have hlen : (pass1 ((fp, a) :: rest) nid m).1.length =
        (processFile fp a nid m).1.length +
        (pass1 rest (processFile fp a nid m).2.2.2
          (processFile fp a nid m).2.2.1).1.length := by
      rw [hnodes, List.length_append]
    refine ⟨?_, ?_, ?_⟩
    · intro t hout
      rw [hlinks, List.countP_append]
      rw [hpl.1 t, ihh.1 t (by omega)]
      rw [if_neg (by omega)]
    · intro j hj
      intro htype
      rw [hlinks, List.countP_append]
      by_cases hj1 : j < (processFile fp a nid m).1.length
      · have hgl : (pass1 ((fp, a) :: rest) nid m).1.get ⟨j, hj⟩ =
            (processFile fp a nid m).1.get ⟨j, hj1⟩ := by
          have := List.get_of_eq hnodes ⟨j, hj⟩
          rw [this]
          simp [List.getElem_append_left hj1]
        rw [hgl] at htype
        have hj0 : j ≠ 0 := by
          intro h0
          subst h0
          have := (hpn 0 hj1).1 rfl
          rcases htype with h | h <;> rw [this] at h <;> cases h
        rw [hpl.1 (nid + j), ihh.1 (nid + j) (by omega),
          if_pos (by omega)]
      · push_neg at hj1
        obtain ⟨k, hk⟩ : ∃ k, j = (processFile fp a nid m).1.length + k :=
          ⟨j - (processFile fp a nid m).1.length, by omega⟩
        have hk2 : k < (pass1 rest (processFile fp a nid m).2.2.2
            (processFile fp a nid m).2.2.1).1.length := by
          rw [hlen] at hj
          omega
        have hgl : (pass1 ((fp, a) :: rest) nid m).1.get ⟨j, hj⟩ =
            (pass1 rest (processFile fp a nid m).2.2.2
              (processFile fp a nid m).2.2.1).1.get ⟨k, hk2⟩ := by
          have := List.get_of_eq hnodes ⟨j, hj⟩
          rw [this]
          subst hk
          simp [List.getElem_append_right
            (show (processFile fp a nid m).1.length ≤
              (processFile fp a nid m).1.length + k by omega)]
        rw [hgl] at htype
        have hcount2 := ihh.2.1 k hk2 htype
        rw [hpl.1 (nid + j)]
        rw [if_neg (by omega)]
        have harg : (processFile fp a nid m).2.2.2 + k = nid + j := by
          omega
        rw [← harg, hcount2]
    · intro l hl
      rw [hlinks] at hl
      rcases List.mem_append.mp hl with h | h
      · rcases hpl.2 l h with ⟨h1, h2, h3, t, h4, h5, h6⟩ | hr
        case inr => exact Or.inl hr
        · right
          have hL1pos : 1 ≤ (processFile fp a nid m).1.length := by omega
          refine ⟨h1, h2, nid, t, by rw [hlen]; omega, by rw [hlen]; omega,
            h3, h4, Nat.le_refl _, by omega, ?_, ?_, ?_⟩
          · have hgl : (pass1 ((fp, a) :: rest) nid m).1.get
                ⟨nid - nid, by rw [hlen]; omega⟩ =
                (processFile fp a nid m).1.get ⟨0, by omega⟩ := by
              have := List.get_of_eq hnodes ⟨nid - nid, by rw [hlen]; omega⟩
              rw [this]
              simp only [List.get_eq_getElem, Nat.sub_self]
              exact List.getElem_append_left (by omega)
            rw [hgl]
            exact (hpn 0 (by omega)).1 (by omega)
          · have hgl : (pass1 ((fp, a) :: rest) nid m).1.get
                ⟨nid - nid, by rw [hlen]; omega⟩ =
                (processFile fp a nid m).1.get ⟨0, by omega⟩ := by
              have := List.get_of_eq hnodes ⟨nid - nid, by rw [hlen]; omega⟩
              rw [this]
              simp only [List.get_eq_getElem, Nat.sub_self]
              exact List.getElem_append_left (by omega)
            have hgt : (pass1 ((fp, a) :: rest) nid m).1.get
                ⟨t - nid, by rw [hlen]; omega⟩ =
                (processFile fp a nid m).1.get ⟨t - nid, by omega⟩ := by
              have := List.get_of_eq hnodes ⟨t - nid, by rw [hlen]; omega⟩
              rw [this]
              simp [List.getElem_append_left
                (show t - nid < (processFile fp a nid m).1.length
                  from by omega)]
            rw [hgl, hgt]
            rw [(hpn 0 (by omega)).2.2, (hpn (t - nid) (by omega)).2.2]
          · intro u hu hsu hut
            have hgu : (pass1 ((fp, a) :: rest) nid m).1.get
                ⟨u - nid, hu⟩ =
                (processFile fp a nid m).1.get ⟨u - nid, by omega⟩ := by
              have := List.get_of_eq hnodes ⟨u - nid, hu⟩
              rw [this]
              simp [List.getElem_append_left
                (show u - nid < (processFile fp a nid m).1.length
                  from by omega)]
            rw [hgu]
            have hu0 : u - nid ≠ 0 := by omega
            rcases (hpn (u - nid) (by omega)).2.1 hu0 with hh | hh <;>
              rw [hh] <;> intro hcon <;> cases hcon
      · rcases ihh.2.2 l h with hc | ⟨h1, h2, s, t, hs, ht, h3, h4, h5, h6,
          h7, h8, h9⟩
        · exact Or.inl hc
        · right
          rw [hnid1] at hs ht h5
          refine ⟨h1, h2, s, t, by rw [hlen]; omega, by rw [hlen]; omega,
            h3, h4, by omega, h6, ?_, ?_, ?_⟩
          · have hgl : (pass1 ((fp, a) :: rest) nid m).1.get
                ⟨s - nid, by rw [hlen]; omega⟩ =
                (pass1 rest (processFile fp a nid m).2.2.2
                  (processFile fp a nid m).2.2.1).1.get
                  ⟨s - (processFile fp a nid m).2.2.2, by rw [hnid1]; omega⟩ := by
              have := List.get_of_eq hnodes ⟨s - nid, by rw [hlen]; omega⟩
              rw [this]
              have harith : s - nid = (processFile fp a nid m).1.length +
                  (s - (processFile fp a nid m).2.2.2) := by
                rw [hnid1]
                omega
              simp only [harith]
              simp [List.getElem_append_right
                (show (processFile fp a nid m).1.length ≤
                  (processFile fp a nid m).1.length +
                  (s - (processFile fp a nid m).2.2.2) from by omega)]
            rw [hgl]
            convert h7 using 2
          · have hgl : (pass1 ((fp, a) :: rest) nid m).1.get
                ⟨s - nid, by rw [hlen]; omega⟩ =
                (pass1 rest (processFile fp a nid m).2.2.2
                  (processFile fp a nid m).2.2.1).1.get
                  ⟨s - (processFile fp a nid m).2.2.2, by rw [hnid1]; omega⟩ := by
              have := List.get_of_eq hnodes ⟨s - nid, by rw [hlen]; omega⟩
              rw [this]
              have harith : s - nid = (processFile fp a nid m).1.length +
                  (s - (processFile fp a nid m).2.2.2) := by
                rw [hnid1]
                omega
              simp only [harith]
              simp [List.getElem_append_right
                (show (processFile fp a nid m).1.length ≤
                  (processFile fp a nid m).1.length +
                  (s - (processFile fp a nid m).2.2.2) from by omega)]
            have hgt : (pass1 ((fp, a) :: rest) nid m).1.get
                ⟨t - nid, by rw [hlen]; omega⟩ =
                (pass1 rest (processFile fp a nid m).2.2.2
                  (processFile fp a nid m).2.2.1).1.get
                  ⟨t - (processFile fp a nid m).2.2.2, by rw [hnid1]; omega⟩ := by
              have := List.get_of_eq hnodes ⟨t - nid, by rw [hlen]; omega⟩
              rw [this]
              have harith : t - nid = (processFile fp a nid m).1.length +
                  (t - (processFile fp a nid m).2.2.2) := by
                rw [hnid1]
                omega
              simp only [harith]
              simp [List.getElem_append_right
                (show (processFile fp a nid m).1.length ≤
                  (processFile fp a nid m).1.length +
                  (t - (processFile fp a nid m).2.2.2) from by omega)]
            rw [hgl, hgt]
            convert h8 using 2
          · intro u hu hsu hut
            have hgu : (pass1 ((fp, a) :: rest) nid m).1.get
                ⟨u - nid, hu⟩ =
                (pass1 rest (processFile fp a nid m).2.2.2
                  (processFile fp a nid m).2.2.1).1.get
                  ⟨u - (processFile fp a nid m).2.2.2, by rw [hnid1]; omega⟩ := by
              have := List.get_of_eq hnodes ⟨u - nid, hu⟩
              rw [this]
              have harith : u - nid = (processFile fp a nid m).1.length +
                  (u - (processFile fp a nid m).2.2.2) := by
                rw [hnid1]
                omega
              simp only [harith]
              simp [List.getElem_append_right
                (show (processFile fp a nid m).1.length ≤
                  (processFile fp a nid m).1.length +
                  (u - (processFile fp a nid m).2.2.2) from by omega)]
            rw [hgu]
            exact h9 u (by rw [hnid1]; omega) hsu hut

theorem resolveOne_not_temp (nodes : List Node) (l : RawLink)
    (h : l.temp = false) :
    resolveOne nodes l =
      { source := l.source, target := l.target, ltype := l.ltype } := by
  obtain ⟨src, tgt, lt, tmp⟩ := l
  simp at h
  subst h
  rfl

/-- Unfolding of `resolveOne` on any tentative link with a textual
target (the stored `ltype` of a tentative link is ignored). -/
theorem resolveOne_temp_eq (nodes : List Node) (src : Nat) (tn lt : String) :
    resolveOne nodes ⟨src, RawTarget.name tn, lt, true⟩ =
      (match nodes.find?
          (fun nd => decide (nd.ntype = NodeType.function ∧ nd.name = tn)) with
      | some nd =>
        { source := src, target := RawTarget.id nd.id, ltype := "calls" }
      | none =>
        { source := src, target := RawTarget.name ("unknown:" ++ tn),
          ltype := "calls", targetName := some tn }) := rfl

theorem resolveOne_temp_ltype (nodes : List Node) (l : RawLink)
    (h : l.temp = true) : (resolveOne nodes l).ltype = "calls" := by
  obtain ⟨src, tgt, lt, tmp⟩ := l
  simp at h
  subst h
  match tgt with
  | RawTarget.name tn =>
    rw [resolveOne_temp_eq]
    match hf : nodes.find?
        (fun nd => decide (nd.ntype = NodeType.function ∧ nd.name = tn)) with
    | some nd => rw [hf]
    | none => rw [hf]
  | RawTarget.id k => rfl

/-- Pass 2 does not change `contains`-link counts (tentative links are
all `calls`-typed and stay `calls`-typed; other links are copied). -/
theorem pass2_contains_count (nodes : List Node) (links : List RawLink)
    (hshape : ∀ l ∈ links, l.temp = true → l.ltype = "calls") (t : Nat) :
    (pass2 nodes links).countP (isContainsToL t) =
      links.countP (isContainsTo t) := by
  induction links with
  | nil => rfl
  | cons l rest ih =>
    have hrest : ∀ l2 ∈ rest, l2.temp = true → l2.ltype = "calls" :=
      fun l2 h2 => hshape l2 (List.mem_cons_of_mem _ h2)
    show ((resolveOne nodes l) :: pass2 nodes rest).countP (isContainsToL t) = _
    rw [List.countP_cons, List.countP_cons, ih hrest]
    congr 1
    by_cases htemp : l.temp = true
    · have h1 : isContainsToL t (resolveOne nodes l) = false := by
        simp only [isContainsToL, decide_eq_false_iff_not]
        rintro ⟨hc, -⟩
        rw [resolveOne_temp_ltype nodes l htemp] at hc
        exact absurd hc (by decide)
      have h2 : isContainsTo t l = false := by
        simp only [isContainsTo, decide_eq_false_iff_not]
        rintro ⟨hc, -⟩
        rw [hshape l (List.mem_cons_self _ _) htemp] at hc
        exact absurd hc (by decide)
      rw [h1, h2]
    · have hf : l.temp = false := by
        cases h : l.temp
        · rfl
        · exact absurd h htemp
      rw [resolveOne_not_temp nodes l hf]
      simp [isContainsToL, isContainsTo]

/-- Every `contains` link after pass 2 is a copied pass-1 `contains`
link with the same source and target. -/
theorem pass2_contains_mem (nodes : List Node) (links : List RawLink) :
    ∀ l2 ∈ pass2 nodes links, l2.ltype = "contains" →
      ∃ l ∈ links, l.ltype = "contains" ∧ l.temp = false ∧
        l2.source = l.source ∧ l2.target = l.target := by
  intro l2 hl2 hc
  obtain ⟨l, hl, rfl⟩ := List.mem_map.mp hl2
  by_cases htemp : l.temp = true
  · exfalso
    rw [resolveOne_temp_ltype nodes l htemp] at hc
    exact absurd hc (by decide)
  · have hf : l.temp = false := by
      cases h : l.temp
      · rfl
      · exact absurd h htemp
    rw [resolveOne_not_temp nodes l hf] at hc ⊢
    exact ⟨l, hl, hc, hf, rfl, rfl⟩

theorem addFunctions_map_keys (fid : Nat) (np fp : String)
    (fs : List (String × FnDetails)) :
    ∀ nid m key v, alookup (addFunctions fid np fp fs nid m).2.2.1 key =
        some v →
      alookup m key = some v ∨ ':' ∈ key.data := by
  induction fs with
  | nil => intro nid m key v h; exact Or.inl h
  | cons p rest ih =>
    intro nid m key v h
    obtain ⟨fname, details⟩ := p
    rcases ih (nid + 1) (dictSet m (fp ++ ":" ++ fname) nid) key v h with
      h1 | h1
    · rw [alookup_dictSet] at h1
      by_cases hk : key = fp ++ ":" ++ fname
      · right
        rw [hk]
        show ':' ∈ (fp ++ ":" ++ fname).data
        rw [String.data_append, String.data_append]
        exact List.mem_append_left _ (List.mem_append_right _ (by simp))
      · rw [if_neg hk] at h1
        exact Or.inl h1
    · exact Or.inr h1

theorem addClasses_map_keys (fid : Nat) (np fp : String)
    (cs : List (String × ClsDetails)) :
    ∀ nid m key v, alookup (addClasses fid np fp cs nid m).2.2.1 key =
        some v →
      alookup m key = some v ∨ ':' ∈ key.data := by
  induction cs with
  | nil => intro nid m key v h; exact Or.inl h
  | cons p rest ih =>
    intro nid m key v h
    obtain ⟨cname, details⟩ := p
    rcases ih (nid + 1) (dictSet m (fp ++ ":" ++ cname) nid) key v h with
      h1 | h1
    · rw [alookup_dictSet] at h1
      by_cases hk : key = fp ++ ":" ++ cname
      · right
        rw [hk]
        show ':' ∈ (fp ++ ":" ++ cname).data
        rw [String.data_append, String.data_append]
        exact List.mem_append_left _ (List.mem_append_right _ (by simp))
      · rw [if_neg hk] at h1
        exact Or.inl h1
    · exact Or.inr h1

theorem processFile_map_keys (fp : String) (a : FileAnalysis) (nid : Nat)
    (m : List (String × Nat)) :
    ∀ key v, alookup (processFile fp a nid m).2.2.1 key = some v →
      alookup m key = some v ∨ (key = fp ∧ v = nid) ∨ ':' ∈ key.data := by
  obtain ⟨summ, fnsOpt, clsOpt⟩ := a
  intro key v h
  have hstep : alookup (dictSet m fp nid) key = some v →
      alookup m key = some v ∨ (key = fp ∧ v = nid) := by
    intro h2
    rw [alookup_dictSet] at h2
    by_cases hk : key = fp
    · rw [if_pos hk] at h2
      exact Or.inr ⟨hk, (Option.some_inj.mp h2).symm⟩
    · rw [if_neg hk] at h2
      exact Or.inl h2
  match fnsOpt, clsOpt with
  | some fs, some cs =>
    have h1 : alookup (addClasses nid (normalize_path fp) fp cs
        (addFunctions nid (normalize_path fp) fp fs (nid + 1)
          (dictSet m fp nid)).2.2.2
        (addFunctions nid (normalize_path fp) fp fs (nid + 1)
          (dictSet m fp nid)).2.2.1).2.2.1 key = some v := h
    rcases addClasses_map_keys nid (normalize_path fp) fp cs _ _ key v h1
      with h2 | h2
    · rcases addFunctions_map_keys nid (normalize_path fp) fp fs (nid + 1)
        (dictSet m fp nid) key v h2 with h3 | h3
      · rcases hstep h3 with h4 | h4
        · exact Or.inl h4
        · exact Or.inr (Or.inl h4)
      · exact Or.inr (Or.inr h3)
    · exact Or.inr (Or.inr h2)
  | some fs, none =>
    have h1 : alookup (addFunctions nid (normalize_path fp) fp fs (nid + 1)
        (dictSet m fp nid)).2.2.1 key = some v := h
    rcases addFunctions_map_keys nid (normalize_path fp) fp fs (nid + 1)
      (dictSet m fp nid) key v h1 with h3 | h3
    · rcases hstep h3 with h4 | h4
      · exact Or.inl h4
      · exact Or.inr (Or.inl h4)
    · exact Or.inr (Or.inr h3)
  | none, some cs =>
    have h1 : alookup (addClasses nid (normalize_path fp) fp cs (nid + 1)
        (dictSet m fp nid)).2.2.1 key = some v := h
    rcases addClasses_map_keys nid (normalize_path fp) fp cs (nid + 1)
      (dictSet m fp nid) key v h1 with h3 | h3
    · rcases hstep h3 with h4 | h4
      · exact Or.inl h4
      · exact Or.inr (Or.inl h4)
    · exact Or.inr (Or.inr h3)
  | none, none =>
    have h1 : alookup (dictSet m fp nid) key = some v := h
    rcases hstep h1 with h4 | h4
    · exact Or.inl h4
    · exact Or.inr (Or.inl h4)

/-- Colon-free keys of the pass-1 node map point at file nodes. -/
theorem pass1_map_keys (rs : List (String × FileAnalysis)) :
    ∀ nid m key v, ':' ∉ key.data →
      alookup (pass1 rs nid m).2.2.1 key = some v →
      alookup m key = some v ∨
      ∃ j, ∃ (hj : j < (pass1 rs nid m).1.length), v = nid + j ∧
        ((pass1 rs nid m).1.get ⟨j, hj⟩).ntype = NodeType.file := by
  induction rs with
  | nil => intro nid m key v _ h; exact Or.inl h
  | cons p rest ih =>
    intro nid m key v hkey h
    obtain ⟨fp, a⟩ := p
    have hnodes : (pass1 ((fp, a) :: rest) nid m).1 =
        (processFile fp a nid m).1 ++
        (pass1 rest (processFile fp a nid m).2.2.2
          (processFile fp a nid m).2.2.1).1 := rfl
    have hlen : (pass1 ((fp, a) :: rest) nid m).1.length =
        (processFile fp a nid m).1.length +
        (pass1 rest (processFile fp a nid m).2.2.2
          (processFile fp a nid m).2.2.1).1.length := by
      rw [hnodes, List.length_append]
    have hnid1 : (processFile fp a nid m).2.2.2 =
        nid + (processFile fp a nid m).1.length :=
      (processFile_ids fp a nid m).2
    have hL1pos : 1 ≤ (processFile fp a nid m).1.length := by
      obtain ⟨summ, fnsOpt, clsOpt⟩ := a
      match fnsOpt, clsOpt with
      | some fs, some cs => simp [processFile]
      | some fs, none => simp [processFile]
      | none, some cs => simp [processFile]
      | none, none => simp [processFile]
    rcases ih (processFile fp a nid m).2.2.2
      (processFile fp a nid m).2.2.1 key v hkey h with h1 | h1
    · rcases processFile_map_keys fp a nid m key v h1 with h2 | h2 | h2
      · exact Or.inl h2
      · right
        refine ⟨0, by omega, by omega, ?_⟩
        have hgl : (pass1 ((fp, a) :: rest) nid m).1.get ⟨0, by omega⟩ =
            (processFile fp a nid m).1.get ⟨0, by omega⟩ := by
          have := List.get_of_eq hnodes ⟨0, by omega⟩
          rw [this]
          simp only [List.get_eq_getElem]
          exact List.getElem_append_left (by omega)
        rw [hgl]
        exact (processFile_nodes fp a nid m 0 (by omega)).1 rfl
      · exact absurd h2 hkey
    · obtain ⟨j, hj, hv, hty⟩ := h1
      right
      refine ⟨(processFile fp a nid m).1.length + j, by omega,
        by omega, ?_⟩
      have hgl : (pass1 ((fp, a) :: rest) nid m).1.get
          ⟨(processFile fp a nid m).1.length + j, by omega⟩ =
          (pass1 rest (processFile fp a nid m).2.2.2
            (processFile fp a nid m).2.2.1).1.get ⟨j, hj⟩ := by
        have := List.get_of_eq hnodes
          ⟨(processFile fp a nid m).1.length + j, by omega⟩
        rw [this]
        simp only [List.get_eq_getElem]
        simp [List.getElem_append_right
          (show (processFile fp a nid m).1.length ≤
            (processFile fp a nid m).1.length + j from by omega)]
      rw [hgl]
      exact hty

/-- The module pass never changes the incoming-`contains` count of a
pass-1 node id `t` that the processed file's map entry cannot hit, keeps
module-map values at fresh ids, and only appends module nodes. -/
theorem moduleInner_c9 (nodeMap : List (String × Nat)) (fp : String)
    (parts : List String) (N t : Nat)
    (hfid : ∀ v, alookup nodeMap fp = some v → v ≠ t) (htN : t < N) :
    ∀ cur st,
      (∀ q v, alookup st.2.2.1 q = some v → N ≤ v) →
      N ≤ st.2.2.2 →
      ((moduleInner nodeMap fp parts cur st).2.1.countP (isContainsToL t) =
        st.2.1.countP (isContainsToL t)) ∧
      (∀ q v, alookup (moduleInner nodeMap fp parts cur st).2.2.1 q =
        some v → N ≤ v) ∧
      (N ≤ (moduleInner nodeMap fp parts cur st).2.2.2) ∧
      (∀ l ∈ (moduleInner nodeMap fp parts cur st).2.1, l ∈ st.2.1 ∨
        (l.ltype = "contains" ∧
          ∃ ti, l.target = RawTarget.id ti ∧ ti ≠ t)) ∧
      (∃ ext, (moduleInner nodeMap fp parts cur st).1 = st.1 ++ ext ∧
        ∀ nd ∈ ext, nd.ntype = NodeType.module) := by
  induction parts with
  | nil =>
    intro cur st hmap hnid
    exact ⟨rfl, hmap, hnid, fun l hl => Or.inl hl,
      ⟨[], by simp [moduleInner], fun nd hnd => absurd hnd
        (List.not_mem_nil nd)⟩⟩
  | cons part rest ih =>
    intro cur st hmap hnid
    obtain ⟨newNodes, newLinks, hn, hl, hm, hc, hni, hnt, hlt⟩ :=
      moduleStep_spec nodeMap fp part cur st
    have hlt2 : ∀ l ∈ newLinks, l.ltype = "contains" ∧
        ∃ ti, l.target = RawTarget.id ti ∧ ti ≠ t := by
      intro l hll
      obtain ⟨h1, h2, ti, h3, h4⟩ := hlt l hll
      refine ⟨h1, ti, h3, ?_⟩
      rcases h4 with rfl | h4
      · omega
      · exact hfid ti h4
    have hmap1 : ∀ q v,
        alookup (moduleStep nodeMap fp part cur st).2.2.1 q = some v →
        N ≤ v := by
      intro q v hq
      rw [hm] at hq
      by_cases hnew : (alookup st.2.2.1
          (lstripSlash (cur ++ "/" ++ part))).isNone
      · rw [if_pos hnew] at hq
        rw [alookup_dictSet] at hq
        by_cases hqc : q = lstripSlash (cur ++ "/" ++ part)
        · rw [if_pos hqc] at hq
          have : v = st.2.2.2 := (Option.some_inj.mp hq).symm
          omega
        · rw [if_neg hqc] at hq
          exact hmap q v hq
      · rw [if_neg hnew] at hq
        exact hmap q v hq
    have hnid1 : N ≤ (moduleStep nodeMap fp part cur st).2.2.2 := by
      rw [hc]
      omega
    obtain ⟨hcnt, hmap2, hnid2, hmem2, ext2, hext2, hextty2⟩ :=
      ih (lstripSlash (cur ++ "/" ++ part))
        (moduleStep nodeMap fp part cur st) hmap1 hnid1
    refine ⟨?_, hmap2, hnid2, ?_, ?_⟩
    · show (moduleInner nodeMap fp rest (lstripSlash (cur ++ "/" ++ part))
        (moduleStep nodeMap fp part cur st)).2.1.countP (isContainsToL t) = _
      rw [hcnt, hl, List.countP_append]
      have h0 : newLinks.countP (isContainsToL t) = 0 := by
        rw [List.countP_eq_zero]
        intro l hll
        obtain ⟨h1, ti, h3, h4⟩ := hlt2 l hll
        intro hcon
        have hc2 : l.ltype = "contains" ∧ l.target = RawTarget.id t :=
          of_decide_eq_true (by simpa [isContainsToL] using hcon)
        have hid2 : RawTarget.id ti = RawTarget.id t := h3.symm.trans hc2.2
        exact h4 (by injection hid2)
      rw [h0]
      omega
    · intro l hll
      rcases hmem2 l hll with h | h
      · rw [hl] at h
        rcases List.mem_append.mp h with h2 | h2
        · exact Or.inl h2
        · exact Or.inr (hlt2 l h2)
      · exact Or.inr h
    · refine ⟨newNodes ++ ext2, ?_, ?_⟩
      · show (moduleInner nodeMap fp rest (lstripSlash (cur ++ "/" ++ part))
          (moduleStep nodeMap fp part cur st)).1 = _
        rw [hext2, hn, List.append_assoc]
      · intro nd hnd
        rcases List.mem_append.mp hnd with h | h
        · exact (hnt nd h).1
        · exact hextty2 nd h

/-- `modulePass` version of `moduleInner_c9`. -/
theorem modulePass_c9 (nodeMap : List (String × Nat))
    (fps : List String) (N t : Nat) (htN : t < N)
    (hfids : ∀ fp ∈ fps, ∀ v, alookup nodeMap fp = some v → v ≠ t) :
    ∀ st,
      (∀ q v, alookup st.2.2.1 q = some v → N ≤ v) →
      N ≤ st.2.2.2 →
      ((modulePass nodeMap fps st).2.1.countP (isContainsToL t) =
        st.2.1.countP (isContainsToL t)) ∧
      (∀ l ∈ (modulePass nodeMap fps st).2.1, l ∈ st.2.1 ∨
        (l.ltype = "contains" ∧
          ∃ ti, l.target = RawTarget.id ti ∧ ti ≠ t)) ∧
      (∃ ext, (modulePass nodeMap fps st).1 = st.1 ++ ext ∧
        ∀ nd ∈ ext, nd.ntype = NodeType.module) := by
  induction fps with
  | nil =>
    intro st hmap hnid
    exact ⟨rfl, fun l hl => Or.inl hl, ⟨[], by simp [modulePass],
      fun nd hnd => absurd hnd (List.not_mem_nil nd)⟩⟩
  | cons fp rest ih =>
    intro st hmap hnid
    have hfid : ∀ v, alookup nodeMap fp = some v → v ≠ t :=
      hfids fp (List.mem_cons_self _ _)
    obtain ⟨hcnt, hmap1, hnid1, hmem1, ext1, hext1, hextty1⟩ :=
      moduleInner_c9 nodeMap fp (splitSlash (normalize_path fp)).dropLast
        N t hfid htN "" st hmap hnid
    obtain ⟨hcnt2, hmem2, ext2, hext2, hextty2⟩ :=
      ih (fun fp2 h2 => hfids fp2 (List.mem_cons_of_mem _ h2))
        (moduleInner nodeMap fp (splitSlash (normalize_path fp)).dropLast
          "" st) hmap1 hnid1
    refine ⟨?_, ?_, ?_⟩
    · show (modulePass nodeMap rest _).2.1.countP (isContainsToL t) = _
      rw [hcnt2, hcnt]
    · intro l hl
      rcases hmem2 l hl with h | h
      · exact hmem1 l h
      · exact Or.inr h
    · refine ⟨ext1 ++ ext2, ?_, ?_⟩
      · show (modulePass nodeMap rest _).1 = _
        rw [hext2, hext1, List.append_assoc]
      · intro nd hnd
        rcases List.mem_append.mp hnd with h | h
        · exact hextty1 nd h
        · exact hextty2 nd h

/-- Transport a `List.get` across an index equality. -/
theorem get_congr_idx {α : Type} (l : List α) (i1 i2 : Nat)
    (h1 : i1 < l.length) (h2 : i2 < l.length) (h : i1 = i2) :
    l.get ⟨i1, h1⟩ = l.get ⟨i2, h2⟩ := by
  subst h
  rfl

/-- The module-pass inner loop only appends module-typed nodes. -/
theorem moduleInner_ext (nodeMap : List (String × Nat)) (fp : String)
    (parts : List String) :
    ∀ cur st, ∃ ext,
      (moduleInner nodeMap fp parts cur st).1 = st.1 ++ ext ∧
      ∀ nd ∈ ext, nd.ntype = NodeType.module := by
  induction parts with
  | nil =>
    intro cur st
    exact ⟨[], by simp [moduleInner],
      fun nd hnd => absurd hnd (List.not_mem_nil nd)⟩
  | cons part rest ih =>
    intro cur st
    obtain ⟨newNodes, newLinks, hn, hl, hm, hc, hni, hnt, hlt⟩ :=
      moduleStep_spec nodeMap fp part cur st
    obtain ⟨ext2, hext2, hty2⟩ :=
      ih (lstripSlash (cur ++ "/" ++ part)) (moduleStep nodeMap fp part cur st)
    refine ⟨newNodes ++ ext2, ?_, ?_⟩
    · show (moduleInner nodeMap fp rest (lstripSlash (cur ++ "/" ++ part))
        (moduleStep nodeMap fp part cur st)).1 = _
      rw [hext2, hn, List.append_assoc]
    · intro nd hnd
      rcases List.mem_append.mp hnd with h | h
      · exact (hnt nd h).1
      · exact hty2 nd h

/-- The module pass only appends module-typed nodes. -/
theorem modulePass_ext (nodeMap : List (String × Nat)) (fps : List String) :
    ∀ st, ∃ ext, (modulePass nodeMap fps st).1 = st.1 ++ ext ∧
      ∀ nd ∈ ext, nd.ntype = NodeType.module := by
  induction fps with
  | nil =>
    intro st
    exact ⟨[], by simp [modulePass],
      fun nd hnd => absurd hnd (List.not_mem_nil nd)⟩
  | cons fp rest ih =>
    intro st
    obtain ⟨ext1, hext1, hty1⟩ := moduleInner_ext nodeMap fp
      (splitSlash (normalize_path fp)).dropLast "" st
    obtain ⟨ext2, hext2, hty2⟩ :=
      ih (moduleInner nodeMap fp (splitSlash (normalize_path fp)).dropLast "" st)
    refine ⟨ext1 ++ ext2, ?_, ?_⟩
    · show (modulePass nodeMap rest _).1 = _
      rw [hext2, hext1, List.append_assoc]
    · intro nd hnd
      rcases List.mem_append.mp hnd with h | h
      · exact hty1 nd h
      · exact hty2 nd h

/-- C9: in every graph produced by the builder (over records whose raw
file paths contain no colon, matching the `path:name` node-map key
scheme), every function node and every class node `j` has exactly one
incoming `contains` link, and that link comes from the owning file's
node: a file-typed node with the same path, created earlier in the same
record's segment, with no other file node strictly between the two. -/
theorem contains_from_owning_file (rs : List (String × FileAnalysis))
    (hcol : ∀ p ∈ rs, ':' ∉ p.1.data) :
    ∀ j (hj : j < (buildGraph rs).nodes.length),
      (((buildGraph rs).nodes.get ⟨j, hj⟩).ntype = NodeType.function ∨
       ((buildGraph rs).nodes.get ⟨j, hj⟩).ntype = NodeType.cls) →
      (buildGraph rs).links.countP (isContainsToL j) = 1 ∧
      ∀ l ∈ (buildGraph rs).links, l.ltype = "contains" →
        l.target = RawTarget.id j →
        ∃ (hs : l.source < (buildGraph rs).nodes.length),
          ((buildGraph rs).nodes.get ⟨l.source, hs⟩).ntype = NodeType.file ∧
          ((buildGraph rs).nodes.get ⟨l.source, hs⟩).path =
            ((buildGraph rs).nodes.get ⟨j, hj⟩).path ∧
          l.source < j ∧
          ∀ u (hu : u < (buildGraph rs).nodes.length),
            l.source < u → u < j →
            ((buildGraph rs).nodes.get ⟨u, hu⟩).ntype ≠ NodeType.file := by
  intro j hj htype
  obtain ⟨ext, hext, hextty⟩ := modulePass_ext (pass1 rs 0 []).2.2.1
    (rs.map Prod.fst)
    ((pass1 rs 0 []).1, pass2 (pass1 rs 0 []).1 (pass1 rs 0 []).2.1, [],
      (pass1 rs 0 []).2.2.2)
  have hfull : (buildGraph rs).nodes = (pass1 rs 0 []).1 ++ ext := hext
  have hlenfull : (pass1 rs 0 []).1.length ≤ (buildGraph rs).nodes.length := by
    rw [hfull, List.length_append]
    omega
  have hjlen : j < (pass1 rs 0 []).1.length := by
    by_contra hge
    push_neg at hge
    have hmod : ((buildGraph rs).nodes.get ⟨j, hj⟩).ntype =
        NodeType.module := by
      have h1 := List.get_of_eq hfull ⟨j, hj⟩
      rw [h1]
      simp only [List.get_eq_getElem]
      rw [List.getElem_append_right hge]
      refine hextty _ ?_
      apply List.getElem_mem
    rcases htype with h | h <;> rw [hmod] at h <;>
      exact NodeType.noConfusion h
  have hgets : ∀ (i : Nat) (hilen : i < (pass1 rs 0 []).1.length)
      (hifull : i < (buildGraph rs).nodes.length),
      (buildGraph rs).nodes.get ⟨i, hifull⟩ =
        (pass1 rs 0 []).1.get ⟨i, hilen⟩ := by
    intro i hilen hifull
    have h1 := List.get_of_eq hfull ⟨i, hifull⟩
    rw [h1]
    simp only [List.get_eq_getElem]
    exact List.getElem_append_left hilen
  have hN := (pass1_ids rs 0 []).2
  have hp1c9 := pass1_c9 rs 0 []
  have htypeP : ((pass1 rs 0 []).1.get ⟨j, hjlen⟩).ntype =
      NodeType.function ∨
      ((pass1 rs 0 []).1.get ⟨j, hjlen⟩).ntype = NodeType.cls := by
    rcases htype with h | h
    · exact Or.inl ((congrArg Node.ntype (hgets j hjlen hj)).symm.trans h)
    · exact Or.inr ((congrArg Node.ntype (hgets j hjlen hj)).symm.trans h)
  have hfids : ∀ fp ∈ rs.map Prod.fst, ∀ v,
      alookup (pass1 rs 0 []).2.2.1 fp = some v → v ≠ j := by
    intro fp hfp v hv
    obtain ⟨p, hp, rfl⟩ := List.mem_map.mp hfp
    rcases pass1_map_keys rs 0 [] p.1 v (hcol p hp) hv with h1 | h1
    · exact absurd h1 (by simp [alookup])
    · obtain ⟨j2, hj2, hveq, hty2⟩ := h1
      intro hvj
      have hj2j : j2 = j := by omega
      rw [get_congr_idx _ j2 j hj2 hjlen hj2j] at hty2
      rcases htypeP with h | h <;> rw [hty2] at h <;>
        exact NodeType.noConfusion h
  obtain ⟨hcnt, hmem, ext2, hext2, hextty2⟩ :=
    modulePass_c9 (pass1 rs 0 []).2.2.1 (rs.map Prod.fst)
      (pass1 rs 0 []).2.2.2 j (by omega) hfids
      ((pass1 rs 0 []).1, pass2 (pass1 rs 0 []).1 (pass1 rs 0 []).2.1, [],
        (pass1 rs 0 []).2.2.2)
      (fun q v hqv => absurd hqv (by simp [alookup]))
      (Nat.le_refl _)
  have hshape : ∀ l ∈ (pass1 rs 0 []).2.1, l.temp = true →
      l.ltype = "calls" := by
    intro l hl htemp
    rcases hp1c9.2.2 l hl with ⟨h1, -, -⟩ | ⟨-, h2, -⟩
    · exact h1
    · exact absurd (htemp.symm.trans h2) (by decide)
  have hcount : (buildGraph rs).links.countP (isContainsToL j) = 1 := by
    have h1 : (buildGraph rs).links.countP (isContainsToL j) =
        (pass2 (pass1 rs 0 []).1 (pass1 rs 0 []).2.1).countP
          (isContainsToL j) := hcnt
    rw [h1, pass2_contains_count _ _ hshape j]
    have h2 := hp1c9.2.1 j hjlen htypeP
    rw [Nat.zero_add] at h2
    exact h2
  refine ⟨hcount, ?_⟩
  intro l hl hlc hlt
  have hl2 : l ∈ pass2 (pass1 rs 0 []).1 (pass1 rs 0 []).2.1 := by
    rcases hmem l hl with h | ⟨-, ti, hti, htine⟩
    · exact h
    · exfalso
      have heq : RawTarget.id ti = RawTarget.id j := hti.symm.trans hlt
      exact htine (by injection heq)
  obtain ⟨lr, hlr, hlrc, hlrtemp, hsrc, htgt⟩ :=
    pass2_contains_mem (pass1 rs 0 []).1 (pass1 rs 0 []).2.1 l hl2 hlc
  rcases hp1c9.2.2 lr hlr with ⟨hcall, -, -⟩ |
    ⟨-, -, s, tt, hs, ht, hlsrc, hltgt, hs0, hst, hsty, hspath, hbetween⟩
  · exact absurd (hlrc.symm.trans hcall) (by decide)
  have htt : tt = j := by
    have h1 : RawTarget.id tt = RawTarget.id j :=
      hltgt.symm.trans (htgt.symm.trans hlt)
    injection h1
  have hls : l.source = s := hsrc.trans hlsrc
  have hls1 : l.source < (pass1 rs 0 []).1.length := by omega
  have hty2 : ∀ (hsf : l.source < (buildGraph rs).nodes.length),
      ((buildGraph rs).nodes.get ⟨l.source, hsf⟩).ntype = NodeType.file := by
    intro hsf
    rw [hgets l.source hls1 hsf,
      get_congr_idx ((pass1 rs 0 []).1) l.source (s - 0) hls1 hs (by omega)]
    exact hsty
  have hpath2 : ∀ (hsf : l.source < (buildGraph rs).nodes.length),
      ((buildGraph rs).nodes.get ⟨l.source, hsf⟩).path =
        ((buildGraph rs).nodes.get ⟨j, hj⟩).path := by
    intro hsf
    rw [hgets l.source hls1 hsf, hgets j hjlen hj,
      get_congr_idx ((pass1 rs 0 []).1) l.source (s - 0) hls1 hs (by omega),
      get_congr_idx ((pass1 rs 0 []).1) j (tt - 0) hjlen ht (by omega)]
    exact hspath
  have hbetween2 : ∀ u (hu : u < (buildGraph rs).nodes.length),
      l.source < u → u < j →
      ((buildGraph rs).nodes.get ⟨u, hu⟩).ntype ≠ NodeType.file := by
    intro u hu h1 h2
    have hu1 : u < (pass1 rs 0 []).1.length := by omega
    have hu0 : u - 0 < (pass1 rs 0 []).1.length := by omega
    rw [hgets u hu1 hu, get_congr_idx ((pass1 rs 0 []).1) u (u - 0) hu1 hu0
      (by omega)]
    exact hbetween u hu0 (by omega) (by omega)
  exact ⟨by omega, hty2 _, hpath2 _, by omega, hbetween2⟩

/-- A one-record input with a single function, for the C9 witness. -/
def c9Rec : List (String × FileAnalysis) :=
  [("a/f.py", { functions := some [("foo", {})] })]

/-- Witness for C9: on a record list with one file defining one
function, the function node (id 1) has exactly one incoming `contains`
link. -/
theorem contains_from_owning_file_witness :
    (∀ p ∈ c9Rec, ':' ∉ p.1.data) ∧
    ∃ (hj : 1 < (buildGraph c9Rec).nodes.length),
      (((buildGraph c9Rec).nodes.get ⟨1, hj⟩).ntype = NodeType.function ∨
       ((buildGraph c9Rec).nodes.get ⟨1, hj⟩).ntype = NodeType.cls) ∧
      (buildGraph c9Rec).links.countP (isContainsToL 1) = 1 := by
  refine ⟨by decide, by decide, Or.inl (by decide), ?_⟩
  exact (contains_from_owning_file c9Rec (by decide) 1 (by decide)
    (Or.inl (by decide))).1

/-- The builder state handed to the module pass:
`(pass-1 nodes, resolved links, empty module map, pass-1 counter)`. -/
def st0 (rs : List (String × FileAnalysis)) : ModState :=
  ((pass1 rs 0 []).1, pass2 (pass1 rs 0 []).1 (pass1 rs 0 []).2.1, [],
    (pass1 rs 0 []).2.2.2)

/-- The builder state after the module pass. -/
def finalState (rs : List (String × FileAnalysis)) : ModState :=
  modulePass (pass1 rs 0 []).2.2.1 (rs.map Prod.fst) (st0 rs)

/-- Whether a node is a module node for prefix `q`. -/
def isModuleAt (q : String) (nd : Node) : Bool :=
  decide (nd.ntype = NodeType.module ∧ nd.path = q)

/-- The normalized prefix string reached after processing directory
parts `0..i` of the inner module-pass loop started at `cur`. -/
def prefixAt : String → List String → Nat → String
  | cur, [], _ => cur
  | cur, part :: _, 0 => lstripSlash (cur ++ "/" ++ part)
  | cur, part :: rest, i + 1 =>
    prefixAt (lstripSlash (cur ++ "/" ++ part)) rest i

/-- The two-file record list of the spec's module-hierarchy example. -/
def c1Rec : List (String × FileAnalysis) :=
  [("a/b/x.py", {}), ("a/b/y.py", {})]

/-- `moduleStep` on an unseen prefix: one fresh module node, the
module-map entry, and the counter bump. -/
theorem moduleStep_new (nodeMap : List (String × Nat))
    (fp part cur : String) (st : ModState)
    (hnew : (alookup st.2.2.1 (lstripSlash (cur ++ "/" ++ part))).isNone) :
    (moduleStep nodeMap fp part cur st).1 = st.1 ++
      [{ id := st.2.2.2, name := part,
         path := lstripSlash (cur ++ "/" ++ part),
         ntype := NodeType.module }] ∧
    (moduleStep nodeMap fp part cur st).2.2.1 =
      dictSet st.2.2.1 (lstripSlash (cur ++ "/" ++ part)) st.2.2.2 ∧
    (moduleStep nodeMap fp part cur st).2.2.2 = st.2.2.2 + 1 := by
  obtain ⟨nodes, links, mmap, nid⟩ := st
  simp only [moduleStep]
  set curPath := lstripSlash (cur ++ "/" ++ part) with hcp
  rw [if_pos hnew]
  rcases hfl : alookup nodeMap fp with _ | fid
  · exact ⟨rfl, rfl, rfl⟩
  · have hcc : alookup (dictSet mmap curPath nid) curPath = some nid := by
      rw [alookup_dictSet, if_pos rfl]
    rw [hcc]
    exact ⟨rfl, rfl, rfl⟩

/-- `moduleStep` on an already-seen prefix changes neither the nodes
nor the module map nor the counter. -/
theorem moduleStep_old (nodeMap : List (String × Nat))
    (fp part cur : String) (st : ModState)
    (hnew : ¬ (alookup st.2.2.1 (lstripSlash (cur ++ "/" ++ part))).isNone) :
    (moduleStep nodeMap fp part cur st).1 = st.1 ∧
    (moduleStep nodeMap fp part cur st).2.2.1 = st.2.2.1 ∧
    (moduleStep nodeMap fp part cur st).2.2.2 = st.2.2.2 := by
  obtain ⟨nodes, links, mmap, nid⟩ := st
  simp only [moduleStep]
  set curPath := lstripSlash (cur ++ "/" ++ part) with hcp
  rw [if_neg hnew]
  rcases hfl : alookup nodeMap fp with _ | fid
  · exact ⟨rfl, rfl, rfl⟩
  · rcases hcc : alookup mmap curPath with _ | mid
    · exact ⟨rfl, rfl, rfl⟩
    · exact ⟨rfl, rfl, rfl⟩

/-- Each iteration of the inner module-pass loop ends with the current
prefix in the module map and, when the processed file is in the node
map, appends a `contains` link from that prefix's module id to the file
id — regardless of whether the prefix was fresh. -/
theorem moduleStep_creates (nodeMap : List (String × Nat))
    (fp part cur : String) (st : ModState) (fid : Nat)
    (hfid : alookup nodeMap fp = some fid) :
    ∃ mid, alookup (moduleStep nodeMap fp part cur st).2.2.1
        (lstripSlash (cur ++ "/" ++ part)) = some mid ∧
      ({ source := mid, target := RawTarget.id fid,
         ltype := "contains" } : Link) ∈
        (moduleStep nodeMap fp part cur st).2.1 := by
  obtain ⟨nodes, links, mmap, nid⟩ := st
  simp only [moduleStep]
  set curPath := lstripSlash (cur ++ "/" ++ part) with hcp
  by_cases hnew : (alookup mmap curPath).isNone
  · rw [if_pos hnew]
    rcases hfl : alookup nodeMap fp with _ | fid2
    · rw [hfl] at hfid
      exact Option.noConfusion hfid
    · have hf2 : fid2 = fid := Option.some_inj.mp (hfl.symm.trans hfid)
      subst hf2
      have hcc : alookup (dictSet mmap curPath nid) curPath = some nid := by
        rw [alookup_dictSet, if_pos rfl]
      rw [hcc]
      exact ⟨nid, hcc, List.mem_append_right _ (List.mem_singleton.mpr rfl)⟩
  · rw [if_neg hnew]
    rcases hfl : alookup nodeMap fp with _ | fid2
    · rw [hfl] at hfid
      exact Option.noConfusion hfid
    · have hf2 : fid2 = fid := Option.some_inj.mp (hfl.symm.trans hfid)
      subst hf2
      rcases hcc : alookup mmap curPath with _ | mid
      · rw [hcc] at hnew
        simp at hnew
      · exact ⟨mid, hcc, List.mem_append_right _ (List.mem_singleton.mpr rfl)⟩

/-- Module-map entries (key and value) survive one module-pass step. -/
theorem moduleStep_pres_map (nodeMap : List (String × Nat))
    (fp part cur : String) (st : ModState) (q : String) (v : Nat)
    (hq : alookup st.2.2.1 q = some v) :
    alookup (moduleStep nodeMap fp part cur st).2.2.1 q = some v := by
  by_cases hnew : (alookup st.2.2.1 (lstripSlash (cur ++ "/" ++ part))).isNone
  · obtain ⟨hn, hm, hc⟩ := moduleStep_new nodeMap fp part cur st hnew
    rw [hm, alookup_dictSet]
    by_cases hqc : q = lstripSlash (cur ++ "/" ++ part)
    · rw [← hqc] at hnew
      rw [hq] at hnew
      simp at hnew
    · rw [if_neg hqc]
      exact hq
  · obtain ⟨hn, hm, hc⟩ := moduleStep_old nodeMap fp part cur st hnew
    rw [hm]
    exact hq

/-- Links survive one module-pass step. -/
theorem moduleStep_pres_link (nodeMap : List (String × Nat))
    (fp part cur : String) (st : ModState) (l : Link)
    (hl : l ∈ st.2.1) : l ∈ (moduleStep nodeMap fp part cur st).2.1 := by
  obtain ⟨newNodes, newLinks, hn, hlk, hm, hc, hni, hnt, hlt⟩ :=
    moduleStep_spec nodeMap fp part cur st
  rw [hlk]
  exact List.mem_append_left _ hl

/-- Module-map entries survive the inner module-pass loop. -/
theorem moduleInner_pres_map (nodeMap : List (String × Nat)) (fp : String)
    (parts : List String) :
    ∀ cur st q v, alookup st.2.2.1 q = some v →
      alookup (moduleInner nodeMap fp parts cur st).2.2.1 q = some v := by
  induction parts with
  | nil => intro cur st q v h; exact h
  | cons part rest ih =>
    intro cur st q v h
    exact ih (lstripSlash (cur ++ "/" ++ part))
      (moduleStep nodeMap fp part cur st) q v
      (moduleStep_pres_map nodeMap fp part cur st q v h)

/-- Links survive the inner module-pass loop. -/
theorem moduleInner_pres_link (nodeMap : List (String × Nat)) (fp : String)
    (parts : List String) :
    ∀ cur st (l : Link), l ∈ st.2.1 →
      l ∈ (moduleInner nodeMap fp parts cur st).2.1 := by
  induction parts with
  | nil => intro cur st l h; exact h
  | cons part rest ih =>
    intro cur st l h
    exact ih (lstripSlash (cur ++ "/" ++ part))
      (moduleStep nodeMap fp part cur st) l
      (moduleStep_pres_link nodeMap fp part cur st l h)

/-- Module-map entries survive the whole module pass. -/
theorem modulePass_pres_map (nodeMap : List (String × Nat))
    (fps : List String) :
    ∀ st q v, alookup st.2.2.1 q = some v →
      alookup (modulePass nodeMap fps st).2.2.1 q = some v := by
  induction fps with
  | nil => intro st q v h; exact h
  | cons fp0 rest ih =>
    intro st q v h
    exact ih (moduleInner nodeMap fp0
      (splitSlash (normalize_path fp0)).dropLast "" st) q v
      (moduleInner_pres_map nodeMap fp0
        (splitSlash (normalize_path fp0)).dropLast "" st q v h)

/-- Links survive the whole module pass. -/
theorem modulePass_pres_link (nodeMap : List (String × Nat))
    (fps : List String) :
    ∀ st (l : Link), l ∈ st.2.1 → l ∈ (modulePass nodeMap fps st).2.1 := by
  induction fps with
  | nil => intro st l h; exact h
  | cons fp0 rest ih =>
    intro st l h
    exact ih (moduleInner nodeMap fp0
      (splitSlash (normalize_path fp0)).dropLast "" st) l
      (moduleInner_pres_link nodeMap fp0
        (splitSlash (normalize_path fp0)).dropLast "" st l h)

/-- One module-pass step keeps the per-prefix module-node count equal
to the module-map indicator (0 before the prefix is mapped, 1 after). -/
theorem moduleStep_uniq (nodeMap : List (String × Nat))
    (fp part cur : String) (st : ModState)
    (hinv : ∀ q, st.1.countP (isModuleAt q) =
      if (alookup st.2.2.1 q).isSome then 1 else 0) :
    ∀ q, (moduleStep nodeMap fp part cur st).1.countP (isModuleAt q) =
      if (alookup (moduleStep nodeMap fp part cur st).2.2.1 q).isSome
      then 1 else 0 := by
  intro q
  by_cases hnew : (alookup st.2.2.1 (lstripSlash (cur ++ "/" ++ part))).isNone
  · obtain ⟨hn, hm, hc⟩ := moduleStep_new nodeMap fp part cur st hnew
    rw [hn, hm, List.countP_append, hinv q, alookup_dictSet]
    by_cases hqc : q = lstripSlash (cur ++ "/" ++ part)
    · rw [if_pos hqc]
      have h0 : alookup st.2.2.1 q = none := by
        rw [hqc]
        rcases h : alookup st.2.2.1 (lstripSlash (cur ++ "/" ++ part))
          with _ | v
        · rfl
        · rw [h] at hnew
          simp at hnew
      have hb : isModuleAt q
          { id := st.2.2.2, name := part,
            path := lstripSlash (cur ++ "/" ++ part),
            ntype := NodeType.module } = true :=
        decide_eq_true ⟨rfl, hqc.symm⟩
      have h1 : List.countP (isModuleAt q)
          [{ id := st.2.2.2, name := part,
             path := lstripSlash (cur ++ "/" ++ part),
             ntype := NodeType.module }] = 1 := by
        rw [List.countP_cons, List.countP_nil, hb]
        simp
      rw [h0, h1]
      simp
    · rw [if_neg hqc]
      have hb : isModuleAt q
          { id := st.2.2.2, name := part,
            path := lstripSlash (cur ++ "/" ++ part),
            ntype := NodeType.module } = false := by
        simp only [isModuleAt, decide_eq_false_iff_not]
        rintro ⟨-, hp⟩
        exact hqc hp.symm
      have h1 : List.countP (isModuleAt q)
          [{ id := st.2.2.2, name := part,
             path := lstripSlash (cur ++ "/" ++ part),
             ntype := NodeType.module }] = 0 := by
        rw [List.countP_cons, List.countP_nil, hb]
        simp
      rw [h1]
      omega
  · obtain ⟨hn, hm, hc⟩ := moduleStep_old nodeMap fp part cur st hnew
    rw [hn, hm]
    exact hinv q

/-- Inner-loop version of `moduleStep_uniq`. -/
theorem moduleInner_uniq (nodeMap : List (String × Nat)) (fp : String)
    (parts : List String) :
    ∀ cur st,
      (∀ q, st.1.countP (isModuleAt q) =
        if (alookup st.2.2.1 q).isSome then 1 else 0) →
      ∀ q, (moduleInner nodeMap fp parts cur st).1.countP (isModuleAt q) =
        if (alookup (moduleInner nodeMap fp parts cur st).2.2.1 q).isSome
        then 1 else 0 := by
  induction parts with
  | nil => intro cur st hinv; exact hinv
  | cons part rest ih =>
    intro cur st hinv
    exact ih (lstripSlash (cur ++ "/" ++ part))
      (moduleStep nodeMap fp part cur st)
      (moduleStep_uniq nodeMap fp part cur st hinv)

/-- Whole-pass version of `moduleStep_uniq`. -/
theorem modulePass_uniq (nodeMap : List (String × Nat))
    (fps : List String) :
    ∀ st,
      (∀ q, st.1.countP (isModuleAt q) =
        if (alookup st.2.2.1 q).isSome then 1 else 0) →
      ∀ q, (modulePass nodeMap fps st).1.countP (isModuleAt q) =
        if (alookup (modulePass nodeMap fps st).2.2.1 q).isSome
        then 1 else 0 := by
  induction fps with
  | nil => intro st hinv; exact hinv
  | cons fp0 rest ih =>
    intro st hinv
    exact ih (moduleInner nodeMap fp0
      (splitSlash (normalize_path fp0)).dropLast "" st)
      (moduleInner_uniq nodeMap fp0
        (splitSlash (normalize_path fp0)).dropLast "" st hinv)

/-- One module-pass step keeps the invariant that every module-map
entry points at a module node with that id and prefix path. -/
theorem moduleStep_mapnode (nodeMap : List (String × Nat))
    (fp part cur : String) (st : ModState)
    (hinv : ∀ q v, alookup st.2.2.1 q = some v → ∃ nd ∈ st.1,
      nd.id = v ∧ nd.ntype = NodeType.module ∧ nd.path = q) :
    ∀ q v, alookup (moduleStep nodeMap fp part cur st).2.2.1 q = some v →
      ∃ nd ∈ (moduleStep nodeMap fp part cur st).1, nd.id = v ∧
        nd.ntype = NodeType.module ∧ nd.path = q := by
  intro q v hq
  by_cases hnew : (alookup st.2.2.1 (lstripSlash (cur ++ "/" ++ part))).isNone
  · obtain ⟨hn, hm, hc⟩ := moduleStep_new nodeMap fp part cur st hnew
    rw [hm, alookup_dictSet] at hq
    rw [hn]
    by_cases hqc : q = lstripSlash (cur ++ "/" ++ part)
    · rw [if_pos hqc] at hq
      exact ⟨{ id := st.2.2.2, name := part,
               path := lstripSlash (cur ++ "/" ++ part),
               ntype := NodeType.module },
        List.mem_append_right _ (List.mem_singleton.mpr rfl),
        Option.some_inj.mp hq, rfl, hqc.symm⟩
    · rw [if_neg hqc] at hq
      obtain ⟨nd, hmem, h1, h2, h3⟩ := hinv q v hq
      exact ⟨nd, List.mem_append_left _ hmem, h1, h2, h3⟩
  · obtain ⟨hn, hm, hc⟩ := moduleStep_old nodeMap fp part cur st hnew
    rw [hm] at hq
    rw [hn]
    exact hinv q v hq

/-- Inner-loop version of `moduleStep_mapnode`. -/
theorem moduleInner_mapnode (nodeMap : List (String × Nat)) (fp : String)
    (parts : List String) :
    ∀ cur st,
      (∀ q v, alookup st.2.2.1 q = some v → ∃ nd ∈ st.1,
        nd.id = v ∧ nd.ntype = NodeType.module ∧ nd.path = q) →
      ∀ q v, alookup (moduleInner nodeMap fp parts cur st).2.2.1 q =
        some v →
        ∃ nd ∈ (moduleInner nodeMap fp parts cur st).1, nd.id = v ∧
          nd.ntype = NodeType.module ∧ nd.path = q := by
  induction parts with
  | nil => intro cur st hinv; exact hinv
  | cons part rest ih =>
    intro cur st hinv
    exact ih (lstripSlash (cur ++ "/" ++ part))
      (moduleStep nodeMap fp part cur st)
      (moduleStep_mapnode nodeMap fp part cur st hinv)

/-- Whole-pass version of `moduleStep_mapnode`. -/
theorem modulePass_mapnode (nodeMap : List (String × Nat))
    (fps : List String) :
    ∀ st,
      (∀ q v, alookup st.2.2.1 q = some v → ∃ nd ∈ st.1,
        nd.id = v ∧ nd.ntype = NodeType.module ∧ nd.path = q) →
      ∀ q v, alookup (modulePass nodeMap fps st).2.2.1 q = some v →
        ∃ nd ∈ (modulePass nodeMap fps st).1, nd.id = v ∧
          nd.ntype = NodeType.module ∧ nd.path = q := by
  induction fps with
  | nil => intro st hinv; exact hinv
  | cons fp0 rest ih =>
    intro st hinv
    exact ih (moduleInner nodeMap fp0
      (splitSlash (normalize_path fp0)).dropLast "" st)
      (moduleInner_mapnode nodeMap fp0
        (splitSlash (normalize_path fp0)).dropLast "" st hinv)

/-- Pass 1 creates no module nodes. -/
theorem pass1_no_module (rs : List (String × FileAnalysis)) :
    ∀ nid m, ∀ nd ∈ (pass1 rs nid m).1, nd.ntype ≠ NodeType.module := by
  induction rs with
  | nil => intro nid m nd hnd; simp [pass1] at hnd
  | cons p rest ih =>
    intro nid m nd hnd
    obtain ⟨fp, a⟩ := p
    have hnodes : (pass1 ((fp, a) :: rest) nid m).1 =
        (processFile fp a nid m).1 ++
        (pass1 rest (processFile fp a nid m).2.2.2
          (processFile fp a nid m).2.2.1).1 := rfl
    rw [hnodes] at hnd
    rcases List.mem_append.mp hnd with h | h
    · obtain ⟨i, hi⟩ := List.mem_iff_get.mp h
      have hp := processFile_nodes fp a nid m i.1 i.2
      by_cases h0 : i.1 = 0
      · intro hmod
        rw [← hi] at hmod
        exact NodeType.noConfusion ((hp.1 h0).symm.trans hmod)
      · intro hmod
        rw [← hi] at hmod
        rcases hp.2.1 h0 with h2 | h2
        · exact NodeType.noConfusion (h2.symm.trans hmod)
        · exact NodeType.noConfusion (h2.symm.trans hmod)
    · exact ih (processFile fp a nid m).2.2.2
        (processFile fp a nid m).2.2.1 nd h

/-- For a file present in the node map, the inner module-pass loop puts
every prefix reached from `cur` into the module map and appends a
`contains` link from that prefix's module id to the file id. -/
theorem moduleInner_all (nodeMap : List (String × Nat)) (fp : String)
    (fid : Nat) (hfid : alookup nodeMap fp = some fid)
    (parts : List String) :
    ∀ cur st i, i < parts.length →
      ∃ mid, alookup (moduleInner nodeMap fp parts cur st).2.2.1
          (prefixAt cur parts i) = some mid ∧
        ({ source := mid, target := RawTarget.id fid,
           ltype := "contains" } : Link) ∈
          (moduleInner nodeMap fp parts cur st).2.1 := by
  induction parts with
  | nil => intro cur st i hi; exact absurd hi (by simp)
  | cons part rest ih =>
    intro cur st i hi
    rcases i with _ | j
    · obtain ⟨mid, hm, hl⟩ :=
        moduleStep_creates nodeMap fp part cur st fid hfid
      exact ⟨mid,
        moduleInner_pres_map nodeMap fp rest
          (lstripSlash (cur ++ "/" ++ part))
          (moduleStep nodeMap fp part cur st) _ mid hm,
        moduleInner_pres_link nodeMap fp rest
          (lstripSlash (cur ++ "/" ++ part))
          (moduleStep nodeMap fp part cur st) _ hl⟩
    · have hj : j < rest.length := by
        simp only [List.length_cons] at hi
        omega
      exact ih (lstripSlash (cur ++ "/" ++ part))
        (moduleStep nodeMap fp part cur st) j hj

/-- Whole-pass version of `moduleInner_all`, for any processed file in
the node map. -/
theorem modulePass_all (nodeMap : List (String × Nat)) (fp : String)
    (fid : Nat) (hfid : alookup nodeMap fp = some fid)
    (fps : List String) :
    ∀ st, fp ∈ fps →
      ∀ i, i < (splitSlash (normalize_path fp)).dropLast.length →
        ∃ mid, alookup (modulePass nodeMap fps st).2.2.1
            (prefixAt "" (splitSlash (normalize_path fp)).dropLast i) =
            some mid ∧
          ({ source := mid, target := RawTarget.id fid,
             ltype := "contains" } : Link) ∈
            (modulePass nodeMap fps st).2.1 := by
  induction fps with
  | nil => intro st hfp; exact absurd hfp (List.not_mem_nil fp)
  | cons fp0 rest ih =>
    intro st hfp i hi
    rcases List.mem_cons.mp hfp with heq | hmem
    · subst heq
      obtain ⟨mid, hm, hl⟩ := moduleInner_all nodeMap fp fid hfid
        (splitSlash (normalize_path fp)).dropLast "" st i hi
      exact ⟨mid,
        modulePass_pres_map nodeMap rest
          (moduleInner nodeMap fp
            (splitSlash (normalize_path fp)).dropLast "" st) _ mid hm,
        modulePass_pres_link nodeMap rest
          (moduleInner nodeMap fp
            (splitSlash (normalize_path fp)).dropLast "" st) _ hl⟩
    · exact ih (moduleInner nodeMap fp0
        (splitSlash (normalize_path fp0)).dropLast "" st) hmem i hi

/-- Pieces produced by the character splitter never contain the
separator (provided the accumulator does not). -/
theorem splitOnCharAux_no_sep (c : Char) :
    ∀ (l : List Char), ∀ acc, c ∉ acc →
      ∀ p ∈ splitOnCharAux c l acc, c ∉ p := by
  intro l
  induction l with
  | nil =>
    intro acc hacc p hp
    simp only [splitOnCharAux, List.mem_singleton] at hp
    subst hp
    simpa using hacc
  | cons x xs ih =>
    intro acc hacc p hp
    simp only [splitOnCharAux] at hp
    by_cases hx : x = c
    · rw [if_pos hx] at hp
      rcases List.mem_cons.mp hp with rfl | h2
      · simpa using hacc
      · exact ih [] (List.not_mem_nil c) p h2
    · rw [if_neg hx] at hp
      refine ih (x :: acc) ?_ p hp
      intro hc
      rcases List.mem_cons.mp hc with h | h
      · exact hx h.symm
      · exact hacc h

/-- `path.split('/')` pieces contain no slash. -/
theorem splitSlash_no_slash (s : String) :
    ∀ p ∈ splitSlash s, '/' ∉ p.data := by
  intro p hp
  obtain ⟨q, hq, rfl⟩ := List.mem_map.mp hp
  exact splitOnCharAux_no_sep '/' s.data [] (List.not_mem_nil '/') q hq

theorem dropWhile_idem {α : Type} (p : α → Bool) :
    ∀ l : List α, (l.dropWhile p).dropWhile p = l.dropWhile p := by
  intro l
  induction l with
  | nil => rfl
  | cons x xs ih =>
    rw [List.dropWhile_cons]
    by_cases hx : p x = true
    · rw [if_pos hx]
      exact ih
    · rw [if_neg hx]
      rw [List.dropWhile_cons, if_neg hx]

/-- `lstrip('/')` is idempotent. -/
theorem lstripSlash_idem (s : String) :
    lstripSlash (lstripSlash s) = lstripSlash s :=
  congrArg String.mk (dropWhile_idem (· = '/') s.data)

/-- Appending to a nonempty slash-normalized string needs no further
stripping. -/
theorem lstripSlash_append (s t : String) (hs : lstripSlash s = s)
    (hne : s ≠ "") : lstripSlash (s ++ t) = s ++ t := by
  have hdata : s.data.dropWhile (· = '/') = s.data := congrArg String.data hs
  have hempty : s.data.isEmpty = false := by
    rcases h : s.data with _ | ⟨c, rest⟩
    · exact absurd (String.ext (by rw [h])) hne
    · rfl
  show String.mk (((s ++ t).data).dropWhile (· = '/')) = s ++ t
  rw [String.data_append, List.dropWhile_append, hdata, hempty]
  rfl

theorem append_slash_cancel :
    ∀ (as bs cs ds : List Char), '/' ∉ bs → '/' ∉ ds →
      as ++ '/' :: bs = cs ++ '/' :: ds → as = cs ∧ bs = ds := by
  intro as
  induction as with
  | nil =>
    intro bs cs ds hb hd h
    rcases cs with _ | ⟨c, cs2⟩
    · injection h with h1 h2
      exact ⟨rfl, h2⟩
    · rw [List.cons_append] at h
      injection h with h1 h2
      exfalso
      apply hb
      rw [h2]
      exact List.mem_append_right _ (List.mem_cons_self _ _)
  | cons a as2 ih =>
    intro bs cs ds hb hd h
    rcases cs with _ | ⟨c, cs2⟩
    · rw [List.cons_append] at h
      injection h with h1 h2
      exfalso
      apply hd
      rw [← h2]
      exact List.mem_append_right _ (List.mem_cons_self _ _)
    · rw [List.cons_append, List.cons_append] at h
      injection h with h1 h2
      obtain ⟨h3, h4⟩ := ih bs cs2 ds hb hd h2
      exact ⟨by rw [h1, h3], h4⟩

/-- A `parent/leaf` string with slash-free leaves decomposes uniquely. -/
theorem string_slash_cancel (s1 t1 s2 t2 : String)
    (h1 : '/' ∉ t1.data) (h2 : '/' ∉ t2.data)
    (h : s1 ++ "/" ++ t1 = s2 ++ "/" ++ t2) : s1 = s2 ∧ t1 = t2 := by
  have hd := congrArg String.data h
  simp only [String.data_append,
    show ("/" : String).data = ['/'] from rfl, List.append_assoc,
    List.singleton_append] at hd
  obtain ⟨ha, hb⟩ := append_slash_cancel s1.data t1.data s2.data t2.data
    h1 h2 hd
  exact ⟨String.ext ha, String.ext hb⟩

theorem append_slash_ne (s t : String) : s ++ "/" ++ t ≠ s := by
  intro h
  have hlen := congrArg (fun x : String => x.data.length) h
  simp only [String.data_append, List.length_append,
    List.length_singleton] at hlen
  omega

/-- Prefixes built by the module pass are slash-normalized. -/
theorem prefixAt_normalized (parts : List String) :
    ∀ cur i, lstripSlash cur = cur →
      lstripSlash (prefixAt cur parts i) = prefixAt cur parts i := by
  induction parts with
  | nil => intro cur i hcur; exact hcur
  | cons part rest ih =>
    intro cur i hcur
    rcases i with _ | j
    · exact lstripSlash_idem (cur ++ "/" ++ part)
    · exact ih (lstripSlash (cur ++ "/" ++ part)) j
        (lstripSlash_idem (cur ++ "/" ++ part))

/-- The prefix one level deeper extends the current prefix by the next
directory part. -/
theorem prefixAt_succ (parts : List String) :
    ∀ cur i (h : i + 1 < parts.length),
      prefixAt cur parts (i + 1) =
        lstripSlash (prefixAt cur parts i ++ "/" ++
          parts.get ⟨i + 1, h⟩) := by
  induction parts with
  | nil => intro cur i h; exact absurd h (by simp)
  | cons part rest ih =>
    intro cur i h
    rcases i with _ | j
    · rcases rest with _ | ⟨r, rest2⟩
      · simp at h
      · rfl
    · exact ih (lstripSlash (cur ++ "/" ++ part)) j
        (by simp only [List.length_cons] at h; omega)

/-- The parent-link invariant of the module pass: module-map keys are
slash-normalized, and every mapped prefix of the form `parent/leaf`
(nonempty normalized parent, slash-free leaf) has its parent mapped and
a `contains` link from the parent's module id to its own. -/
def ParentLinked (st : ModState) : Prop :=
  (∀ q ∈ dictKeys st.2.2.1, lstripSlash q = q) ∧
  (∀ cur part mid, cur ≠ "" → lstripSlash cur = cur → '/' ∉ part.data →
    alookup st.2.2.1 (cur ++ "/" ++ part) = some mid →
    ∃ pid, alookup st.2.2.1 cur = some pid ∧
      ({ source := pid, target := RawTarget.id mid,
         ltype := "contains" } : Link) ∈ st.2.1)

/-- After one module-pass step the current prefix is in the module
map. -/
theorem moduleStep_curpath_some (nodeMap : List (String × Nat))
    (fp part cur : String) (st : ModState) :
    (alookup (moduleStep nodeMap fp part cur st).2.2.1
      (lstripSlash (cur ++ "/" ++ part))).isSome := by
  by_cases hnew : (alookup st.2.2.1 (lstripSlash (cur ++ "/" ++ part))).isNone
  · obtain ⟨hn, hm, hc⟩ := moduleStep_new nodeMap fp part cur st hnew
    rw [hm, alookup_dictSet, if_pos rfl]
    rfl
  · obtain ⟨hn, hm, hc⟩ := moduleStep_old nodeMap fp part cur st hnew
    rw [hm]
    rcases h : alookup st.2.2.1 (lstripSlash (cur ++ "/" ++ part)) with _ | v
    · rw [h] at hnew
      simp at hnew
    · rfl

/-- When a fresh prefix is created under a nonempty parent already in
the module map, the parent-to-child `contains` link is appended. -/
theorem moduleStep_new_parent (nodeMap : List (String × Nat))
    (fp part cur : String) (st : ModState)
    (hnew : (alookup st.2.2.1 (lstripSlash (cur ++ "/" ++ part))).isNone)
    (hcure : cur ≠ "") (pid : Nat)
    (hpid : alookup st.2.2.1 cur = some pid)
    (hne : lstripSlash (cur ++ "/" ++ part) ≠ cur) :
    ({ source := pid, target := RawTarget.id st.2.2.2,
       ltype := "contains" } : Link) ∈ (moduleStep nodeMap fp part cur st).2.1 := by
  obtain ⟨nodes, links, mmap, nid⟩ := st
  simp only [moduleStep]
  set curPath := lstripSlash (cur ++ "/" ++ part) with hcp
  rw [if_pos hnew]
  have hpl : alookup (dictSet mmap curPath nid) cur = some pid := by
    rw [alookup_dictSet, if_neg (fun h => hne h.symm)]
    exact hpid
  rcases hfl : alookup nodeMap fp with _ | fid
  · rw [if_pos hcure, hpl]
    exact List.mem_append_right _ (List.mem_singleton.mpr rfl)
  · have hcc : alookup (dictSet mmap curPath nid) curPath = some nid := by
      rw [alookup_dictSet, if_pos rfl]
    rw [hcc, if_pos hcure, hpl]
    exact List.mem_append_left _
      (List.mem_append_right _ (List.mem_singleton.mpr rfl))

/-- One module-pass step preserves the parent-link invariant. -/
theorem moduleStep_parentlink (nodeMap : List (String × Nat))
    (fp part cur : String) (st : ModState)
    (hpart : '/' ∉ part.data)
    (hcur : cur = "" ∨ (lstripSlash cur = cur ∧ (alookup st.2.2.1 cur).isSome))
    (hinv : ParentLinked st) :
    ParentLinked (moduleStep nodeMap fp part cur st) := by
  by_cases hnew : (alookup st.2.2.1 (lstripSlash (cur ++ "/" ++ part))).isNone
  · obtain ⟨hn, hm, hc⟩ := moduleStep_new nodeMap fp part cur st hnew
    constructor
    · intro q hq
      rw [hm] at hq
      rcases (mem_dictKeys_dictSet st.2.2.1
        (lstripSlash (cur ++ "/" ++ part)) st.2.2.2 q).mp hq with h | h
      · rw [h]
        exact lstripSlash_idem (cur ++ "/" ++ part)
      · exact hinv.1 q h
    · intro cur2 part2 mid hc2ne hc2norm hp2 hq
      rw [hm, alookup_dictSet] at hq
      by_cases hqc : cur2 ++ "/" ++ part2 = lstripSlash (cur ++ "/" ++ part)
      · rw [if_pos hqc] at hq
        have hmid : mid = st.2.2.2 := (Option.some_inj.mp hq).symm
        by_cases hcure : cur = ""
        · exfalso
          have hmem : '/' ∈ (cur2 ++ "/" ++ part2).data := by
            rw [String.data_append, String.data_append]
            refine List.mem_append_left _ (List.mem_append_right _ ?_)
            show '/' ∈ ['/']
            exact List.mem_singleton.mpr rfl
          rw [hqc] at hmem
          subst hcure
          have hq0 : (lstripSlash ("" ++ "/" ++ part)).data =
              part.data.dropWhile (· = '/') := by
            show (("" ++ "/" ++ part).data).dropWhile (· = '/') = _
            have hd : ("" ++ "/" ++ part).data = '/' :: part.data := rfl
            rw [hd, List.dropWhile_cons, if_pos (by decide)]
          rw [hq0] at hmem
          exact hpart ((List.dropWhile_sublist _).subset hmem)
        · rcases hcur with h | ⟨hnorm, hsome⟩
          · exact absurd h hcure
          · have hq0 : lstripSlash (cur ++ "/" ++ part) =
                cur ++ "/" ++ part := by
              rw [String.append_assoc]
              exact lstripSlash_append cur ("/" ++ part) hnorm hcure
            have hqne : lstripSlash (cur ++ "/" ++ part) ≠ cur := by
              rw [hq0]
              exact append_slash_ne cur part
            rw [hq0] at hqc
            obtain ⟨hceq, hpeq⟩ :=
              string_slash_cancel cur2 part2 cur part hp2 hpart hqc
            rw [hceq]
            obtain ⟨pid, hpid⟩ := Option.isSome_iff_exists.mp hsome
            refine ⟨pid, ?_, ?_⟩
            · rw [hm, alookup_dictSet, if_neg (fun h => hqne h.symm)]
              exact hpid
            · rw [hmid]
              exact moduleStep_new_parent nodeMap fp part cur st hnew hcure
                pid hpid hqne
      · rw [if_neg hqc] at hq
        obtain ⟨pid, hpid, hlink⟩ := hinv.2 cur2 part2 mid hc2ne hc2norm hp2 hq
        by_cases hc2q : cur2 = lstripSlash (cur ++ "/" ++ part)
        · exfalso
          rw [hc2q] at hpid
          rw [hpid] at hnew
          simp at hnew
        · refine ⟨pid, ?_,
            moduleStep_pres_link nodeMap fp part cur st _ hlink⟩
          rw [hm, alookup_dictSet, if_neg hc2q]
          exact hpid
  · obtain ⟨hn, hm, hc⟩ := moduleStep_old nodeMap fp part cur st hnew
    constructor
    · intro q hq
      rw [hm] at hq
      exact hinv.1 q hq
    · intro cur2 part2 mid h1 h2 h3 hq
      rw [hm] at hq
      obtain ⟨pid, hpid, hlink⟩ := hinv.2 cur2 part2 mid h1 h2 h3 hq
      refine ⟨pid, ?_, moduleStep_pres_link nodeMap fp part cur st _ hlink⟩
      rw [hm]
      exact hpid

/-- Inner-loop version of `moduleStep_parentlink`. -/
theorem moduleInner_parentlink (nodeMap : List (String × Nat)) (fp : String)
    (parts : List String) :
    ∀ cur st, (∀ p ∈ parts, '/' ∉ p.data) →
      (cur = "" ∨ (lstripSlash cur = cur ∧ (alookup st.2.2.1 cur).isSome)) →
      ParentLinked st → ParentLinked (moduleInner nodeMap fp parts cur st) := by
  induction parts with
  | nil => intro cur st hparts hcur hinv; exact hinv
  | cons part rest ih =>
    intro cur st hparts hcur hinv
    apply ih (lstripSlash (cur ++ "/" ++ part))
      (moduleStep nodeMap fp part cur st)
    · intro p hp
      exact hparts p (List.mem_cons_of_mem _ hp)
    · right
      exact ⟨lstripSlash_idem (cur ++ "/" ++ part),
        moduleStep_curpath_some nodeMap fp part cur st⟩
    · exact moduleStep_parentlink nodeMap fp part cur st
        (hparts part (List.mem_cons_self _ _)) hcur hinv

/-- Whole-pass version of `moduleStep_parentlink`. -/
theorem modulePass_parentlink (nodeMap : List (String × Nat))
    (fps : List String) :
    ∀ st, ParentLinked st → ParentLinked (modulePass nodeMap fps st) := by
  induction fps with
  | nil => intro st h; exact h
  | cons fp0 rest ih =>
    intro st hinv
    apply ih
    apply moduleInner_parentlink nodeMap fp0
      (splitSlash (normalize_path fp0)).dropLast "" st
    · intro p hp
      exact splitSlash_no_slash (normalize_path fp0) p
        (List.dropLast_subset _ hp)
    · exact Or.inl rfl
    · exact hinv

/-- The inner module-pass loop maps every prefix it reaches (entry-only
version of `moduleInner_all`). -/
theorem moduleInner_entry (nodeMap : List (String × Nat)) (fp : String)
    (parts : List String) :
    ∀ cur st i, i < parts.length →
      ∃ mid, alookup (moduleInner nodeMap fp parts cur st).2.2.1
        (prefixAt cur parts i) = some mid := by
  induction parts with
  | nil => intro cur st i hi; exact absurd hi (by simp)
  | cons part rest ih =>
    intro cur st i hi
    rcases i with _ | j
    · obtain ⟨mid, hmid⟩ := Option.isSome_iff_exists.mp
        (moduleStep_curpath_some nodeMap fp part cur st)
      exact ⟨mid, moduleInner_pres_map nodeMap fp rest
        (lstripSlash (cur ++ "/" ++ part))
        (moduleStep nodeMap fp part cur st) _ mid hmid⟩
    · have hj : j < rest.length := by
        simp only [List.length_cons] at hi
        omega
      exact ih (lstripSlash (cur ++ "/" ++ part))
        (moduleStep nodeMap fp part cur st) j hj

/-- Whole-pass version of `moduleInner_entry`. -/
theorem modulePass_entry (nodeMap : List (String × Nat)) (fp : String)
    (fps : List String) :
    ∀ st, fp ∈ fps →
      ∀ i, i < (splitSlash (normalize_path fp)).dropLast.length →
        ∃ mid, alookup (modulePass nodeMap fps st).2.2.1
          (prefixAt "" (splitSlash (normalize_path fp)).dropLast i) =
          some mid := by
  induction fps with
  | nil => intro st hfp; exact absurd hfp (List.not_mem_nil fp)
  | cons fp0 rest ih =>
    intro st hfp i hi
    rcases List.mem_cons.mp hfp with heq | hmem
    · subst heq
      obtain ⟨mid, hm⟩ := moduleInner_entry nodeMap fp
        (splitSlash (normalize_path fp)).dropLast "" st i hi
      exact ⟨mid, modulePass_pres_map nodeMap rest
        (moduleInner nodeMap fp
          (splitSlash (normalize_path fp)).dropLast "" st) _ mid hm⟩
    · exact ih (moduleInner nodeMap fp0
        (splitSlash (normalize_path fp0)).dropLast "" st) hmem i hi

/-- C1 counterexample: on the spec's own example — files `a/b/x.py` and
`a/b/y.py` — the file node of `x.py` (id 0) receives a `contains` link
from the non-deepest module node `a` (id 2), contradicting "from the
deepest (longest-prefix) module node only". -/
theorem module_link_from_non_deepest :
    (buildGraph c1Rec).nodes.map (fun nd => (nd.id, nd.ntype, nd.path)) =
      [(0, NodeType.file, "a/b/x.py"), (1, NodeType.file, "a/b/y.py"),
       (2, NodeType.module, "a"), (3, NodeType.module, "a/b")] ∧
    ({ source := 2, target := RawTarget.id 0,
       ltype := "contains" } : Link) ∈ (buildGraph c1Rec).links := by
  exact ⟨by decide, by decide⟩

/-- C1 (amended): the module pass creates exactly one module node per
module-map prefix (count 1 for prefixes in the output `modules` list, 0
otherwise); each file node receives a `contains` link from the module
node of EVERY proper directory prefix of its normalized path — not only
the deepest one; and for every consecutive prefix pair of a processed
file's path whose parent prefix is nonempty, the parent-prefix module
node has a `contains` link to the child-prefix module node. -/
theorem module_hierarchy_amended (rs : List (String × FileAnalysis)) :
    (∀ q, (buildGraph rs).nodes.countP (isModuleAt q) =
      if q ∈ (buildGraph rs).modules then 1 else 0) ∧
    (∀ fp ∈ rs.map Prod.fst, ∀ fid,
      alookup (pass1 rs 0 []).2.2.1 fp = some fid →
      ∀ i, i < (splitSlash (normalize_path fp)).dropLast.length →
        ∃ mid nd, nd ∈ (buildGraph rs).nodes ∧ nd.id = mid ∧
          nd.ntype = NodeType.module ∧
          nd.path = prefixAt "" (splitSlash (normalize_path fp)).dropLast i ∧
          ({ source := mid, target := RawTarget.id fid,
             ltype := "contains" } : Link) ∈ (buildGraph rs).links) ∧
    (∀ fp ∈ rs.map Prod.fst,
      ∀ i (hi1 : i + 1 < (splitSlash (normalize_path fp)).dropLast.length),
        prefixAt "" (splitSlash (normalize_path fp)).dropLast i ≠ "" →
        ∃ pid mid ndp ndc, ndp ∈ (buildGraph rs).nodes ∧ ndp.id = pid ∧
          ndp.ntype = NodeType.module ∧
          ndp.path = prefixAt "" (splitSlash (normalize_path fp)).dropLast i ∧
          ndc ∈ (buildGraph rs).nodes ∧ ndc.id = mid ∧
          ndc.ntype = NodeType.module ∧
          ndc.path =
            prefixAt "" (splitSlash (normalize_path fp)).dropLast (i + 1) ∧
          ({ source := pid, target := RawTarget.id mid,
             ltype := "contains" } : Link) ∈ (buildGraph rs).links) := by
  have hmn := modulePass_mapnode (pass1 rs 0 []).2.2.1 (rs.map Prod.fst)
    (st0 rs)
    (by
      intro q v hq
      exact absurd hq (by simp [st0, alookup]))
  refine ⟨?_, ?_, ?_⟩
  · intro q
    have hfin := modulePass_uniq (pass1 rs 0 []).2.2.1 (rs.map Prod.fst)
      (st0 rs)
      (by
        intro q2
        show (pass1 rs 0 []).1.countP (isModuleAt q2) =
          if (alookup ([] : List (String × Nat)) q2).isSome then 1 else 0
        have hz : (pass1 rs 0 []).1.countP (isModuleAt q2) = 0 := by
          rw [List.countP_eq_zero]
          intro nd hnd hdec
          have hdec2 : nd.ntype = NodeType.module ∧ nd.path = q2 := by
            simpa [isModuleAt] using hdec
          exact pass1_no_module rs 0 [] nd hnd hdec2.1
        rw [hz]
        rfl) q
    have hfin2 : (finalState rs).1.countP (isModuleAt q) =
        if (alookup (finalState rs).2.2.1 q).isSome then 1 else 0 := hfin
    show (finalState rs).1.countP (isModuleAt q) =
      if q ∈ dictKeys (finalState rs).2.2.1 then 1 else 0
    rw [hfin2]
    by_cases hq : q ∈ dictKeys (finalState rs).2.2.1
    · rw [if_pos hq]
      have hsome := (alookup_isSome_iff ((finalState rs).2.2.1) q).mpr hq
      rw [hsome]
      simp
    · rw [if_neg hq]
      have hnone : (alookup ((finalState rs).2.2.1) q).isSome = false := by
        rcases hlook : alookup ((finalState rs).2.2.1) q with _ | v
        · rfl
        · exact absurd ((alookup_isSome_iff _ _).mp (by rw [hlook]; rfl)) hq
      rw [hnone]
      simp
  · intro fp hfp fid hfid i hi
    obtain ⟨mid, hm, hl⟩ := modulePass_all (pass1 rs 0 []).2.2.1 fp fid hfid
      (rs.map Prod.fst) (st0 rs) hfp i hi
    obtain ⟨nd, hndmem, h1, h2, h3⟩ := hmn
      (prefixAt "" (splitSlash (normalize_path fp)).dropLast i) mid hm
    exact ⟨mid, nd, hndmem, h1, h2, h3, hl⟩
  · intro fp hfp i hi hne
    obtain ⟨mid, hmid⟩ := modulePass_entry (pass1 rs 0 []).2.2.1 fp
      (rs.map Prod.fst) (st0 rs) hfp (i + 1) hi
    have hpl := modulePass_parentlink (pass1 rs 0 []).2.2.1 (rs.map Prod.fst)
      (st0 rs)
      ⟨by
        intro q hq
        simp [st0, dictKeys] at hq,
       by
        intro c p m h1 h2 h3 h4
        exact absurd h4 (by simp [st0, alookup])⟩
    have hpnorm : lstripSlash
        (prefixAt "" (splitSlash (normalize_path fp)).dropLast i) =
        prefixAt "" (splitSlash (normalize_path fp)).dropLast i :=
      prefixAt_normalized (splitSlash (normalize_path fp)).dropLast "" i rfl
    have hslashfree : '/' ∉
        ((splitSlash (normalize_path fp)).dropLast.get ⟨i + 1, hi⟩).data :=
      splitSlash_no_slash (normalize_path fp) _
        (List.dropLast_subset _
          (List.get_mem (splitSlash (normalize_path fp)).dropLast (i + 1) hi))
    have hsucc : prefixAt "" (splitSlash (normalize_path fp)).dropLast
        (i + 1) =
        prefixAt "" (splitSlash (normalize_path fp)).dropLast i ++ "/" ++
          (splitSlash (normalize_path fp)).dropLast.get ⟨i + 1, hi⟩ := by
      rw [prefixAt_succ (splitSlash (normalize_path fp)).dropLast "" i hi]
      have hassoc : prefixAt "" (splitSlash (normalize_path fp)).dropLast i ++
          "/" ++ (splitSlash (normalize_path fp)).dropLast.get ⟨i + 1, hi⟩ =
          prefixAt "" (splitSlash (normalize_path fp)).dropLast i ++
          ("/" ++ (splitSlash (normalize_path fp)).dropLast.get ⟨i + 1, hi⟩) :=
        String.append_assoc _ _ _
      rw [hassoc]
      exact lstripSlash_append _ _ hpnorm hne
    rw [hsucc] at hmid
    obtain ⟨pid, hpid, hlink⟩ := hpl.2
      (prefixAt "" (splitSlash (normalize_path fp)).dropLast i)
      ((splitSlash (normalize_path fp)).dropLast.get ⟨i + 1, hi⟩)
      mid hne hpnorm hslashfree hmid
    obtain ⟨ndp, hndp, hp1, hp2, hp3⟩ := hmn
      (prefixAt "" (splitSlash (normalize_path fp)).dropLast i) pid hpid
    obtain ⟨ndc, hndc, hc1, hc2, hc3⟩ := hmn
      (prefixAt "" (splitSlash (normalize_path fp)).dropLast i ++ "/" ++
        (splitSlash (normalize_path fp)).dropLast.get ⟨i + 1, hi⟩) mid hmid
    refine ⟨pid, mid, ndp, ndc, hndp, hp1, hp2, hp3, hndc, hc1, hc2, ?_,
      hlink⟩
    rw [hsucc]
    exact hc3

/-- Witness for the amended C1 on the spec's example: prefix `a` has
exactly one module node; file `a/b/x.py` (node 0) is linked from the
module of its non-deepest prefix `a`; and module `a` is linked to
module `a/b`. -/
theorem module_hierarchy_amended_witness :
    ((buildGraph c1Rec).nodes.countP (isModuleAt "a") =
      if "a" ∈ (buildGraph c1Rec).modules then 1 else 0) ∧
    ("a/b/x.py" ∈ c1Rec.map Prod.fst ∧
     alookup (pass1 c1Rec 0 []).2.2.1 "a/b/x.py" = some 0 ∧
     0 < (splitSlash (normalize_path "a/b/x.py")).dropLast.length ∧
     0 + 1 < (splitSlash (normalize_path "a/b/x.py")).dropLast.length ∧
     prefixAt "" (splitSlash (normalize_path "a/b/x.py")).dropLast 0 ≠ "") ∧
    (∃ mid nd, nd ∈ (buildGraph c1Rec).nodes ∧ nd.id = mid ∧
      nd.ntype = NodeType.module ∧
      nd.path = prefixAt "" (splitSlash (normalize_path "a/b/x.py")).dropLast 0 ∧
      ({ source := mid, target := RawTarget.id 0,
         ltype := "contains" } : Link) ∈ (buildGraph c1Rec).links) ∧
    (∃ pid mid ndp ndc, ndp ∈ (buildGraph c1Rec).nodes ∧ ndp.id = pid ∧
      ndp.ntype = NodeType.module ∧
      ndp.path = prefixAt "" (splitSlash (normalize_path "a/b/x.py")).dropLast 0 ∧
      ndc ∈ (buildGraph c1Rec).nodes ∧ ndc.id = mid ∧
      ndc.ntype = NodeType.module ∧
      ndc.path =
        prefixAt "" (splitSlash (normalize_path "a/b/x.py")).dropLast 1 ∧
      ({ source := pid, target := RawTarget.id mid,
         ltype := "contains" } : Link) ∈ (buildGraph c1Rec).links) := by
  refine ⟨(module_hierarchy_amended c1Rec).1 "a",
    ⟨by decide, by decide, by decide, by decide, by decide⟩, ?_, ?_⟩
  · exact (module_hierarchy_amended c1Rec).2.1 "a/b/x.py" (by decide) 0
      (by decide) 0 (by decide)
  · exact (module_hierarchy_amended c1Rec).2.2 "a/b/x.py" (by decide) 0
      (by decide) (by decide)

/-- The record list of the C9 node-map collision: the first file's raw
path equals the second file's `path:name` key for its function `g`. -/
def c9Bad : List (String × FileAnalysis) :=
  [("d/x.py:g", {}), ("d/x.py", { functions := some [("g", {})] })]

/-- C9 counterexample: with records `d/x.py:g` and `d/x.py` (the second
defining a function `g`), the pass-1 node-map key `"d/x.py:g"` of the
first file is overwritten by the function entry, so the module pass
links module `d` (id 3) to the FUNCTION node `g` (id 2), which then has
two incoming `contains` links instead of exactly one. -/
theorem contains_link_collision :
    (buildGraph c9Bad).nodes.map (fun nd => (nd.id, nd.ntype, nd.name)) =
      [(0, NodeType.file, "x.py:g"), (1, NodeType.file, "x.py"),
       (2, NodeType.function, "g"), (3, NodeType.module, "d")] ∧
    (buildGraph c9Bad).links.countP (isContainsToL 2) = 2 := by
  exact ⟨by decide, by decide⟩

end CodeAn
